import Mathlib

/-!
# libbasen: the generic base-N engine (`src/src/baseN.cpp`)

Shallow embedding of `baseN::digitsMap`, `baseN::isValid`, `baseN::sizeEncoded`,
`baseN::sizeDecoded`, `baseN::encode` and `baseN::decode`.

Conventions of the embedding.

* A byte (`uint8_t`, `char`) is a natural number below 256; a byte sequence or a string is a
  `List Nat`.  A cast `(uint8_t)x` is `x % 256`, a store into a `uint16_t` is `% 65536`.
* A read-only pointer that the code only indexes (`const char *digits`) is the function from an
  offset to the byte stored there; an alphabet of `b` characters occupies the offsets `0 .. b-1`.
* The 256-entry table `map` is a `List Nat`; `map.getD c 0` is `map[c]`.
* `encode` and `decode` reach their output span only through reverse iterators.  The embedding
  keeps the *reverse view* of the span: position `p` of the list `sv` is `*(sv.rbegin() + p)`,
  which is `str[str_size - 1 - p]`.  The span is reversed on entry and reversed back on exit.
* A write through an iterator outside the span is undefined behaviour; the embedding stops there
  with the outcome `oob`.
* A `double` is a value `m * 2^e` (`Dbl`); the operations round to nearest, ties to even, to 53
  bits.  `size_t` has 64 bits and `char` is signed (x86-64).  The library function `std::log`
  is a parameter (`Libm`).
-/

namespace baseN

/-- Modelled from the spec: the codes of `basen::Exception`, whose header `Exception.hpp` is
not among the sources. `BASE`, `ALPH_COLLISION`, `OVERFLOW` and `OUT_OF_ALPH` are the codes that
`baseN.cpp` throws; `LENGTH` stands for the `InsufficientBufferError` of the spec, which no
statement of `baseN.cpp` throws. -/
inductive Code
  | BASE
  | ALPH_COLLISION
  | OVERFLOW
  | OUT_OF_ALPH
  | LENGTH
  deriving DecidableEq, Repr

/-- How a call of the buffer-based `encode` / `decode` ends. -/
inductive Outcome
  /-- Normal return: the output buffer after the call and the returned offset. -/
  | ret (buf : List Nat) (offset : Nat)
  /-- An exception was thrown: the output buffer at the throw and the code. -/
  | thrown (buf : List Nat) (c : Code)
  /-- A write outside the output buffer (undefined behaviour). -/
  | oob
  deriving DecidableEq, Repr

/-- How a call of an allocating overload ends. -/
inductive Alloc
  | value (out : List Nat)
  | thrown (c : Code)
  | oob
  deriving DecidableEq, Repr

/-- A C string literal seen through a `const char *`: the characters, then NUL bytes. -/
def cstr (s : String) : Nat → Nat :=
  fun i => (s.toList.map Char.toNat).getD i 0

/-- Checked write at position `p` of a span: `none` when `p` is outside the span. -/
def wr (buf : List Nat) (p v : Nat) : Option (List Nat) :=
  if p < buf.length then some (buf.set p v) else none

/-! ## digitsMap (lines 13-24) -/

/-- The `for` loop of `digitsMap`: `n` iterations are left, the counter is `i`. -/
def digitsMapLoop (digits : Nat → Nat) : Nat → Nat → List Nat → Except Code (List Nat)
  | 0, _, map => .ok map
  | n + 1, i, map =>
    if map.getD (digits i % 256) 0 ≠ 255 then
      .error Code.ALPH_COLLISION
    else
      digitsMapLoop digits n (i + 1) (map.set (digits i % 256) i)

/-- `digitsMap(digits, digits_size, map)`: the table written into `map`, or the exception.
`digits_size` is a `uint8_t`, so at most 255. -/
def digitsMap (digits : Nat → Nat) (digits_size : Nat) : Except Code (List Nat) :=
  digitsMapLoop digits digits_size 0 (List.replicate 256 255)

/-- The table after the first `i` alphabet characters have been entered: it has 256 entries,
holds `k` at the byte of every position `k < i`, and 255 at every byte that none of them has. -/
def MapInv (digits : Nat → Nat) (i : Nat) (map : List Nat) : Prop :=
  map.length = 256 ∧ (∀ k, k < i → map.getD (digits k) 0 = k) ∧
    (∀ c, c < 256 → (∀ k, k < i → digits k ≠ c) → map.getD c 0 = 255)

/-! ## isValid (lines 25-33) -/

/-- `isValid(str, map)`: `std::all_of` with `map[(uint8_t)ch] != 255`. -/
def isValid (str : List Nat) (map : List Nat) : Bool :=
  str.all (fun ch => map.getD (ch % 256) 0 != 255)

/-! ## Double precision

The size estimates are computed in `double` (IEEE 754 binary64, round to nearest, ties to even).
A finite non-negative double is kept as `m * 2^e`; every operation computes the exact result as
a fraction and rounds it to 53 significant bits.  The values of the estimates lie between
`2^-1` and `2^70`, so the exponent range of the format (subnormals, infinities) plays no
part. -/

/-- A finite non-negative `double`: the value `m * 2^e`. -/
structure Dbl where
  m : Nat
  e : Int
deriving DecidableEq

namespace Dbl

/-- The integer nearest to `N / D`, a tie going to the even one, in units of `2^e`. -/
def nearest (N D : Nat) (e : Int) : Dbl :=
  if 2 * (N % D) < D then ⟨N / D, e⟩
  else if D < 2 * (N % D) then ⟨N / D + 1, e⟩
  else ⟨N / D + N / D % 2, e⟩

/-- The number of bits of `n`, counted by halving (`fuel` bounds the number of halvings). -/
def bitsAux : Nat → Nat → Nat
  | 0, _ => 0
  | fuel + 1, n => if n = 0 then 0 else bitsAux fuel (n / 2) + 1

/-- The number of bits of `n`: `2^(bits n - 1) <= n < 2^(bits n)` for `n > 0`. -/
def bits (n : Nat) : Nat := bitsAux n n

/-- The double nearest to `num / den * 2^ex`: the fraction is scaled by a power of two so that
its integer part has 53 bits, and is then rounded to the nearest integer. -/
def round (num den : Nat) (ex : Int) : Dbl :=
  if num = 0 ∨ den = 0 then ⟨0, 0⟩
  else
    let up := bits den + 53 - bits num
    let down := bits num - (bits den + 53)
    if num * 2 ^ up / (den * 2 ^ down) < 2 ^ 53 then
      nearest (num * 2 ^ up) (den * 2 ^ down) (ex + down - up)
    else nearest (num * 2 ^ up) (2 * (den * 2 ^ down)) (ex + down - up + 1)

/-- Conversion of a `size_t` (or of the literal `1`) to `double`. -/
def ofNat (n : Nat) : Dbl := round n 1 0

/-- `x * y`. -/
def mul (x y : Dbl) : Dbl := round (x.m * y.m) 1 (x.e + y.e)

/-- `x / y`; the divisors of this file are logarithms of numbers from 2 on, never zero. -/
def div (x y : Dbl) : Dbl := round x.m y.m (x.e - y.e)

/-- `x + y`. -/
def add (x y : Dbl) : Dbl :=
  round (x.m * 2 ^ (x.e - min x.e y.e).toNat + y.m * 2 ^ (y.e - min x.e y.e).toNat) 1
    (min x.e y.e)

/-- `x < y`. -/
def lt (x y : Dbl) : Bool :=
  decide (x.m * 2 ^ (x.e - min x.e y.e).toNat < y.m * 2 ^ (y.e - min x.e y.e).toNat)

/-- Conversion of a `double` to `size_t`: the integer part (the conversion is defined for
values below `2^64`). -/
def toSize (x : Dbl) : Nat :=
  if 0 ≤ x.e then x.m * 2 ^ x.e.toNat else x.m / 2 ^ (-x.e).toNat

/-- The value of a double as a rational number. -/
def toRat (x : Dbl) : ℚ := (x.m : ℚ) * 2 ^ x.e

end Dbl

/-- The library function `std::log` of `<cmath>`, at the integer arguments the program passes
to it (256 and the base): its result is a double, positive for an argument from 2 on. -/
structure Libm where
  log : Nat → Dbl
  pos : ∀ b, 2 ≤ b → 0 < (log b).m

/-- An instance of the library for the examples: the results of `std::log` as glibc computes
them on x86-64 for the arguments 2, 3, 16, 119, 222 and 256, which are the doubles nearest to
the logarithms (`0x1.62e42fefa39efp-1` for 2, and so on).  Every other argument is given the
value for 256. -/
def glibcLog : Libm where
  log := fun b =>
    if b = 2 then ⟨0x162e42fefa39ef, -53⟩
    else if b = 3 then ⟨0x1193ea7aad030b, -52⟩
    else if b = 16 then ⟨0x162e42fefa39ef, -51⟩
    else if b = 119 then ⟨0x131dd28c89d653, -50⟩
    else if b = 222 then ⟨0x159c5775a7ebdf, -50⟩
    else ⟨0x162e42fefa39ef, -50⟩
  pos := by
    intro b _
    dsimp only
    split_ifs <;> decide

/-- The value of a `char` that holds the byte `c`; `char` is signed (x86-64). -/
def schar (c : Nat) : Int :=
  if c % 256 < 128 then ((c % 256 : Nat) : Int) else ((c % 256 : Nat) : Int) - 256

/-! ## sizeEncoded / sizeDecoded (lines 34-59)

`size_t` has 64 bits.  `log256` is the constant `std::log(256)` of line 9. -/

/-- `sizeEncoded(data, base)`: the overflow test compares `dv.size()` with
`numeric_limits<size_t>::max() / log256`, both as doubles; the result is
`dv.size() * log256 / std::log(base) + 1 + (data.size() - dv.size())`, computed in doubles from
left to right and converted to `size_t`. -/
def sizeEncoded (L : Libm) (data : List Nat) (base : Nat) : Except Code Nat :=
  if base < 2 ∨ base > 254 then .error Code.BASE
  else
    let dv := data.dropWhile (fun item => item == 0)
    if Dbl.lt (Dbl.div (Dbl.ofNat (2 ^ 64 - 1)) (L.log 256)) (Dbl.ofNat dv.length) then
      .error Code.OVERFLOW
    else
      .ok (Dbl.toSize (Dbl.add (Dbl.add
        (Dbl.div (Dbl.mul (Dbl.ofNat dv.length) (L.log 256)) (L.log base)) (Dbl.ofNat 1))
        (Dbl.ofNat (data.length - dv.length))))

/-- `sizeDecoded(str, base, digits)`: the result is
`sv.size() * std::log(base) / log256 + 1 + (str.size() - sv.size())`, computed in doubles and
converted to `size_t`.  The lambda of line 55 takes the character as `uint8_t` and compares it
with the `char` `digits[0]`: both are promoted to `int`, so a zero-digit of 128 or more, which
is negative as a `char`, equals no character. -/
def sizeDecoded (L : Libm) (str : List Nat) (base : Nat) (digits : Nat → Nat) :
    Except Code Nat :=
  if base < 2 ∨ base > 254 then .error Code.BASE
  else
    let sv := str.dropWhile (fun ch => ((ch % 256 : Nat) : Int) == schar (digits 0))
    .ok (Dbl.toSize (Dbl.add (Dbl.add
      (Dbl.div (Dbl.mul (Dbl.ofNat sv.length) (L.log base)) (L.log 256)) (Dbl.ofNat 1))
      (Dbl.ofNat (str.length - sv.length))))

/-! ## encode (lines 60-107) -/

/-- The iterators and the accumulator of `encode`: the vector `dv`, `quo_it_last` (as an index
into `dv`), the reverse view of the output span, `sv_it` (as a reverse position) and `div`. -/
structure EncState where
  dv : List Nat
  last : Nat
  sv : List Nat
  p : Nat
  div : Nat
  deriving DecidableEq, Repr

/-- The inner `while (dv_it < quo_it_last)` loop (lines 87-93); it runs `quo_it_last - dv_it`
times, `n` of them are left.  Returns `dv`, `quo_it` and `div`. -/
def encodeInner (base : Nat) : Nat → List Nat → Nat → Nat → Nat → List Nat × Nat × Nat
  | 0, dv, _, quo_it, div => (dv, quo_it, div)
  | n + 1, dv, dv_it, quo_it, div =>
    let div1 := (div * 256) % 65536
    let div2 := (div1 + dv.getD dv_it 0) % 65536
    encodeInner base n (dv.set quo_it ((div2 / base) % 256)) (dv_it + 1) (quo_it + 1)
      (div2 % base)

/-- One pass of the outer loop of `encode` (lines 80-98), entered with `dv_it = dv.begin() + 1`
and `quo_it = dv.begin()`. -/
def encodePass (base : Nat) (digits : Nat → Nat) (s : EncState) : Option EncState :=
  let div0 := if s.div < base then ((s.div * 256) % 65536 + s.dv.getD 1 0) % 65536 else s.div
  let dv_it := if s.div < base then 2 else 1
  let dv1 := s.dv.set 0 ((div0 / base) % 256)
  let r := encodeInner base (s.last - dv_it) dv1 dv_it 1 (div0 % base)
  match wr s.sv s.p (digits r.2.2) with
  | none => none
  | some sv1 => some { dv := r.1, last := r.2.1, sv := sv1, p := s.p + 1, div := r.1.getD 0 0 }

/-- The loop condition of line 78.  `sv_it < sv.rend() - 1` compares positions, so it is
`p + 1 < str_size` (false for an empty span). -/
def encodeCond (base : Nat) (s : EncState) : Bool :=
  (decide (s.dv.getD 0 0 > base) || decide (s.last > 1)) && decide (s.p + 1 < s.sv.length)

/-- The outer `while` loop of `encode` (lines 78-99).  Every pass advances `sv_it` and needs
`sv_it < sv.rend() - 1`, so `str_size` passes of fuel are never used up. -/
def encodeLoop (base : Nat) (digits : Nat → Nat) : Nat → EncState → Option EncState
  | 0, s => some s
  | fuel + 1, s =>
    if encodeCond base s then
      match encodePass base digits s with
      | none => none
      | some s1 => encodeLoop base digits fuel s1
    else some s

/-- The padding loop of lines 102-105 (`z` iterations at most), also used for lines 155-158 of
`decode` with the byte 0.  Returns the span and the iterator. -/
def padLoop (v : Nat) : Nat → List Nat → Nat → List Nat × Nat
  | 0, sv, p => (sv, p)
  | z + 1, sv, p => if p < sv.length then padLoop v z (sv.set p v) (p + 1) else (sv, p)

/-- The block of lines 75-101: the digits of a non-empty `dv`. -/
def encodeDigits (dv : List Nat) (sv : List Nat) (base : Nat) (digits : Nat → Nat) :
    Option (List Nat × Nat) :=
  if dv.length ≠ 0 then
    match encodeLoop base digits sv.length
        { dv := dv, last := dv.length, sv := sv, p := 0, div := dv.getD 0 0 } with
    | none => none
    | some s =>
      match wr s.sv s.p (digits s.div) with
      | none => none
      | some sv1 => some (sv1, s.p + 1)
  else some (sv, 0)

/-- `encode(data, data_size, str, str_size, base, digits)`, buffer-based. -/
def encode (data str : List Nat) (base : Nat) (digits : Nat → Nat) : Outcome :=
  if base < 2 ∨ base > 254 then Outcome.thrown str Code.BASE
  else
    let dv := data.dropWhile (fun item => item == 0)
    match encodeDigits dv str.reverse base digits with
    | none => Outcome.oob
    | some (sv1, p1) =>
      let r := padLoop (digits 0) (data.length - dv.length) sv1 p1
      Outcome.ret r.1.reverse (r.1.length - r.2)

/-- `encode(data, base, digits)`, allocating (lines 108-114): a string of `sizeEncoded` blanks,
the buffer-based call, then `erase` of the first `offset` characters. -/
def encodeAlloc (L : Libm) (data : List Nat) (base : Nat) (digits : Nat → Nat) : Alloc :=
  match sizeEncoded L data base with
  | .error c => Alloc.thrown c
  | .ok n =>
    match encode data (List.replicate n 32) base digits with
    | Outcome.ret buf offset => Alloc.value (buf.drop offset)
    | Outcome.thrown _ c => Alloc.thrown c
    | Outcome.oob => Alloc.oob

/-! ## decode (lines 115-167) -/

/-- The inner loop of `decode` (lines 141-146), with its guard
`quo_it < quo_it_last && quo_it < dv.rend()`; every iteration advances `quo_it`, so `data_size`
iterations of fuel are never used up.  Returns `dv`, `quo_it` and `div`. -/
def decodeInner (base : Nat) : Nat → List Nat → Nat → Nat → Nat → List Nat × Nat × Nat
  | 0, dv, _, quo_it, div => (dv, quo_it, div)
  | fuel + 1, dv, last, quo_it, div =>
    if quo_it < last ∧ quo_it < dv.length then
      let div1 := (div + dv.getD quo_it 0 * base) % 65536
      decodeInner base fuel (dv.set quo_it (div1 % 256)) last (quo_it + 1) (div1 / 256)
    else (dv, quo_it, div)

/-- The outer loop of `decode` (lines 138-153), one iteration for each remaining character.
Returns `dv` and `quo_it_last`. -/
def decodeLoop (base : Nat) (map : List Nat) : List Nat → List Nat → Nat → List Nat × Nat
  | [], dv, last => (dv, last)
  | ch :: rest, dv, last =>
    let r := decodeInner base dv.length dv last 0 (map.getD (ch % 256) 0)
    if r.2.2 ≠ 0 ∧ r.2.1 < r.1.length then
      decodeLoop base map rest (r.1.set r.2.1 (r.2.2 % 256)) (r.2.1 + 1)
    else
      decodeLoop base map rest r.1 r.2.1

/-- The block of lines 134-154: the bytes of a non-empty `sv`. -/
def decodeBytes (sv : List Nat) (dv : List Nat) (base : Nat) (map : List Nat) :
    Option (List Nat × Nat) :=
  match sv with
  | [] => some (dv, 0)
  | ch :: rest =>
    match wr dv 0 (map.getD (ch % 256) 0) with
    | none => none
    | some dv1 => some (decodeLoop base map rest dv1 1)

/-- `decode(str, str_size, data, data_size, base, digits, map)`, buffer-based. -/
def decode (str data : List Nat) (base : Nat) (digits : Nat → Nat) (map : List Nat) : Outcome :=
  if base < 2 ∨ base > 254 then Outcome.thrown data Code.BASE
  else
    let sv := str.dropWhile (fun ch => ch == digits 0)
    if !isValid sv map then Outcome.thrown data Code.OUT_OF_ALPH
    else
      match decodeBytes sv data.reverse base map with
      | none => Outcome.oob
      | some (dv1, last1) =>
        let r := padLoop 0 (str.length - sv.length) dv1 last1
        Outcome.ret r.1.reverse (r.1.length - r.2)

/-- `decode(str, base, digits, map)`, allocating (lines 161-167). -/
def decodeAlloc (L : Libm) (str : List Nat) (base : Nat) (digits : Nat → Nat)
    (map : List Nat) : Alloc :=
  match sizeDecoded L str base digits with
  | .error c => Alloc.thrown c
  | .ok n =>
    match decode str (List.replicate n 0) base digits map with
    | Outcome.ret buf offset => Alloc.value (buf.drop offset)
    | Outcome.thrown _ c => Alloc.thrown c
    | Outcome.oob => Alloc.oob

/-! ## Values of byte and digit sequences, used to state what the engine computes -/

/-- The table `digitsMap` builds for an alphabet (the empty list if it throws). -/
def tableOf (digits : Nat → Nat) (digits_size : Nat) : List Nat :=
  match digitsMap digits digits_size with
  | .ok map => map
  | .error _ => []

/-- Value of a digit sequence in base `b`, most significant digit first. -/
def beValue (b : Nat) (l : List Nat) : Nat :=
  l.foldl (fun acc d => acc * b + d) 0

/-- Value of a byte sequence, least significant byte first. -/
def leValue : List Nat → Nat
  | [] => 0
  | x :: l => x + 256 * leValue l

/-- Value of the digit string `cs` read through `map` in base `base`, continuing from the
value `acc` of the characters before it: `sum map[cs_i] * base^(len - 1 - i)` when `acc = 0`. -/
def strValue (base : Nat) (map : List Nat) (acc : Nat) (cs : List Nat) : Nat :=
  cs.foldl (fun a c => a * base + map.getD (c % 256) 0) acc

/-- Value of the `n` bytes of `dv` from index `i` on, most significant byte first. -/
def segVal (dv : List Nat) : Nat → Nat → Nat
  | _, 0 => 0
  | i, n + 1 => dv.getD i 0 * 256 ^ n + segVal dv (i + 1) n

/-- The digit values `encode` emits for a non-zero value `v`, least significant first, when the
buffer has room: the remainders of the divisions by `base` while the quotient exceeds `base`
(line 78 tests `dv[0] > base`), then the last quotient itself. -/
def emitted (base v : Nat) : List Nat :=
  if _h : 2 ≤ base ∧ base < v then (v % base) :: emitted base (v / base) else [v]
termination_by v
decreasing_by exact Nat.div_lt_self (by omega) (by omega)

/-- The digit values `encode` emits for the significant bytes `r` (none when `r` is empty). -/
def encDigits (base : Nat) (r : List Nat) : List Nat :=
  if r = [] then [] else emitted base (beValue 256 r)

/-- The state of `encode` at the head of its outer loop holds the value `v`: the first
`quo_it_last` bytes of `dv` are a big-endian representation of `v` with a non-zero first byte,
and `div` holds `dv[0]`. -/
def EncInv (s : EncState) (v : Nat) : Prop :=
  1 ≤ s.last ∧ s.last ≤ s.dv.length ∧ (∀ t, t < s.last → s.dv.getD t 0 < 256) ∧
    1 ≤ s.dv.getD 0 0 ∧ s.div = s.dv.getD 0 0 ∧ segVal s.dv 0 s.last = v

/-! ## Whether the values fit the 16-bit accumulator `div` and the bytes they are stored in

These functions follow the loops exactly as `encodeInner`, `encodePass`, `encodeLoop`,
`decodeInner` and `decodeLoop` run them, and test at every step the value that exact integer
arithmetic gives before it is stored. -/

/-- The inner loop of `encode`: every `div << 8` and every `div + *dv_it` is at most 65535 and
every quotient stored through `quo_it` is at most 255. -/
def encodeInnerFits (base : Nat) : Nat → List Nat → Nat → Nat → Nat → Bool
  | 0, _, _, _, _ => true
  | n + 1, dv, dv_it, quo_it, div =>
    let div1 := (div * 256) % 65536
    let div2 := (div1 + dv.getD dv_it 0) % 65536
    decide (div * 256 ≤ 65535) && decide (div * 256 + dv.getD dv_it 0 ≤ 65535) &&
      decide ((div * 256 + dv.getD dv_it 0) / base ≤ 255) &&
      encodeInnerFits base n (dv.set quo_it ((div2 / base) % 256)) (dv_it + 1) (quo_it + 1)
        (div2 % base)

/-- One pass of the outer loop of `encode`: the values of lines 82-86 and of the inner loop. -/
def encodePassFits (base : Nat) (s : EncState) : Bool :=
  let div0 := if s.div < base then ((s.div * 256) % 65536 + s.dv.getD 1 0) % 65536 else s.div
  let dv_it := if s.div < base then 2 else 1
  (if s.div < base then
      decide (s.div * 256 ≤ 65535) && decide (s.div * 256 + s.dv.getD 1 0 ≤ 65535)
    else true) &&
    decide (div0 / base ≤ 255) &&
    encodeInnerFits base (s.last - dv_it) (s.dv.set 0 ((div0 / base) % 256)) dv_it 1
      (div0 % base)

/-- The outer loop of `encode`: every pass that `encodeLoop` runs fits. -/
def encodeLoopFits (base : Nat) (digits : Nat → Nat) : Nat → EncState → Bool
  | 0, _ => true
  | fuel + 1, s =>
    if encodeCond base s then
      encodePassFits base s &&
        (match encodePass base digits s with
        | none => true
        | some s1 => encodeLoopFits base digits fuel s1)
    else true

/-- A call of the buffer-based `encode`: every value computed into `div` and every quotient
stored fits. -/
def encodeFits (data str : List Nat) (base : Nat) (digits : Nat → Nat) : Bool :=
  if base < 2 ∨ base > 254 then true
  else
    let dv := data.dropWhile (fun item => item == 0)
    if dv.length ≠ 0 then
      encodeLoopFits base digits str.reverse.length
        { dv := dv, last := dv.length, sv := str.reverse, p := 0, div := dv.getD 0 0 }
    else true

/-- The inner loop of `decode`: every `div + *quo_it * base` is at most 65535. -/
def decodeInnerFits (base : Nat) : Nat → List Nat → Nat → Nat → Nat → Bool
  | 0, _, _, _, _ => true
  | fuel + 1, dv, last, quo_it, div =>
    if quo_it < last ∧ quo_it < dv.length then
      let div1 := (div + dv.getD quo_it 0 * base) % 65536
      decide (div + dv.getD quo_it 0 * base ≤ 65535) &&
        decodeInnerFits base fuel (dv.set quo_it (div1 % 256)) last (quo_it + 1) (div1 / 256)
    else true

/-- The outer loop of `decode`: the inner loop fits and the carry stored at line 149 is at most
255. -/
def decodeLoopFits (base : Nat) (map : List Nat) : List Nat → List Nat → Nat → Bool
  | [], _, _ => true
  | ch :: rest, dv, last =>
    let r := decodeInner base dv.length dv last 0 (map.getD (ch % 256) 0)
    decodeInnerFits base dv.length dv last 0 (map.getD (ch % 256) 0) &&
      (if r.2.2 ≠ 0 ∧ r.2.1 < r.1.length then
        decide (r.2.2 ≤ 255) &&
          decodeLoopFits base map rest (r.1.set r.2.1 (r.2.2 % 256)) (r.2.1 + 1)
      else
        decodeLoopFits base map rest r.1 r.2.1)

/-- A call of the buffer-based `decode`: every value computed into `div` and every carry stored
fits. -/
def decodeFits (str data : List Nat) (base : Nat) (digits : Nat → Nat) (map : List Nat) :
    Bool :=
  if base < 2 ∨ base > 254 then true
  else
    let sv := str.dropWhile (fun ch => ch == digits 0)
    if !isValid sv map then true
    else
      match sv with
      | [] => true
      | ch :: rest =>
        match wr data.reverse 0 (map.getD (ch % 256) 0) with
        | none => true
        | some dv1 => decodeLoopFits base map rest dv1 1

end baseN

/-! ## The base64 facade (`include/basen/base64.hpp`)

Only the declarations of the facade are among the sources. -/

namespace base64

/-- Modelled from the spec: `base64::digits`, declared in `base64.hpp` and defined in a source
file that is not among the sources; the spec gives "the 64-symbol standard base64 table
(`A`-`Z`, `a`-`z`, `0`-`9`, `+`, `/`)". -/
def digits : Nat → Nat :=
  baseN.cstr "ABCDEFGHIJKLMNOPQRSTUVWXYZabcdefghijklmnopqrstuvwxyz0123456789+/"

/-- Modelled from the spec: `base64::map`, declared in `base64.hpp` and defined in a source file
that is not among the sources; the spec gives it as the inverse of the alphabet, the
256-entry table with the sentinel at the unmapped bytes, which `digitsMap` builds. -/
def map : List Nat :=
  baseN.tableOf digits 64

/-- Modelled from the spec: `base64::isValid`, declared in `base64.hpp` and defined in a source
file that is not among the sources. The spec gives it as the alphabet check of the facade, with
`=` the padding character of the standard framing (padding to the next multiple of 4, so at
most two of them) and with `isValid("1===")` false: the trailing run of `=` (byte 61) is taken
off, it may have at most 2 characters, and what is left is checked by `baseN::isValid` against
the table of the alphabet. -/
def isValid (str : List Nat) : Bool :=
  let body := (str.reverse.dropWhile (fun ch => ch == 61)).reverse
  decide (str.length - body.length ≤ 2) && baseN.isValid body map

end base64

/-! ## The hex facade (`include/basen/hex.hpp`)

Only the declarations of the facade are among the sources. -/

namespace hex

/-- Modelled from the spec: `hex::digits`, declared in `hex.hpp` (`extern const char
digits[17]`) and defined in a source file that is not among the sources; the spec gives
"alphabet = `0123456789abcdef`, base = 16, zero-digit = `0`". -/
def digits : Nat → Nat :=
  baseN.cstr "0123456789abcdef"

/-- Modelled from the spec: `hex::encode`, declared in `hex.hpp` and defined in a source file
that is not among the sources.  The spec gives the hex format as "fixed 2 characters per byte",
"a direct nibble-per-digit fixed-width encoding": every byte yields the digit of its high
nibble, then the digit of its low nibble. -/
def encode : List Nat → List Nat
  | [] => []
  | b :: rest => digits (b % 256 / 16) :: digits (b % 16) :: encode rest

end hex

namespace baseN

/-! # Theorems -/

/-! ## Auxiliary facts on lists -/

theorem getD_set_eq (l : List Nat) (i v d : Nat) (h : i < l.length) :
    (l.set i v).getD i d = v := by
  simp [List.getD_eq_getElem?_getD, List.getElem?_set_self h]

theorem getD_set_ne (l : List Nat) (i j v d : Nat) (h : i ≠ j) :
    (l.set i v).getD j d = l.getD j d := by
  simp [List.getD_eq_getElem?_getD, List.getElem?_set_ne h]

/-! ## digitsMap -/

theorem mapInv_injective (digits : Nat → Nat) (i : Nat) (map : List Nat)
    (h : MapInv digits i map) (a b : Nat) (hab : a < b) (hb : b < i) :
    digits a ≠ digits b := by
  intro he
  have h1 := h.2.1 a (by omega)
  have h2 := h.2.1 b hb
  rw [he] at h1
  omega

theorem digitsMapLoop_spec (digits : Nat → Nat) :
    ∀ (n i : Nat) (map : List Nat), i + n ≤ 255 → (∀ k, k < i + n → digits k < 256) →
      MapInv digits i map →
      (digitsMapLoop digits n i map = .error Code.ALPH_COLLISION ∧
          ∃ a b, a < b ∧ b < i + n ∧ digits a = digits b) ∨
        (∃ m, digitsMapLoop digits n i map = .ok m ∧ MapInv digits (i + n) m ∧
          ∀ a b, a < b → b < i + n → digits a ≠ digits b) := by
  intro n
  induction n with
  | zero =>
    intro i map _ _ hinv
    right
    exact ⟨map, rfl, hinv, fun a b hab hb => mapInv_injective digits i map hinv a b hab hb⟩
  | succ n ih =>
    intro i map hle hbyte hinv
    have hci : digits i % 256 = digits i := Nat.mod_eq_of_lt (hbyte i (by omega))
    have hlt : digits i < 256 := hbyte i (by omega)
    by_cases hcol : map.getD (digits i) 0 ≠ 255
    · left
      refine ⟨by rw [digitsMapLoop, hci, if_pos hcol], ?_⟩
      by_contra hno
      apply hcol
      apply hinv.2.2 (digits i) hlt
      intro k hk he
      exact hno ⟨k, i, hk, by omega, he⟩
    · have hfree : map.getD (digits i) 0 = 255 := by
        by_contra hx
        exact hcol hx
      have hnew : ∀ k, k < i → digits k ≠ digits i := by
        intro k hk he
        have := hinv.2.1 k hk
        rw [he, hfree] at this
        omega
      have hinv1 : MapInv digits (i + 1) (map.set (digits i) i) := by
        refine ⟨by simpa using hinv.1, ?_, ?_⟩
        · intro k hk
          by_cases hki : k = i
          · subst hki
            exact getD_set_eq map (digits k) k 0 (by rw [hinv.1]; exact hlt)
          · rw [getD_set_ne map (digits i) (digits k) i 0 (fun he => hnew k (by omega) he.symm)]
            exact hinv.2.1 k (by omega)
        · intro c hc hfar
          rw [getD_set_ne map (digits i) c i 0 (hfar i (by omega))]
          exact hinv.2.2 c hc (fun k hk => hfar k (by omega))
      have hstep : digitsMapLoop digits (n + 1) i map =
          digitsMapLoop digits n (i + 1) (map.set (digits i) i) := by
        rw [digitsMapLoop, hci, if_neg hcol]
      rw [hstep]
      have := ih (i + 1) (map.set (digits i) i) (by omega)
        (fun k hk => hbyte k (by omega)) hinv1
      rw [show i + 1 + n = i + (n + 1) by omega] at this
      exact this

theorem mapInv_init (digits : Nat → Nat) : MapInv digits 0 (List.replicate 256 255) := by
  refine ⟨List.length_replicate 256 255, ?_, ?_⟩
  · intro k hk
    omega
  · intro c hc _
    rw [List.getD_eq_getElem?_getD, List.getElem?_replicate, if_pos hc]
    rfl

/-- What a successfully built table holds. -/
theorem digitsMap_ok (digits : Nat → Nat) (N : Nat) (map : List Nat) (hN : N ≤ 255)
    (hbyte : ∀ i, i < N → digits i < 256) (hmap : digitsMap digits N = .ok map) :
    MapInv digits N map ∧ ∀ a b, a < b → b < N → digits a ≠ digits b := by
  have h := digitsMapLoop_spec digits N 0 (List.replicate 256 255) (by omega)
    (fun k hk => hbyte k (by omega)) (mapInv_init digits)
  unfold digitsMap at hmap
  rcases h with ⟨herr, _⟩ | ⟨m, hm, hinv, hinj⟩
  · rw [herr] at hmap
    cases hmap
  · rw [hm] at hmap
    cases hmap
    simp only [Nat.zero_add] at hinv hinj
    exact ⟨hinv, hinj⟩

/-- C8. Alphabet map construction: for an alphabet of `N ≤ 255` bytes, `digitsMap` throws
`ALPH_COLLISION` exactly when two positions of the alphabet hold the same byte, and succeeds
otherwise; a table it builds has 256 entries, holds `i` at the byte of position `i`, holds the
sentinel 255 at every byte that is no alphabet character, and holds 255 at no alphabet
character. -/
theorem digitsMap_spec (digits : Nat → Nat) (N : Nat) (hN : N ≤ 255)
    (hbyte : ∀ i, i < N → digits i < 256) :
    (digitsMap digits N = .error Code.ALPH_COLLISION ↔
        ∃ i j, i < j ∧ j < N ∧ digits i = digits j) ∧
      ((∃ map, digitsMap digits N = .ok map) ↔
        ¬ ∃ i j, i < j ∧ j < N ∧ digits i = digits j) ∧
      ∀ map, digitsMap digits N = .ok map →
        map.length = 256 ∧
        (∀ i, i < N → map.getD (digits i % 256) 0 = i) ∧
        (∀ c, c < 256 → (∀ i, i < N → digits i ≠ c) → map.getD c 0 = 255) ∧
        (∀ i, i < N → map.getD (digits i % 256) 0 ≠ 255) := by
  have h := digitsMapLoop_spec digits N 0 (List.replicate 256 255) (by omega)
    (fun k hk => hbyte k (by omega)) (mapInv_init digits)
  simp only [Nat.zero_add] at h
  refine ⟨?_, ?_, ?_⟩
  · constructor
    · intro he
      rcases h with ⟨_, hc⟩ | ⟨m, hm, _, _⟩
      · exact hc
      · unfold digitsMap at he
        rw [hm] at he
        cases he
    · rintro ⟨a, b, hab, hb, he⟩
      rcases h with ⟨herr, _⟩ | ⟨m, _, _, hinj⟩
      · exact herr
      · exact absurd he (hinj a b hab hb)
  · constructor
    · rintro ⟨map, hmap⟩ ⟨a, b, hab, hb, he⟩
      exact (digitsMap_ok digits N map hN hbyte hmap).2 a b hab hb he
    · intro hno
      rcases h with ⟨_, hc⟩ | ⟨m, hm, _, _⟩
      · exact absurd hc hno
      · exact ⟨m, hm⟩
  · intro map hmap
    have hinv := (digitsMap_ok digits N map hN hbyte hmap).1
    refine ⟨hinv.1, ?_, hinv.2.2, ?_⟩
    · intro i hi
      rw [Nat.mod_eq_of_lt (hbyte i hi)]
      exact hinv.2.1 i hi
    · intro i hi
      rw [Nat.mod_eq_of_lt (hbyte i hi), hinv.2.1 i hi]
      omega

/-- C8 at the alphabet "AAB": positions 0 and 1 collide. -/
theorem digitsMap_spec_witness :
    digitsMap (cstr "AAB") 3 = .error Code.ALPH_COLLISION :=
  (digitsMap_spec (cstr "AAB") 3 (by decide) (by decide)).1.2 ⟨0, 1, by decide⟩

/-! ## isValid -/

theorem isValid_iff (str map : List Nat) :
    isValid str map = true ↔ ∀ c, c ∈ str → map.getD (c % 256) 0 ≠ 255 := by
  unfold isValid
  rw [List.all_eq_true]
  constructor
  · intro h c hc
    have := h c hc
    simpa using this
  · intro h c hc
    have := h c hc
    simpa using this

/-- A table built by `digitsMap` holds the sentinel exactly at the bytes outside the alphabet. -/
theorem mapInv_sentinel (digits : Nat → Nat) (N : Nat) (map : List Nat) (hN : N ≤ 255)
    (hinv : MapInv digits N map) (c : Nat) (hc : c < 256) :
    map.getD c 0 ≠ 255 ↔ ∃ i, i < N ∧ digits i = c := by
  constructor
  · intro h
    by_contra hno
    apply h
    apply hinv.2.2 c hc
    intro k hk he
    exact hno ⟨k, hk, he⟩
  · rintro ⟨i, hi, he⟩
    rw [← he, hinv.2.1 i hi]
    omega

/-- C9. Validator: `isValid(str, map)` is true exactly when `map[byte(c)] != 255` for every
character `c` of `str` (so it is true for the empty string); and for a table built by `digitsMap`
from an alphabet of `N ≤ 255` bytes, it is true exactly when every character of the byte string
`str` occurs in the alphabet. -/
theorem isValid_spec :
    (∀ str map : List Nat,
        isValid str map = true ↔ ∀ c, c ∈ str → map.getD (c % 256) 0 ≠ 255) ∧
      (∀ map : List Nat, isValid [] map = true) ∧
      (∀ (digits : Nat → Nat) (N : Nat) (map str : List Nat), N ≤ 255 →
        (∀ i, i < N → digits i < 256) → digitsMap digits N = .ok map →
        (∀ c, c ∈ str → c < 256) →
        (isValid str map = true ↔ ∀ c, c ∈ str → ∃ i, i < N ∧ digits i = c)) := by
  refine ⟨isValid_iff, fun _ => rfl, ?_⟩
  intro digits N map str hN hbyte hmap hstr
  have hinv := (digitsMap_ok digits N map hN hbyte hmap).1
  rw [isValid_iff]
  constructor
  · intro h c hc
    have h1 := h c hc
    rw [Nat.mod_eq_of_lt (hstr c hc)] at h1
    exact (mapInv_sentinel digits N map hN hinv c (hstr c hc)).1 h1
  · intro h c hc
    rw [Nat.mod_eq_of_lt (hstr c hc)]
    exact (mapInv_sentinel digits N map hN hinv c (hstr c hc)).2 (h c hc)

/-- C9 at the alphabet "0123456789abcdef": "4d" is valid, all its characters being in the
alphabet. -/
theorem isValid_spec_witness :
    isValid [52, 100] (tableOf (cstr "0123456789abcdef") 16) = true :=
  (isValid_spec.2.2 (cstr "0123456789abcdef") 16 (tableOf (cstr "0123456789abcdef") 16)
    [52, 100] (by decide) (by decide) (by rfl) (by decide)).2 (by decide)

/-! ## The base check -/

/-- C7. Base validation: `sizeEncoded`, `sizeDecoded`, the buffer-based and the allocating
`encode` and `decode` throw `BASE` exactly when `base < 2` or `base > 254` (so base 0, 1 and 255
fail with it, base 2 and 254 do not), whatever the other arguments are; and when the
buffer-based `encode` and `decode` throw it, the output buffer is the one they were given. -/
theorem base_check (L : Libm) (data str buf : List Nat) (base : Nat) (digits : Nat → Nat)
    (map : List Nat) :
    (sizeEncoded L data base = .error Code.BASE ↔ (base < 2 ∨ base > 254)) ∧
      (sizeDecoded L str base digits = .error Code.BASE ↔ (base < 2 ∨ base > 254)) ∧
      (encode data buf base digits = Outcome.thrown buf Code.BASE ↔ (base < 2 ∨ base > 254)) ∧
      (decode str buf base digits map = Outcome.thrown buf Code.BASE ↔
        (base < 2 ∨ base > 254)) ∧
      ((∃ b, encode data buf base digits = Outcome.thrown b Code.BASE) ↔
        (base < 2 ∨ base > 254)) ∧
      ((∃ b, decode str buf base digits map = Outcome.thrown b Code.BASE) ↔
        (base < 2 ∨ base > 254)) ∧
      (encodeAlloc L data base digits = Alloc.thrown Code.BASE ↔ (base < 2 ∨ base > 254)) ∧
      (decodeAlloc L str base digits map = Alloc.thrown Code.BASE ↔
        (base < 2 ∨ base > 254)) := by
  by_cases hb : base < 2 ∨ base > 254
  · have he : encode data buf base digits = Outcome.thrown buf Code.BASE := by
      rw [encode, if_pos hb]
    have hd : decode str buf base digits map = Outcome.thrown buf Code.BASE := by
      rw [decode, if_pos hb]
    have hse : sizeEncoded L data base = .error Code.BASE := by
      rw [sizeEncoded, if_pos hb]
    have hsd : sizeDecoded L str base digits = .error Code.BASE := by
      rw [sizeDecoded, if_pos hb]
    refine ⟨?_, ?_, ?_, ?_, ?_, ?_, ?_, ?_⟩
    · exact ⟨fun _ => hb, fun _ => hse⟩
    · exact ⟨fun _ => hb, fun _ => hsd⟩
    · exact ⟨fun _ => hb, fun _ => he⟩
    · exact ⟨fun _ => hb, fun _ => hd⟩
    · exact ⟨fun _ => hb, fun _ => ⟨buf, he⟩⟩
    · exact ⟨fun _ => hb, fun _ => ⟨buf, hd⟩⟩
    · refine ⟨fun _ => hb, fun _ => ?_⟩
      rw [encodeAlloc, hse]
    · refine ⟨fun _ => hb, fun _ => ?_⟩
      rw [decodeAlloc, hsd]
  · have he : ∀ s b, encode data s base digits ≠ Outcome.thrown b Code.BASE := by
      intro s b
      rw [encode, if_neg hb]
      dsimp only
      split <;> simp
    have hd : ∀ s b, decode str s base digits map ≠ Outcome.thrown b Code.BASE := by
      intro s b
      rw [decode, if_neg hb]
      dsimp only
      split
      · simp
      · split <;> simp
    have hse : sizeEncoded L data base ≠ .error Code.BASE := by
      intro h
      rw [sizeEncoded, if_neg hb] at h
      dsimp only at h
      split at h <;> simp at h
    have hsd : sizeDecoded L str base digits ≠ .error Code.BASE := by
      intro h
      rw [sizeDecoded, if_neg hb] at h
      simp at h
    refine ⟨?_, ?_, ?_, ?_, ?_, ?_, ?_, ?_⟩
    · exact ⟨fun h => absurd h hse, fun h => absurd h hb⟩
    · exact ⟨fun h => absurd h hsd, fun h => absurd h hb⟩
    · exact ⟨fun h => absurd h (he buf buf), fun h => absurd h hb⟩
    · exact ⟨fun h => absurd h (hd buf buf), fun h => absurd h hb⟩
    · exact ⟨fun ⟨b, h⟩ => absurd h (he buf b), fun h => absurd h hb⟩
    · exact ⟨fun ⟨b, h⟩ => absurd h (hd buf b), fun h => absurd h hb⟩
    · refine ⟨fun h => ?_, fun h => absurd h hb⟩
      exfalso
      unfold encodeAlloc at h
      cases hs : sizeEncoded L data base with
      | error c =>
        rw [hs] at h
        simp only [Alloc.thrown.injEq] at h
        exact hse (by rw [hs, h])
      | ok n =>
        rw [hs] at h
        dsimp only at h
        cases hr : encode data (List.replicate n 32) base digits with
        | ret b o =>
          rw [hr] at h
          cases h
        | thrown b c =>
          rw [hr] at h
          simp only [Alloc.thrown.injEq] at h
          exact he _ b (by rw [hr, h])
        | oob =>
          rw [hr] at h
          cases h
    · refine ⟨fun h => ?_, fun h => absurd h hb⟩
      exfalso
      unfold decodeAlloc at h
      cases hs : sizeDecoded L str base digits with
      | error c =>
        rw [hs] at h
        simp only [Alloc.thrown.injEq] at h
        exact hsd (by rw [hs, h])
      | ok n =>
        rw [hs] at h
        dsimp only at h
        cases hr : decode str (List.replicate n 0) base digits map with
        | ret b o =>
          rw [hr] at h
          cases h
        | thrown b c =>
          rw [hr] at h
          simp only [Alloc.thrown.injEq] at h
          exact hd _ b (by rw [hr, h])
        | oob =>
          rw [hr] at h
          cases h

/-! ## Values -/

theorem getD_append_length (done : List Nat) (x : Nat) (tl : List Nat) (d : Nat) :
    (done ++ x :: tl).getD done.length d = x := by
  induction done with
  | nil => rfl
  | cons a done ih => simpa using ih

theorem set_append_length (done : List Nat) (x y : Nat) (tl : List Nat) :
    (done ++ x :: tl).set done.length y = done ++ y :: tl := by
  induction done with
  | nil => rfl
  | cons a done ih => simp [ih]

theorem leValue_append (a b : List Nat) :
    leValue (a ++ b) = leValue a + 256 ^ a.length * leValue b := by
  induction a with
  | nil => simp [leValue]
  | cons x a ih =>
    rw [List.cons_append, leValue, ih, leValue, List.length_cons, pow_succ]
    ring

theorem leValue_lt (m : List Nat) (h : ∀ x, x ∈ m → x < 256) : leValue m < 256 ^ m.length := by
  induction m with
  | nil => simp [leValue]
  | cons x m ih =>
    have hx := h x (by simp)
    have hm := ih (fun y hy => h y (by simp [hy]))
    simp only [leValue, List.length_cons, pow_succ]
    omega

theorem beValue_append_one (b : Nat) (l : List Nat) (x : Nat) :
    beValue b (l ++ [x]) = beValue b l * b + x := by
  simp [beValue, List.foldl_append]

theorem beValue_reverse (l : List Nat) : beValue 256 l.reverse = leValue l := by
  induction l with
  | nil => rfl
  | cons x l ih =>
    rw [List.reverse_cons, beValue_append_one, ih, leValue]
    ring

theorem strValue_mono (base : Nat) (map : List Nat) (hb : 1 ≤ base) (cs : List Nat) :
    ∀ acc, acc ≤ strValue base map acc cs := by
  induction cs with
  | nil => intro acc; exact le_refl _
  | cons c cs ih =>
    intro acc
    have h1 := ih (acc * base + map.getD (c % 256) 0)
    have h2 : acc ≤ acc * base := Nat.le_mul_of_pos_right acc hb
    simp only [strValue, List.foldl_cons] at h1 ⊢
    omega

theorem strValue_acc (base : Nat) (map : List Nat) (cs : List Nat) :
    ∀ acc, strValue base map acc cs = acc * base ^ cs.length + strValue base map 0 cs := by
  induction cs with
  | nil => intro acc; simp [strValue]
  | cons c cs ih =>
    intro acc
    show strValue base map (acc * base + map.getD (c % 256) 0) cs =
      acc * base ^ (cs.length + 1) + strValue base map (0 * base + map.getD (c % 256) 0) cs
    rw [ih (acc * base + map.getD (c % 256) 0), ih (0 * base + map.getD (c % 256) 0), pow_succ]
    ring

/-- `strValue` from 0 is the positional sum: the first character weighs `base ^ (len - 1)`. -/
theorem strValue_cons (base : Nat) (map : List Nat) (c : Nat) (cs : List Nat) :
    strValue base map 0 (c :: cs) =
      map.getD (c % 256) 0 * base ^ cs.length + strValue base map 0 cs := by
  show strValue base map (0 * base + map.getD (c % 256) 0) cs = _
  rw [strValue_acc, Nat.zero_mul, Nat.zero_add]

/-! ## decode -/

theorem decodeInner_spec (base : Nat) (hbase : base ≤ 254) :
    ∀ (todo done rest : List Nat) (fuel div : Nat), todo.length ≤ fuel →
      (∀ x, x ∈ todo → x < 256) → div ≤ 255 →
      ∃ todo1 c, decodeInner base fuel (done ++ todo ++ rest) (done.length + todo.length)
            done.length div = (done ++ todo1 ++ rest, done.length + todo.length, c) ∧
        todo1.length = todo.length ∧ (∀ x, x ∈ todo1 → x < 256) ∧ c ≤ 255 ∧
        leValue todo1 + c * 256 ^ todo.length = leValue todo * base + div := by
  intro todo
  induction todo with
  | nil =>
    intro done rest fuel div _ _ hdiv
    refine ⟨[], div, ?_, rfl, by simp, hdiv, by simp [leValue]⟩
    cases fuel with
    | zero => simp [decodeInner]
    | succ f => simp [decodeInner]
  | cons x todo ih =>
    intro done rest fuel div hfuel hbytes hdiv
    have hx : x < 256 := hbytes x (by simp)
    obtain ⟨f, rfl⟩ : ∃ f, fuel = f + 1 := ⟨fuel - 1, by simp at hfuel; omega⟩
    have hprod : x * base ≤ 255 * 254 := Nat.mul_le_mul (by omega) hbase
    have hnow : (div + x * base) % 65536 = div + x * base := Nat.mod_eq_of_lt (by omega)
    have hguard : done.length < done.length + (x :: todo).length ∧
        done.length < (done ++ (x :: todo) ++ rest).length := by
      simp
    have hget : (done ++ (x :: todo) ++ rest).getD done.length 0 = x := by
      rw [List.append_assoc, List.cons_append]
      exact getD_append_length done x (todo ++ rest) 0
    have hset : ∀ y, (done ++ (x :: todo) ++ rest).set done.length y =
        (done ++ [y]) ++ todo ++ rest := by
      intro y
      rw [List.append_assoc, List.cons_append, set_append_length]
      simp
    obtain ⟨todo1, c, hrun, hlen1, hb1, hc, hval⟩ :=
      ih (done ++ [(div + x * base) % 256]) rest f ((div + x * base) / 256)
        (by simp at hfuel; omega) (fun y hy => hbytes y (by simp [hy])) (by omega)
    refine ⟨(div + x * base) % 256 :: todo1, c, ?_, by simp [hlen1], ?_, hc, ?_⟩
    · rw [decodeInner, if_pos hguard]
      simp only [hget, hnow, hset]
      have e1 : (done ++ [(div + x * base) % 256]).length + todo.length =
          done.length + (x :: todo).length := by
        simp
        omega
      have e2 : (done ++ [(div + x * base) % 256]).length = done.length + 1 := by simp
      rw [e1, e2] at hrun
      rw [hrun]
      simp
    · intro y hy
      rcases List.mem_cons.1 hy with rfl | h
      · exact Nat.mod_lt _ (by omega)
      · exact hb1 y h
    · simp only [leValue, List.length_cons, pow_succ]
      have := Nat.div_add_mod (div + x * base) 256
      nlinarith [hval, this]

theorem padLoop_spec (v : Nat) :
    ∀ (mid a c : List Nat),
      padLoop v mid.length (a ++ mid ++ c) a.length =
        (a ++ List.replicate mid.length v ++ c, a.length + mid.length) := by
  intro mid
  induction mid with
  | nil => intro a c; simp [padLoop]
  | cons x mid ih =>
    intro a c
    have hlt : a.length < (a ++ x :: mid ++ c).length := by simp
    have hset : (a ++ x :: mid ++ c).set a.length v = (a ++ [v]) ++ mid ++ c := by
      rw [List.append_assoc, List.cons_append, set_append_length]
      simp
    rw [List.length_cons, padLoop, if_pos hlt, hset]
    have := ih (a ++ [v]) c
    rw [List.length_append, List.length_singleton] at this
    rw [this, List.replicate_succ]
    simp
    omega

theorem decodeLoop_spec (base : Nat) (map : List Nat) (hb1 : 1 ≤ base) (hbase : base ≤ 254)
    (k : Nat) :
    ∀ (cs m rest : List Nat), (∀ x, x ∈ m → x < 256) → 1 ≤ leValue m →
      256 ^ m.length ≤ 256 * leValue m → (∀ c, c ∈ cs → map.getD (c % 256) 0 ≤ 255) →
      strValue base map (leValue m) cs < 256 ^ k → k ≤ m.length + rest.length →
      ∃ m1 rest1, decodeLoop base map cs (m ++ rest) m.length = (m1 ++ rest1, m1.length) ∧
        (∀ x, x ∈ m1 → x < 256) ∧ leValue m1 = strValue base map (leValue m) cs ∧
        256 ^ m1.length ≤ 256 * leValue m1 ∧
        m1.length + rest1.length = m.length + rest.length ∧
        rest1 = rest.drop (m1.length - m.length) ∧ m.length ≤ m1.length := by
  intro cs
  induction cs with
  | nil =>
    intro m rest hm _ hmin _ _ _
    exact ⟨m, rest, rfl, hm, rfl, hmin, rfl, by simp, le_refl _⟩
  | cons ch cs ih =>
    intro m rest hm hpos hmin hcs hk hroom
    have hd : map.getD (ch % 256) 0 ≤ 255 := hcs ch (by simp)
    obtain ⟨m1, c, hrun, hlen1, hb1', hc, hval⟩ :=
      decodeInner_spec base hbase m [] rest (m ++ rest).length (map.getD (ch % 256) 0)
        (by simp) hm hd
    simp only [List.nil_append, List.length_nil, Nat.zero_add] at hrun
    have hmono := strValue_mono base map hb1 cs (leValue m * base + map.getD (ch % 256) 0)
    have hk' : strValue base map (leValue m * base + map.getD (ch % 256) 0) cs < 256 ^ k := hk
    have hgrow : leValue m ≤ leValue m * base := Nat.le_mul_of_pos_right _ hb1
    have hcs' : ∀ c, c ∈ cs → map.getD (c % 256) 0 ≤ 255 := fun c hc => hcs c (by simp [hc])
    rw [decodeLoop]
    simp only [hrun]
    by_cases hc0 : c = 0
    · subst hc0
      have hv1 : leValue m1 = leValue m * base + map.getD (ch % 256) 0 := by simpa using hval
      rw [if_neg (by simp)]
      have hmin1 : 256 ^ m1.length ≤ 256 * leValue m1 := by
        rw [hlen1, hv1]
        omega
      obtain ⟨m2, rest2, hrun2, hb2, hv2, hmin2, hl2, hr2, hle2⟩ :=
        ih m1 rest hb1' (by omega) hmin1 hcs' (by rw [hv1]; exact hk') (by omega)
      rw [hlen1] at hrun2 hl2 hr2 hle2
      refine ⟨m2, rest2, hrun2, hb2, ?_, hmin2, hl2, hr2, hle2⟩
      rw [hv2, hv1]
      rfl
    · have hpow : 256 ^ m.length ≤ c * 256 ^ m.length :=
        Nat.le_mul_of_pos_left _ (by omega)
      cases rest with
      | nil =>
        exfalso
        have h1 : 256 ^ k ≤ 256 ^ m.length :=
          Nat.pow_le_pow_right (by omega) (by simpa using hroom)
        omega
      | cons r0 rest =>
        have hroom1 : m.length < (m1 ++ r0 :: rest).length := by
          simp
          omega
        rw [if_pos ⟨hc0, hroom1⟩, ← hlen1, set_append_length, Nat.mod_eq_of_lt (by omega)]
        have hv1 : leValue (m1 ++ [c]) = leValue m * base + map.getD (ch % 256) 0 := by
          rw [leValue_append, ← hval, hlen1]
          simp only [leValue]
          ring
        have hbs : ∀ x, x ∈ m1 ++ [c] → x < 256 := by
          intro x hx
          rcases List.mem_append.1 hx with h | h
          · exact hb1' x h
          · simp at h
            omega
        have hmin1 : 256 ^ (m1 ++ [c]).length ≤ 256 * leValue (m1 ++ [c]) := by
          rw [hv1, ← hval, List.length_append, List.length_singleton, pow_succ, hlen1]
          omega
        obtain ⟨m2, rest2, hrun2, hb2, hv2, hmin2, hl2, hr2, hle2⟩ :=
          ih (m1 ++ [c]) rest hbs (by rw [hv1]; omega) hmin1 hcs'
            (by rw [hv1]; exact hk') (by simp; simp at hroom; omega)
        have e : m1 ++ c :: rest = (m1 ++ [c]) ++ rest := by simp
        have e2 : (m1 ++ [c]).length = m1.length + 1 := by simp
        rw [e, ← e2, hrun2]
        refine ⟨m2, rest2, rfl, hb2, ?_, hmin2, ?_, ?_, ?_⟩
        · rw [hv2, hv1]
          rfl
        · rw [hl2, e2, hlen1]
          simp
          omega
        · rw [hr2, e2, hlen1]
          have : m2.length - m.length = (m2.length - (m.length + 1)) + 1 := by
            rw [e2, hlen1] at hle2
            omega
          rw [this, List.drop_succ_cons]
        · rw [e2, hlen1] at hle2
          omega

theorem dropWhile_run (a : Nat) (p : Nat → Bool) (hp : p a = true) (t : List Nat)
    (ht : ∀ x, t.head? = some x → p x = false) :
    ∀ z, (List.replicate z a ++ t).dropWhile p = t := by
  intro z
  induction z with
  | zero =>
    cases t with
    | nil => rfl
    | cons x t =>
      have := ht x rfl
      simp [List.dropWhile_cons, this]
  | succ z ih =>
    rw [List.replicate_succ, List.cons_append, List.dropWhile_cons, if_pos hp, ih]

theorem head_reverse_ne_zero (m : List Nat) (hb : ∀ x, x ∈ m → x < 256)
    (hmin : 256 ^ m.length ≤ 256 * leValue m) : m.reverse.head? ≠ some 0 := by
  rcases List.eq_nil_or_concat m with rfl | ⟨init, top, rfl⟩
  · simp
  · rw [List.concat_eq_append] at hmin hb ⊢
    rw [List.reverse_append]
    simp only [List.reverse_cons, List.reverse_nil, List.nil_append, List.singleton_append,
      List.head?_cons, ne_eq, Option.some.injEq]
    intro h0
    subst h0
    have h1 := leValue_lt init (fun x hx => hb x (by simp [hx]))
    rw [leValue_append, List.length_append, List.length_singleton, pow_succ] at hmin
    simp only [leValue] at hmin
    omega

theorem split_at (l : List Nat) (z : Nat) (h : z ≤ l.length) :
    ∃ mid c, l = mid ++ c ∧ mid.length = z ∧ c = l.drop z :=
  ⟨l.take z, l.drop z, (List.take_append_drop z l).symm, by simp [h], rfl⟩

/-- What `decode` returns for a string of `z` zero-digits followed by valid digits `t` that do
not start with the zero-digit, in a buffer with room for the result: in the reverse view, the
bytes `m` of the value (least significant first, top byte non-zero), `z` zero bytes, and the
untouched rest of the buffer. -/
theorem decode_ok (base : Nat) (digits : Nat → Nat) (map : List Nat) (z : Nat)
    (t data : List Nat) (k : Nat) (hb : 2 ≤ base ∧ base ≤ 254)
    (hbyte : ∀ i, i < base → digits i < 256) (hmap : digitsMap digits base = .ok map)
    (ht : ∀ c, c ∈ t → ∃ i, i < base ∧ digits i = c) (ht0 : t.head? ≠ some (digits 0))
    (hk : strValue base map 0 t < 256 ^ k) (hlen : z + k ≤ data.length) :
    ∃ m, decode (List.replicate z (digits 0) ++ t) data base digits map =
          Outcome.ret ((data.reverse.drop (m.length + z)).reverse ++ List.replicate z 0 ++
            m.reverse) (data.length - (m.length + z)) ∧
      m.length + z ≤ data.length ∧ (∀ x, x ∈ m → x < 256) ∧
      256 ^ m.length ≤ 256 * leValue m + (if t = [] then 1 else 0) ∧
      (t = [] → m = []) ∧ leValue m = strValue base map 0 t := by
  obtain ⟨hinv, hinj⟩ := digitsMap_ok digits base map (by omega) hbyte hmap
  have hdrop : (List.replicate z (digits 0) ++ t).dropWhile (fun ch => ch == digits 0) = t :=
    dropWhile_run (digits 0) _ (by simp) t (by
      intro x hx
      have : x ≠ digits 0 := fun h => ht0 (by rw [hx, h])
      simpa using this) z
  have hval : ∀ c, c ∈ t → ∃ i, i < base ∧ digits i = c ∧ map.getD (c % 256) 0 = i := by
    intro c hc
    obtain ⟨i, hi, he⟩ := ht c hc
    refine ⟨i, hi, he, ?_⟩
    rw [← he, Nat.mod_eq_of_lt (hbyte i hi)]
    exact hinv.2.1 i hi
  have hvalid : isValid t map = true := by
    rw [isValid_iff]
    intro c hc
    obtain ⟨i, hi, _, hm⟩ := hval c hc
    rw [hm]
    omega
  have hz : (List.replicate z (digits 0) ++ t).length - t.length = z := by simp
  rw [decode, if_neg (by omega)]
  simp only [hdrop, hvalid, hz]
  cases t with
  | nil =>
    obtain ⟨mid, c, hsplit, hmid, hc⟩ := split_at data.reverse z (by simp; omega)
    refine ⟨[], ?_, by simp; omega, by simp, by simp, fun _ => rfl, rfl⟩
    have hpad := padLoop_spec 0 mid [] c
    simp only [List.nil_append, List.length_nil, Nat.zero_add] at hpad
    simp only [decodeBytes, Bool.not_true, Bool.false_eq_true, if_false]
    rw [hsplit, ← hmid, hpad]
    simp [hc, hmid]
  | cons c0 cs =>
    obtain ⟨i0, hi0, he0, hm0⟩ := hval c0 (by simp)
    have hi0pos : 1 ≤ i0 := by
      rcases Nat.eq_zero_or_pos i0 with h | h
      · subst h
        exact absurd (by rw [he0]; rfl) ht0
      · exact h
    have hsv : strValue base map 0 (c0 :: cs) = strValue base map i0 cs := by
      show strValue base map (0 * base + map.getD (c0 % 256) 0) cs = _
      rw [hm0, Nat.zero_mul, Nat.zero_add]
    have hcs : ∀ c, c ∈ cs → map.getD (c % 256) 0 ≤ 255 := by
      intro c hc
      obtain ⟨i, hi, _, hm⟩ := hval c (by simp [hc])
      omega
    have hmono := strValue_mono base map (by omega) cs i0
    have hkpos : 1 ≤ k := by
      rcases Nat.eq_zero_or_pos k with h | h
      · subst h
        rw [hsv] at hk
        simp at hk
        omega
      · exact h
    cases hrev : data.reverse with
    | nil =>
      have : data.length = 0 := by simpa using congrArg List.length hrev
      omega
    | cons r0 rest =>
      have hL : data.length = rest.length + 1 := by
        simpa using congrArg List.length hrev
      obtain ⟨m1, rest1, hrun, hb1, hv1, hmin1, hl1, hr1, hle1⟩ :=
        decodeLoop_spec base map (by omega) hb.2 k cs [i0] rest
          (by intro x hx; simp at hx; omega) (by simpa [leValue] using hi0pos)
          (by simp [leValue]; omega) hcs (by simpa [leValue, hsv] using hk)
          (by simp; omega)
      simp only [leValue, Nat.mul_zero, Nat.add_zero, List.length_singleton,
        List.singleton_append] at hrun hv1 hl1 hr1 hle1
      have hm1k : m1.length ≤ k := by
        have h1 : leValue m1 < 256 ^ k := by rw [hv1, ← hsv]; exact hk
        have h2 : 256 ^ m1.length < 256 ^ (k + 1) := by
          rw [pow_succ]
          omega
        have := (Nat.pow_lt_pow_iff_right (by omega : 1 < 256)).1 h2
        omega
      obtain ⟨mid, c, hsplit, hmid, hc⟩ := split_at rest1 z (by omega)
      have hpad := padLoop_spec 0 mid m1 c
      refine ⟨m1, ?_, by omega, hb1, by simp; omega, by simp, by rw [hv1, hsv]⟩
      simp only [decodeBytes, wr, Bool.not_true, Bool.false_eq_true, if_false,
        List.length_cons, Nat.zero_lt_succ, if_true, List.set_cons_zero, hm0]
      rw [hrun, hsplit, ← List.append_assoc, ← hmid, hpad]
      have hcdrop : c = (r0 :: rest).drop (m1.length + mid.length) := by
        rw [hc, hr1, List.drop_drop]
        have : m1.length + mid.length = (m1.length - 1 + z) + 1 := by omega
        rw [this, List.drop_succ_cons]
      have hlen2 : (m1 ++ List.replicate mid.length 0 ++ c).length = data.length := by
        simp
        rw [hsplit] at hl1
        simp at hl1
        omega
      have hlen3 : (m1 ++ (List.replicate mid.length 0 ++ c)).length = data.length := by
        rw [← List.append_assoc]
        exact hlen2
      simp only [List.reverse_append, List.reverse_replicate, hlen2, hlen3, ← hcdrop,
        List.append_assoc]

/-- C4. Decode computes the big-endian value: for a base in [2,254], an alphabet of `base`
bytes whose table `map` is built by `digitsMap` (so the characters are distinct), a string made
of `z` copies of `digits[0]` followed by `t`, where `t` is empty or does not start with
`digits[0]` and all its characters are in the alphabet, and a buffer with at least `z + k` slots
where the value of `t` is below `256^k`: `decode` returns, and the bytes from the returned
offset to the end of the buffer are `z` zero bytes followed by `m`, where `m` is the minimal
big-endian base-256 representation (bytes below 256, first byte non-zero, empty when `t` is
empty) of `sum map[t_i] * base^(len(t)-1-i)`. -/
theorem decode_computes_value (base : Nat) (digits : Nat → Nat) (map : List Nat) (z : Nat)
    (t data : List Nat) (k : Nat) (hb : 2 ≤ base ∧ base ≤ 254)
    (hbyte : ∀ i, i < base → digits i < 256) (hmap : digitsMap digits base = .ok map)
    (ht : ∀ c, c ∈ t → ∃ i, i < base ∧ digits i = c) (ht0 : t.head? ≠ some (digits 0))
    (hk : strValue base map 0 t < 256 ^ k) (hlen : z + k ≤ data.length) :
    ∃ buf off m, decode (List.replicate z (digits 0) ++ t) data base digits map =
          Outcome.ret buf off ∧
      off + z + m.length = data.length ∧ buf.drop off = List.replicate z 0 ++ m ∧
      (∀ x, x ∈ m → x < 256) ∧ m.head? ≠ some 0 ∧ (t = [] → m = []) ∧
      beValue 256 m = strValue base map 0 t := by
  obtain ⟨m, hrun, hroom, hbytes, hmin, hnil, hv⟩ :=
    decode_ok base digits map z t data k hb hbyte hmap ht ht0 hk hlen
  refine ⟨_, _, m.reverse, hrun, ?_, ?_, ?_, ?_, ?_, ?_⟩
  · simp
    omega
  · rw [List.append_assoc]
    apply List.drop_left'
    simp
  · intro x hx
    exact hbytes x (List.mem_reverse.1 hx)
  · by_cases htn : t = []
    · rw [hnil htn]
      simp
    · rw [if_neg htn] at hmin
      exact head_reverse_ne_zero m hbytes hmin
  · intro htn
    rw [hnil htn]
    rfl
  · rw [beValue_reverse, hv]

/-- C4 at base 16: "00" followed by "4d616e" decodes, in a buffer of 6 bytes, to an offset
and bytes that are two zero bytes followed by the minimal representation of the value. -/
theorem decode_computes_value_witness :
    ∃ buf off m,
      decode (List.replicate 2 (cstr "0123456789abcdef" 0) ++ [52, 100, 54, 49, 54, 101])
          [7, 7, 7, 7, 7, 7] 16 (cstr "0123456789abcdef")
          (tableOf (cstr "0123456789abcdef") 16) = Outcome.ret buf off ∧
      off + 2 + m.length = [7, 7, 7, 7, 7, 7].length ∧
      buf.drop off = List.replicate 2 0 ++ m ∧
      (∀ x, x ∈ m → x < 256) ∧ m.head? ≠ some 0 ∧
      (([52, 100, 54, 49, 54, 101] : List Nat) = [] → m = []) ∧
      beValue 256 m =
        strValue 16 (tableOf (cstr "0123456789abcdef") 16) 0 [52, 100, 54, 49, 54, 101] :=
  decode_computes_value 16 (cstr "0123456789abcdef") (tableOf (cstr "0123456789abcdef") 16) 2
    [52, 100, 54, 49, 54, 101] [7, 7, 7, 7, 7, 7] 3 (by decide) (by decide) (by rfl)
    (by decide) (by decide) (by decide) (by decide)

/-! ## encode -/

theorem segVal_congr (a b : List Nat) :
    ∀ (n i : Nat), (∀ t, i ≤ t → t < i + n → a.getD t 0 = b.getD t 0) →
      segVal a i n = segVal b i n := by
  intro n
  induction n with
  | zero => intro i _; rfl
  | succ n ih =>
    intro i h
    rw [segVal, segVal, h i (le_refl _) (by omega),
      ih (i + 1) (fun t h1 h2 => h t (by omega) (by omega))]

theorem segVal_lt (dv : List Nat) :
    ∀ (n i : Nat), (∀ t, i ≤ t → t < i + n → dv.getD t 0 < 256) → segVal dv i n < 256 ^ n := by
  intro n
  induction n with
  | zero => intro i _; simp [segVal]
  | succ n ih =>
    intro i h
    have h1 := h i (le_refl _) (by omega)
    have h2 := ih (i + 1) (fun t h1 h2 => h t (by omega) (by omega))
    have h3 : dv.getD i 0 * 256 ^ n ≤ 255 * 256 ^ n := Nat.mul_le_mul_right _ (by omega)
    rw [segVal, pow_succ]
    omega

theorem encodeInner_spec (base : Nat) (hb2 : 2 ≤ base) (hbase : base ≤ 254) :
    ∀ (n : Nat) (dv : List Nat) (dv_it quo_it div : Nat), quo_it ≤ dv_it →
      dv_it + n ≤ dv.length → (∀ t, dv_it ≤ t → t < dv_it + n → dv.getD t 0 < 256) →
      div < base →
      ∃ out r, encodeInner base n dv dv_it quo_it div = (out, quo_it + n, r) ∧ r < base ∧
        out.length = dv.length ∧ (∀ t, t < quo_it → out.getD t 0 = dv.getD t 0) ∧
        (∀ t, quo_it ≤ t → t < quo_it + n → out.getD t 0 < 256) ∧
        segVal out quo_it n * base + r = div * 256 ^ n + segVal dv dv_it n := by
  intro n
  induction n with
  | zero =>
    intro dv dv_it quo_it div _ _ _ hdiv
    exact ⟨dv, div, rfl, hdiv, rfl, fun _ _ => rfl, fun t h1 h2 => by omega, by simp [segVal]⟩
  | succ n ih =>
    intro dv dv_it quo_it div hq hlen hbytes hdiv
    have hx : dv.getD dv_it 0 < 256 := hbytes dv_it (le_refl _) (by omega)
    have h1 : (div * 256) % 65536 = div * 256 := Nat.mod_eq_of_lt (by omega)
    have h2 : (div * 256 + dv.getD dv_it 0) % 65536 = div * 256 + dv.getD dv_it 0 :=
      Nat.mod_eq_of_lt (by omega)
    have hq256 : (div * 256 + dv.getD dv_it 0) / base < 256 := by
      rw [Nat.div_lt_iff_lt_mul (by omega)]
      have : (div + 1) * 256 ≤ base * 256 := Nat.mul_le_mul_right _ (by omega)
      omega
    have h3 : ((div * 256 + dv.getD dv_it 0) / base) % 256 =
        (div * 256 + dv.getD dv_it 0) / base := Nat.mod_eq_of_lt hq256
    obtain ⟨out, r, hrun, hr, hlen1, hframe, hb1, hval⟩ :=
      ih (dv.set quo_it ((div * 256 + dv.getD dv_it 0) / base)) (dv_it + 1) (quo_it + 1)
        ((div * 256 + dv.getD dv_it 0) % base) (by omega) (by rw [List.length_set]; omega)
        (by
          intro t ht1 ht2
          rw [getD_set_ne _ _ _ _ _ (by omega)]
          exact hbytes t (by omega) (by omega))
        (Nat.mod_lt _ (by omega))
    have hout : out.getD quo_it 0 = (div * 256 + dv.getD dv_it 0) / base := by
      rw [hframe quo_it (by omega)]
      exact getD_set_eq dv quo_it _ 0 (by omega)
    refine ⟨out, r, ?_, hr, ?_, ?_, ?_, ?_⟩
    · rw [encodeInner]
      simp only [h1, h2, h3]
      rw [hrun]
      congr 2
      omega
    · rw [hlen1, List.length_set]
    · intro t ht
      rw [hframe t (by omega), getD_set_ne _ _ _ _ _ (by omega)]
    · intro t ht1 ht2
      rcases Nat.eq_or_lt_of_le ht1 with h | h
      · rw [← h, hout]
        exact hq256
      · exact hb1 t (by omega) (by omega)
    · have hs : segVal (dv.set quo_it ((div * 256 + dv.getD dv_it 0) / base)) (dv_it + 1) n =
          segVal dv (dv_it + 1) n :=
        segVal_congr _ _ n (dv_it + 1) (fun t h1 _ => getD_set_ne _ _ _ _ _ (by omega))
      rw [hs] at hval
      have hdm := Nat.div_add_mod (div * 256 + dv.getD dv_it 0) base
      rw [segVal, segVal, hout, pow_succ]
      calc ((div * 256 + dv.getD dv_it 0) / base * 256 ^ n + segVal out (quo_it + 1) n) * base + r
          = (base * ((div * 256 + dv.getD dv_it 0) / base)) * 256 ^ n +
              (segVal out (quo_it + 1) n * base + r) := by ring
        _ = (base * ((div * 256 + dv.getD dv_it 0) / base)) * 256 ^ n +
              ((div * 256 + dv.getD dv_it 0) % base * 256 ^ n + segVal dv (dv_it + 1) n) := by
            rw [hval]
        _ = (base * ((div * 256 + dv.getD dv_it 0) / base) +
              (div * 256 + dv.getD dv_it 0) % base) * 256 ^ n + segVal dv (dv_it + 1) n := by
            ring
        _ = (div * 256 + dv.getD dv_it 0) * 256 ^ n + segVal dv (dv_it + 1) n := by rw [hdm]
        _ = div * (256 ^ n * 256) + (dv.getD dv_it 0 * 256 ^ n + segVal dv (dv_it + 1) n) := by
            ring

theorem wr_lt (buf : List Nat) (p v : Nat) (h : p < buf.length) :
    wr buf p v = some (buf.set p v) := by
  rw [wr, if_pos h]

theorem divmod_unique (x r v base : Nat) (h : x * base + r = v) (hr : r < base) :
    v / base = x ∧ v % base = r := by
  subst h
  constructor
  · rw [Nat.add_comm, Nat.add_mul_div_right _ _ (by omega), Nat.div_eq_of_lt hr, Nat.zero_add]
  · rw [Nat.add_comm, Nat.add_mul_mod_self_right, Nat.mod_eq_of_lt hr]

theorem encInv_cond (base : Nat) (hbase : base ≤ 254) (s : EncState) (v : Nat)
    (h : EncInv s v) : (s.dv.getD 0 0 > base ∨ s.last > 1) ↔ v > base := by
  obtain ⟨h1, _, hbytes, _, _, hv⟩ := h
  rcases Nat.eq_or_lt_of_le h1 with he | hgt
  · rw [← he] at hv ⊢
    simp only [segVal, pow_zero, Nat.mul_one, Nat.add_zero] at hv
    rw [hv]
    constructor
    · rintro (h | h)
      · exact h
      · omega
    · intro h
      exact Or.inl h
  · obtain ⟨n, hn⟩ : ∃ n, s.last = n + 2 := ⟨s.last - 2, by omega⟩
    rw [hn] at hv
    rw [segVal, pow_succ] at hv
    have hp : 1 ≤ 256 ^ n := Nat.one_le_two_pow.trans (Nat.pow_le_pow_left (by omega) n)
    have : 256 ≤ s.dv.getD 0 0 * (256 ^ n * 256) := by
      have := Nat.mul_le_mul (by assumption : 1 ≤ s.dv.getD 0 0)
        (Nat.mul_le_mul hp (le_refl 256))
      omega
    constructor
    · intro _
      omega
    · intro _
      exact Or.inr hgt

theorem encodePass_spec (base : Nat) (digits : Nat → Nat) (hb2 : 2 ≤ base) (hbase : base ≤ 254)
    (s : EncState) (v : Nat) (hinv : EncInv s v) (hv : v > base) (hp : s.p < s.sv.length) :
    ∃ s1, encodePass base digits s = some s1 ∧ EncInv s1 (v / base) ∧
      s1.sv = s.sv.set s.p (digits (v % base)) ∧ s1.p = s.p + 1 ∧
      s1.dv.length = s.dv.length := by
  have hcond := (encInv_cond base hbase s v hinv).2 hv
  obtain ⟨h1, hlast, hbytes, htop, hdiv, hval⟩ := hinv
  have h0 : s.dv.getD 0 0 < 256 := hbytes 0 (by omega)
  by_cases hlt : s.div < base
  · -- the first byte is below the base: two bytes are taken
    have hlast2 : 2 ≤ s.last := by
      rcases hcond with h | h
      · omega
      · omega
    obtain ⟨n, hn⟩ : ∃ n, s.last = n + 2 := ⟨s.last - 2, by omega⟩
    have hx1 : s.dv.getD 1 0 < 256 := hbytes 1 (by omega)
    have e1 : (s.div * 256) % 65536 = s.div * 256 := Nat.mod_eq_of_lt (by omega)
    have e2 : (s.div * 256 + s.dv.getD 1 0) % 65536 = s.div * 256 + s.dv.getD 1 0 :=
      Nat.mod_eq_of_lt (by omega)
    have hq256 : (s.div * 256 + s.dv.getD 1 0) / base < 256 := by
      rw [Nat.div_lt_iff_lt_mul (by omega)]
      have : (s.div + 1) * 256 ≤ base * 256 := Nat.mul_le_mul_right _ (by omega)
      omega
    have hq1 : 1 ≤ (s.div * 256 + s.dv.getD 1 0) / base := by
      rw [Nat.one_le_div_iff (by omega)]
      omega
    have e3 : ((s.div * 256 + s.dv.getD 1 0) / base) % 256 =
        (s.div * 256 + s.dv.getD 1 0) / base := Nat.mod_eq_of_lt hq256
    obtain ⟨out, r, hrun, hr, hlen1, hframe, hb1, hv1⟩ :=
      encodeInner_spec base hb2 hbase n
        (s.dv.set 0 ((s.div * 256 + s.dv.getD 1 0) / base)) 2 1
        ((s.div * 256 + s.dv.getD 1 0) % base) (by omega) (by rw [List.length_set]; omega)
        (by
          intro t ht1 ht2
          rw [getD_set_ne _ _ _ _ _ (by omega)]
          exact hbytes t (by omega))
        (Nat.mod_lt _ (by omega))
    have hout : out.getD 0 0 = (s.div * 256 + s.dv.getD 1 0) / base := by
      rw [hframe 0 (by omega)]
      exact getD_set_eq s.dv 0 _ 0 (by omega)
    have hs : segVal (s.dv.set 0 ((s.div * 256 + s.dv.getD 1 0) / base)) 2 n =
        segVal s.dv 2 n :=
      segVal_congr _ _ n 2 (fun t h1 _ => getD_set_ne _ _ _ _ _ (by omega))
    rw [hs] at hv1
    have hdm := Nat.div_add_mod (s.div * 256 + s.dv.getD 1 0) base
    have hvalue : segVal out 0 (1 + n) * base + r = v := by
      rw [← hval, hn, Nat.add_comm 1 n, segVal, segVal, segVal, hout, ← hdiv, pow_succ]
      calc ((s.div * 256 + s.dv.getD 1 0) / base * 256 ^ n + segVal out (0 + 1) n) * base + r
          = (base * ((s.div * 256 + s.dv.getD 1 0) / base)) * 256 ^ n +
              (segVal out 1 n * base + r) := by ring
        _ = (base * ((s.div * 256 + s.dv.getD 1 0) / base)) * 256 ^ n +
              ((s.div * 256 + s.dv.getD 1 0) % base * 256 ^ n + segVal s.dv 2 n) := by
            rw [hv1]
        _ = (base * ((s.div * 256 + s.dv.getD 1 0) / base) +
              (s.div * 256 + s.dv.getD 1 0) % base) * 256 ^ n + segVal s.dv 2 n := by ring
        _ = (s.div * 256 + s.dv.getD 1 0) * 256 ^ n + segVal s.dv 2 n := by rw [hdm]
        _ = s.div * (256 ^ n * 256) +
              (s.dv.getD (0 + 1) 0 * 256 ^ n + segVal s.dv (0 + 1 + 1) n) := by ring
    obtain ⟨hd, hm⟩ := divmod_unique _ _ _ _ hvalue hr
    refine ⟨{ dv := out, last := 1 + n, sv := s.sv.set s.p (digits r), p := s.p + 1,
              div := out.getD 0 0 }, ?_, ?_, ?_, rfl, ?_⟩
    · unfold encodePass
      simp only [if_pos hlt, e1, e2, e3, hn, Nat.add_sub_cancel, hrun, wr_lt _ _ _ hp]
    · refine ⟨by simp, ?_, ?_, ?_, rfl, ?_⟩
      · show 1 + n ≤ out.length
        rw [hlen1, List.length_set]
        omega
      · intro t ht
        rcases Nat.eq_zero_or_pos t with h | h
        · rw [h]
          show out.getD 0 0 < 256
          rw [hout]
          exact hq256
        · exact hb1 t (by omega) (by simpa using ht)
      · show 1 ≤ out.getD 0 0
        rw [hout]
        exact hq1
      · exact hd.symm
    · rw [hm]
    · show out.length = s.dv.length
      rw [hlen1, List.length_set]
  · -- the first byte is at least the base: it is divided on its own
    obtain ⟨n, hn⟩ : ∃ n, s.last = n + 1 := ⟨s.last - 1, by omega⟩
    have hq256 : s.div / base < 256 := by
      rw [Nat.div_lt_iff_lt_mul (by omega)]
      have : 256 * 2 ≤ 256 * base := Nat.mul_le_mul_left _ hb2
      omega
    have hq1 : 1 ≤ s.div / base := by
      rw [Nat.one_le_div_iff (by omega)]
      omega
    have e3 : (s.div / base) % 256 = s.div / base := Nat.mod_eq_of_lt hq256
    obtain ⟨out, r, hrun, hr, hlen1, hframe, hb1, hv1⟩ :=
      encodeInner_spec base hb2 hbase n (s.dv.set 0 (s.div / base)) 1 1 (s.div % base)
        (by omega) (by rw [List.length_set]; omega)
        (by
          intro t ht1 ht2
          rw [getD_set_ne _ _ _ _ _ (by omega)]
          exact hbytes t (by omega))
        (Nat.mod_lt _ (by omega))
    have hout : out.getD 0 0 = s.div / base := by
      rw [hframe 0 (by omega)]
      exact getD_set_eq s.dv 0 _ 0 (by omega)
    have hs : segVal (s.dv.set 0 (s.div / base)) 1 n = segVal s.dv 1 n :=
      segVal_congr _ _ n 1 (fun t h1 _ => getD_set_ne _ _ _ _ _ (by omega))
    rw [hs] at hv1
    have hdm := Nat.div_add_mod s.div base
    have hvalue : segVal out 0 (1 + n) * base + r = v := by
      rw [← hval, hn, Nat.add_comm 1 n, segVal, segVal, hout, ← hdiv]
      calc (s.div / base * 256 ^ n + segVal out (0 + 1) n) * base + r
          = (base * (s.div / base)) * 256 ^ n + (segVal out 1 n * base + r) := by ring
        _ = (base * (s.div / base)) * 256 ^ n + (s.div % base * 256 ^ n + segVal s.dv 1 n) := by
            rw [hv1]
        _ = (base * (s.div / base) + s.div % base) * 256 ^ n + segVal s.dv 1 n := by ring
        _ = s.div * 256 ^ n + segVal s.dv (0 + 1) n := by rw [hdm]
    obtain ⟨hd, hm⟩ := divmod_unique _ _ _ _ hvalue hr
    refine ⟨{ dv := out, last := 1 + n, sv := s.sv.set s.p (digits r), p := s.p + 1,
              div := out.getD 0 0 }, ?_, ?_, ?_, rfl, ?_⟩
    · unfold encodePass
      simp only [if_neg hlt, e3, hn, Nat.add_sub_cancel, hrun, wr_lt _ _ _ hp]
    · refine ⟨by simp, ?_, ?_, ?_, rfl, ?_⟩
      · show 1 + n ≤ out.length
        rw [hlen1, List.length_set]
        omega
      · intro t ht
        rcases Nat.eq_zero_or_pos t with h | h
        · rw [h]
          show out.getD 0 0 < 256
          rw [hout]
          exact hq256
        · exact hb1 t (by omega) (by simpa using ht)
      · show 1 ≤ out.getD 0 0
        rw [hout]
        exact hq1
      · exact hd.symm
    · rw [hm]
    · show out.length = s.dv.length
      rw [hlen1, List.length_set]

theorem emitted_le (base v : Nat) (h : v ≤ base) : emitted base v = [v] := by
  rw [emitted, dif_neg (by omega)]

theorem emitted_gt (base v : Nat) (hb2 : 2 ≤ base) (h : base < v) :
    emitted base v = (v % base) :: emitted base (v / base) := by
  rw [emitted, dif_pos ⟨hb2, h⟩]

theorem emitted_length_le (base : Nat) (hb2 : 2 ≤ base) :
    ∀ (k v : Nat), 1 ≤ v → v < base ^ k → (emitted base v).length ≤ k := by
  intro k
  induction k with
  | zero =>
    intro v h1 h2
    simp at h2
    omega
  | succ k ih =>
    intro v h1 h2
    by_cases hv : v ≤ base
    · rw [emitted_le base v hv]
      simp
    · have hlt : v / base < base ^ k := by
        rw [Nat.div_lt_iff_lt_mul (by omega)]
        rw [pow_succ] at h2
        exact h2
      have hpos : 1 ≤ v / base := by
        rw [Nat.one_le_div_iff (by omega)]
        omega
      rw [emitted_gt base v hb2 (by omega), List.length_cons]
      exact Nat.succ_le_succ (ih (v / base) hpos hlt)

theorem emitted_length_pos (base v : Nat) : 1 ≤ (emitted base v).length := by
  rw [emitted]
  split <;> simp

theorem take_set_succ (l : List Nat) (p d : Nat) (h : p < l.length) :
    (l.set p d).take (p + 1) = l.take p ++ [d] := by
  rw [List.set_eq_take_cons_drop d h]
  have hl : (l.take p).length = p := List.length_take_of_le (by omega)
  have : l.take p ++ d :: l.drop (p + 1) = (l.take p ++ [d]) ++ l.drop (p + 1) := by simp
  rw [this]
  exact List.take_left' (by simp [hl])

theorem encodeLoop_spec (base : Nat) (digits : Nat → Nat) (hb2 : 2 ≤ base)
    (hbase : base ≤ 254) :
    ∀ (fuel : Nat) (s : EncState) (v : Nat), EncInv s v →
      (emitted base v).length ≤ fuel + 1 → s.p + (emitted base v).length ≤ s.sv.length →
      ∃ s1, encodeLoop base digits fuel s = some s1 ∧ encodeCond base s1 = false ∧
        wr s1.sv s1.p (digits s1.div) =
          some (s.sv.take s.p ++ (emitted base v).map digits ++
            s.sv.drop (s.p + (emitted base v).length)) ∧
        s1.p + 1 = s.p + (emitted base v).length := by
  have hstop : ∀ (s : EncState) (v : Nat), EncInv s v → v ≤ base →
      s.p + (emitted base v).length ≤ s.sv.length →
      encodeCond base s = false ∧
        wr s.sv s.p (digits s.div) =
          some (s.sv.take s.p ++ (emitted base v).map digits ++
            s.sv.drop (s.p + (emitted base v).length)) ∧
        s.p + 1 = s.p + (emitted base v).length := by
    intro s v hinv hv hroom
    have hc := encInv_cond base hbase s v hinv
    have hnot : ¬ (s.dv.getD 0 0 > base ∨ s.last > 1) := fun h => by
      have := hc.1 h
      omega
    rw [emitted_le base v hv] at hroom ⊢
    simp only [List.length_singleton] at hroom
    obtain ⟨h1, _, _, _, hdiv, hval⟩ := hinv
    have hlast : s.last = 1 := by
      by_contra hne
      exact hnot (Or.inr (by omega))
    rw [hlast] at hval
    simp only [segVal, pow_zero, Nat.mul_one, Nat.add_zero] at hval
    refine ⟨?_, ?_, rfl⟩
    · unfold encodeCond
      have a1 : ¬ s.dv.getD 0 0 > base := fun h => hnot (Or.inl h)
      have a2 : ¬ s.last > 1 := fun h => hnot (Or.inr h)
      simp only [a1, a2, decide_False, Bool.or_self, Bool.false_and]
    · rw [wr_lt _ _ _ (by omega), List.set_eq_take_cons_drop _ (by omega), hdiv, hval]
      simp
  intro fuel
  induction fuel with
  | zero =>
    intro s v hinv hfuel hroom
    have hv : v ≤ base := by
      by_contra hgt
      rw [emitted_gt base v hb2 (by omega), List.length_cons] at hfuel
      have := emitted_length_pos base (v / base)
      omega
    obtain ⟨h1, h2, h3⟩ := hstop s v hinv hv hroom
    exact ⟨s, rfl, h1, h2, h3⟩
  | succ fuel ih =>
    intro s v hinv hfuel hroom
    by_cases hv : v ≤ base
    · obtain ⟨h1, h2, h3⟩ := hstop s v hinv hv hroom
      refine ⟨s, ?_, h1, h2, h3⟩
      rw [encodeLoop, h1]
      simp
    · have hgt : base < v := by omega
      have hem := emitted_gt base v hb2 hgt
      have hpos := emitted_length_pos base (v / base)
      rw [hem, List.length_cons] at hfuel hroom
      have hcond : encodeCond base s = true := by
        unfold encodeCond
        have a := (encInv_cond base hbase s v hinv).2 hgt
        have b : s.p + 1 < s.sv.length := by omega
        have a' : (decide (s.dv.getD 0 0 > base) || decide (s.last > 1)) = true := by
          rcases a with a | a
          · rw [decide_eq_true a]
            rfl
          · rw [decide_eq_true a]
            exact Bool.or_true _
        rw [a', decide_eq_true b]
        rfl
      obtain ⟨s1, hpass, hinv1, hsv1, hp1, _⟩ :=
        encodePass_spec base digits hb2 hbase s v hinv hgt (by omega)
      obtain ⟨s2, hrun, hc2, hwr, hp2⟩ := ih s1 (v / base) hinv1 (by omega)
        (by rw [hsv1, hp1, List.length_set]; omega)
      refine ⟨s2, ?_, hc2, ?_, ?_⟩
      · rw [encodeLoop, hcond]
        simp only [if_true, hpass]
        exact hrun
      · rw [hwr, hsv1, hp1, take_set_succ _ _ _ (by omega),
          List.drop_set_of_lt _ _ (by omega), hem]
        have e : s.p + 1 + (emitted base (v / base)).length =
            s.p + ((emitted base (v / base)).length + 1) := by omega
        rw [e]
        simp only [List.map_cons, List.length_cons, List.append_assoc, List.singleton_append]
      · rw [hp2, hp1, hem, List.length_cons]
        omega

theorem beValue_acc (b : Nat) (l : List Nat) :
    ∀ acc, l.foldl (fun a d => a * b + d) acc = acc * b ^ l.length + beValue b l := by
  induction l with
  | nil => intro acc; simp [beValue]
  | cons x l ih =>
    intro acc
    rw [List.foldl_cons, ih]
    show _ = acc * b ^ (l.length + 1) + List.foldl (fun a d => a * b + d) (0 * b + x) l
    rw [ih (0 * b + x), pow_succ]
    ring

theorem beValue_cons (b x : Nat) (l : List Nat) :
    beValue b (x :: l) = x * b ^ l.length + beValue b l := by
  rw [beValue, List.foldl_cons, beValue_acc]
  ring

theorem segVal_append (l : List Nat) :
    ∀ pre : List Nat, segVal (pre ++ l) pre.length l.length = beValue 256 l := by
  induction l with
  | nil => intro pre; rfl
  | cons x l ih =>
    intro pre
    have h := ih (pre ++ [x])
    rw [List.length_append, List.length_singleton, List.append_assoc,
      List.singleton_append] at h
    rw [List.length_cons, segVal, getD_append_length, h, beValue_cons]

theorem segVal_eq_beValue (l : List Nat) : segVal l 0 l.length = beValue 256 l :=
  segVal_append l []

theorem getD_lt_of_forall (l : List Nat) (h : ∀ x, x ∈ l → x < 256) (t : Nat) :
    l.getD t 0 < 256 := by
  rw [List.getD_eq_getElem?_getD]
  by_cases ht : t < l.length
  · rw [List.getElem?_eq_getElem ht]
    exact h _ (List.getElem_mem ht)
  · rw [List.getElem?_eq_none (by omega)]
    decide

theorem reverse_drop_reverse (l : List Nat) (n : Nat) :
    (l.reverse.drop n).reverse = l.take (l.length - n) := by
  rw [List.drop_reverse, List.reverse_reverse]

/-- What `encode` returns for `z` zero bytes followed by significant bytes `r`, in a buffer
with room for the result: the untouched front of the buffer, `z` zero-digits, and the emitted
digits through the alphabet, most significant first. -/
theorem encode_ok (base : Nat) (digits : Nat → Nat) (z : Nat) (r str : List Nat) (k : Nat)
    (hb : 2 ≤ base ∧ base ≤ 254) (hr : ∀ x, x ∈ r → x < 256) (hr0 : r.head? ≠ some 0)
    (hk : beValue 256 r < base ^ k) (hlen : z + k ≤ str.length) :
    encode (List.replicate z 0 ++ r) str base digits =
        Outcome.ret (str.take (str.length - ((encDigits base r).length + z)) ++
            List.replicate z (digits 0) ++ (encDigits base r).reverse.map digits)
          (str.length - ((encDigits base r).length + z)) ∧
      (encDigits base r).length ≤ k := by
  have hdrop : (List.replicate z 0 ++ r).dropWhile (fun item => item == 0) = r :=
    dropWhile_run 0 _ (by simp) r (by
      intro x hx
      have : x ≠ 0 := fun h => hr0 (by rw [hx, h])
      simpa using this) z
  have hz : (List.replicate z 0 ++ r).length - r.length = z := by simp
  rw [encode, if_neg (by omega)]
  simp only [hdrop, hz]
  cases r with
  | nil =>
    obtain ⟨mid, c, hsplit, hmid, hc⟩ := split_at str.reverse z (by simp; omega)
    have hpad := padLoop_spec (digits 0) mid [] c
    simp only [List.nil_append, List.length_nil, Nat.zero_add] at hpad
    have hE : encDigits base [] = [] := by simp [encDigits]
    refine ⟨?_, by simp [hE]⟩
    simp only [encodeDigits, List.length_nil, ne_eq, not_true_eq_false, if_false, hE]
    rw [hsplit, ← hmid, hpad]
    have hlen2 : (List.replicate mid.length (digits 0) ++ c).length = str.length := by
      have := congrArg List.length hsplit
      simp at this
      simp
      omega
    rw [hlen2]
    simp only [List.reverse_append, List.reverse_replicate, hc, reverse_drop_reverse,
      List.length_nil, Nat.zero_add, hmid, List.reverse_nil, List.map_nil, List.append_nil]
  | cons x r1 =>
    have hx : 1 ≤ x := by
      rcases Nat.eq_zero_or_pos x with h | h
      · exact absurd (by rw [h]; rfl) hr0
      · exact h
    have hvpos : 1 ≤ beValue 256 (x :: r1) := by
      rw [beValue_cons]
      have : 1 ≤ x * 256 ^ r1.length :=
        Nat.mul_le_mul hx (Nat.one_le_two_pow.trans (Nat.pow_le_pow_left (by omega) _))
      omega
    have hE : encDigits base (x :: r1) = emitted base (beValue 256 (x :: r1)) := by
      simp [encDigits]
    have hEk := emitted_length_le base hb.1 k _ hvpos hk
    have hinv : EncInv ⟨x :: r1, (x :: r1).length, str.reverse, 0, (x :: r1).getD 0 0⟩
        (beValue 256 (x :: r1)) :=
      ⟨by simp, le_refl _, fun t _ => getD_lt_of_forall _ hr t, hx, rfl,
        segVal_eq_beValue (x :: r1)⟩
    obtain ⟨s1, hrun, _, hwr, hp1⟩ :=
      encodeLoop_spec base digits hb.1 hb.2 str.reverse.length _ _ hinv
        (by rw [List.length_reverse]; omega) (by simp; omega)
    simp only [List.take_zero, List.nil_append, Nat.zero_add] at hwr hp1
    obtain ⟨mid, c, hsplit, hmid, hc⟩ :=
      split_at (str.reverse.drop (emitted base (beValue 256 (x :: r1))).length) z
        (by simp; omega)
    have hpad := padLoop_spec (digits 0) mid
      ((emitted base (beValue 256 (x :: r1))).map digits) c
    rw [List.length_map] at hpad
    have hdig : encodeDigits (x :: r1) str.reverse base digits =
        some ((emitted base (beValue 256 (x :: r1))).map digits ++
          str.reverse.drop (emitted base (beValue 256 (x :: r1))).length,
          (emitted base (beValue 256 (x :: r1))).length) := by
      unfold encodeDigits
      rw [if_pos (by simp), hrun]
      simp only [hwr, hp1]
    refine ⟨?_, by rw [hE]; exact hEk⟩
    rw [hdig, hE]
    simp only []
    rw [hsplit, ← List.append_assoc, ← hmid, hpad]
    have hlen2 : (List.map digits (emitted base (beValue 256 (x :: r1))) ++
        List.replicate mid.length (digits 0) ++ c).length = str.length := by
      have := congrArg List.length hsplit
      simp at this
      simp
      omega
    rw [hlen2]
    simp only [List.reverse_append, List.reverse_replicate, hc, List.drop_drop,
      reverse_drop_reverse, List.map_reverse, List.append_assoc, hmid]

/-- The single byte equal to the base is written as the one character `digits[base]`, the
byte after the alphabet, whatever the alphabet and the buffer are: line 78 tests
`dv[0] > base`. -/
theorem encode_base_byte (base : Nat) (digits : Nat → Nat) (str : List Nat)
    (hb : 2 ≤ base ∧ base ≤ 254) (hlen : 2 ≤ str.length) :
    encode [base] str base digits =
      Outcome.ret (str.take (str.length - 1) ++ [digits base]) (str.length - 1) := by
  have hE : encDigits base [base] = [base] := by
    have hv : beValue 256 [base] = base := by simp [beValue]
    rw [encDigits, if_neg (List.cons_ne_nil _ _), hv]
    exact emitted_le base base (le_refl _)
  have hk : beValue 256 [base] < base ^ 2 := by
    have : base * 2 ≤ base * base := Nat.mul_le_mul_left _ hb.1
    have hv : beValue 256 [base] = base := by simp [beValue]
    rw [hv, pow_two]
    omega
  have := (encode_ok base digits 0 [base] str 2 hb (by intro x hx; simp at hx; omega)
    (by simp; omega) hk (by omega)).1
  rw [hE] at this
  simpa using this

/-- C5. Leading zero bytes in encode: for a base in [2,254] and a byte sequence of `z` zero
bytes followed by `r` (`r` empty or `r[0] != 0`), with buffers that have room for the results
(`z + k` and `k` slots where the value of `r` is below `base^k`), the trimmed output of
`encode(d)` is `z` copies of `digits[0]` followed by the trimmed output of `encode(r)`; when `r`
is empty the trimmed output of `encode(r)` is empty, so an all-zero input of length `z` encodes
to exactly `z` zero-digits and the empty input to the empty string. -/
theorem encode_leading_zeros (base : Nat) (digits : Nat → Nat) (z : Nat)
    (r str str1 : List Nat) (k : Nat) (hb : 2 ≤ base ∧ base ≤ 254)
    (hr : ∀ x, x ∈ r → x < 256) (hr0 : r.head? ≠ some 0) (hk : beValue 256 r < base ^ k)
    (hlen : z + k ≤ str.length) (hlen1 : k ≤ str1.length) :
    ∃ buf off buf1 off1,
      encode (List.replicate z 0 ++ r) str base digits = Outcome.ret buf off ∧
      encode r str1 base digits = Outcome.ret buf1 off1 ∧
      buf.drop off = List.replicate z (digits 0) ++ buf1.drop off1 ∧
      (r = [] → buf1.drop off1 = [] ∧ buf.drop off = List.replicate z (digits 0)) := by
  obtain ⟨h1, hE⟩ := encode_ok base digits z r str k hb hr hr0 hk hlen
  obtain ⟨h2, _⟩ := encode_ok base digits 0 r str1 k hb hr hr0 hk (by omega)
  simp only [List.replicate_zero, List.nil_append, List.append_nil, Nat.add_zero] at h2
  have d1 : (str.take (str.length - ((encDigits base r).length + z)) ++
      List.replicate z (digits 0) ++ (encDigits base r).reverse.map digits).drop
        (str.length - ((encDigits base r).length + z)) =
      List.replicate z (digits 0) ++ (encDigits base r).reverse.map digits := by
    rw [List.append_assoc]
    exact List.drop_left' (by rw [List.length_take]; omega)
  have d2 : (str1.take (str1.length - (encDigits base r).length) ++
      (encDigits base r).reverse.map digits).drop (str1.length - (encDigits base r).length) =
      (encDigits base r).reverse.map digits :=
    List.drop_left' (by rw [List.length_take]; omega)
  refine ⟨_, _, _, _, h1, h2, ?_, ?_⟩
  · rw [d1, d2]
  · intro hnil
    rw [d1, d2]
    simp [encDigits, hnil]

/-- C5 at base 16: `[0, 0, 5]` in a buffer of 5 characters and `[5]` in a buffer of 1. -/
theorem encode_leading_zeros_witness :
    ∃ buf off buf1 off1,
      encode (List.replicate 2 0 ++ [5]) [32, 32, 32, 32, 32] 16 (cstr "0123456789abcdef") =
        Outcome.ret buf off ∧
      encode [5] [32] 16 (cstr "0123456789abcdef") = Outcome.ret buf1 off1 ∧
      buf.drop off = List.replicate 2 (cstr "0123456789abcdef" 0) ++ buf1.drop off1 ∧
      (([5] : List Nat) = [] →
        buf1.drop off1 = [] ∧ buf.drop off = List.replicate 2 (cstr "0123456789abcdef" 0)) :=
  encode_leading_zeros 16 (cstr "0123456789abcdef") 2 [5] [32, 32, 32, 32, 32] [32] 1
    (by decide) (by decide) (by decide) (by decide) (by decide) (by decide)

/-! ## The loops never run out of fuel -/

theorem encodePass_some (base : Nat) (digits : Nat → Nat) (s s1 : EncState)
    (h : encodePass base digits s = some s1) :
    s1.p = s.p + 1 ∧ s1.sv.length = s.sv.length ∧ s.p < s.sv.length := by
  unfold encodePass at h
  by_cases hp : s.p < s.sv.length
  · simp only [wr_lt _ _ _ hp, Option.some.injEq] at h
    subst h
    exact ⟨rfl, List.length_set _ _ _, hp⟩
  · simp only [wr, if_neg hp] at h
    cases h

/-- The outer loop of `encode` leaves through its condition, not through the fuel. -/
theorem encodeLoop_exit (base : Nat) (digits : Nat → Nat) :
    ∀ (fuel : Nat) (s s1 : EncState), s.sv.length ≤ fuel + s.p + 1 →
      encodeLoop base digits fuel s = some s1 → encodeCond base s1 = false := by
  intro fuel
  induction fuel with
  | zero =>
    intro s s1 hf h
    simp only [encodeLoop, Option.some.injEq] at h
    subst h
    unfold encodeCond
    have : ¬ s.p + 1 < s.sv.length := by omega
    rw [decide_eq_false this, Bool.and_false]
  | succ fuel ih =>
    intro s s1 hf h
    rw [encodeLoop] at h
    by_cases hc : encodeCond base s = true
    · rw [if_pos hc] at h
      cases hpass : encodePass base digits s with
      | none =>
        rw [hpass] at h
        cases h
      | some s2 =>
        rw [hpass] at h
        obtain ⟨hp, hl, _⟩ := encodePass_some base digits s s2 hpass
        exact ih s2 s1 (by omega) h
    · rw [if_neg hc] at h
      cases h
      simpa using hc

/-- The inner loop of `decode` leaves through its guard, not through the fuel. -/
theorem decodeInner_exit (base : Nat) :
    ∀ (fuel : Nat) (dv : List Nat) (last q div : Nat), dv.length ≤ fuel + q →
      ¬ ((decodeInner base fuel dv last q div).2.1 < last ∧
          (decodeInner base fuel dv last q div).2.1 <
            (decodeInner base fuel dv last q div).1.length) := by
  intro fuel
  induction fuel with
  | zero =>
    intro dv last q div hf
    simp only [decodeInner]
    omega
  | succ fuel ih =>
    intro dv last q div hf
    rw [decodeInner]
    by_cases hg : q < last ∧ q < dv.length
    · rw [if_pos hg]
      exact ih _ last (q + 1) _ (by rw [List.length_set]; omega)
    · rw [if_neg hg]
      exact hg

/-! ## The claims that fail on the code -/

/-- C1. Byte round trip, evaluated at `d = [3]`, base 3, alphabet "012", with the buffers the
allocating overloads allocate (6 characters, then 1 byte): `encode` leaves the loop at once
because `dv[0] > base` is false for `dv[0] = 3`, and writes the single character `digits[3]`,
the byte after the alphabet; `decode` of that one character throws `OUT_OF_ALPH`. The round
trip does not give back `[3]`. -/
theorem roundtrip_bytes_at_base :
    encode [3] (List.replicate 6 32) 3 (cstr "012") = Outcome.ret [32, 32, 32, 32, 32, 0] 5 ∧
      digitsMap (cstr "012") 3 = .ok (tableOf (cstr "012") 3) ∧
      decode (List.drop 5 [32, 32, 32, 32, 32, 0]) [0] 3 (cstr "012") (tableOf (cstr "012") 3) =
        Outcome.thrown [0] Code.OUT_OF_ALPH :=
  ⟨by decide, by rfl, by decide⟩

/-- C2. Text round trip, evaluated at `s = "100"`, base 16, alphabet "0123456789abcdef", with
the buffers the allocating overloads allocate (2 bytes, then 5 characters): `decode` gives
`[1, 0]`; `encode` of `[1, 0]` emits the digit 0, is left with the quotient 16, stops because
`dv[0] > base` is false, and writes `digits[16]`: the two characters `[0, 48]`, not "100". -/
theorem roundtrip_text_at_base :
    digitsMap (cstr "0123456789abcdef") 16 = .ok (tableOf (cstr "0123456789abcdef") 16) ∧
      decode [49, 48, 48] [0, 0] 16 (cstr "0123456789abcdef")
          (tableOf (cstr "0123456789abcdef") 16) = Outcome.ret [1, 0] 0 ∧
      encode [1, 0] (List.replicate 5 32) 16 (cstr "0123456789abcdef") =
        Outcome.ret [32, 32, 32, 0, 48] 3 ∧
      List.drop 3 [32, 32, 32, 0, 48] ≠ [49, 48, 48] :=
  ⟨by rfl, by decide, by decide, by decide⟩

/-- C3. Positional representation, evaluated at the scenario of the claim, `encode([255])` at
base 3 with the alphabet "012" in a buffer of 6 characters: the code writes the five characters
`digits[3], '0', '1', '1', '0'` and returns the offset 1, not the six characters "100110"; and
`decode("100110")` in a buffer of 2 bytes does return `[255]`. -/
theorem encode_255_base3 :
    encode [255] (List.replicate 6 32) 3 (cstr "012") =
        Outcome.ret [32, 0, 48, 49, 49, 48] 1 ∧
      List.drop 1 [32, 0, 48, 49, 49, 48] ≠ [49, 48, 48, 49, 49, 48] ∧
      digitsMap (cstr "012") 3 = .ok (tableOf (cstr "012") 3) ∧
      decode [49, 48, 48, 49, 49, 48] [0, 0] 3 (cstr "012") (tableOf (cstr "012") 3) =
        Outcome.ret [0, 255] 1 :=
  ⟨by decide, by decide, by rfl, by decide⟩

/-- The generic engine on `[0, 0, 5]`: `encode` at base 16 with the alphabet
"0123456789abcdef" in a buffer of 6 characters returns the offset 3 and leaves "005" behind it
(one zero-digit for each zero byte); the two characters per byte are the format of the hex
facade. -/
theorem encode_005_not_six :
    encode [0, 0, 5] (List.replicate 6 32) 16 (cstr "0123456789abcdef") =
        Outcome.ret [32, 32, 32, 48, 48, 53] 3 ∧
      List.drop 3 [32, 32, 32, 48, 48, 53] ≠ [48, 48, 48, 48, 48, 53] :=
  ⟨by decide, by decide⟩

/-- The generic engine on `[0, 0, 5]`, for a buffer of any size from 3 on: encoding at base 16
with the alphabet "0123456789abcdef" yields the 3-character string "005": one zero-digit for
each leading zero byte, then the digit of 5; the characters before the returned offset are
untouched. -/
theorem encode_005 (str : List Nat) (h : 3 ≤ str.length) :
    encode [0, 0, 5] str 16 (cstr "0123456789abcdef") =
      Outcome.ret (str.take (str.length - 3) ++ [48, 48, 53]) (str.length - 3) := by
  have hE : encDigits 16 [5] = [5] := by
    rw [encDigits, if_neg (by simp)]
    exact emitted_le 16 _ (by decide)
  have := (encode_ok 16 (cstr "0123456789abcdef") 2 [5] str 1 (by decide) (by decide)
    (by decide) (by decide) (by omega)).1
  rw [hE] at this
  simpa [cstr] using this

/-- The generic engine on `[0, 0, 5]` in the buffer of 5 blanks that the allocating overload
allocates. -/
theorem encode_005_witness :
    encode [0, 0, 5] [32, 32, 32, 32, 32] 16 (cstr "0123456789abcdef") =
      Outcome.ret (List.take ([32, 32, 32, 32, 32].length - 3) [32, 32, 32, 32, 32] ++
        [48, 48, 53]) ([32, 32, 32, 32, 32].length - 3) :=
  encode_005 [32, 32, 32, 32, 32] (by decide)

/-! ## Buffers that are too small -/

/-- One pass writes one character; what it leaves in `dv`, `quo_it_last` and `div`, and the
character, do not depend on the output span. -/
theorem encodePass_shape (base : Nat) (digits : Nat → Nat) (dv : List Nat) (last div : Nat) :
    ∃ (dv1 : List Nat) (last1 div1 c : Nat), ∀ (sv : List Nat) (p : Nat), p < sv.length →
      encodePass base digits ⟨dv, last, sv, p, div⟩ =
        some ⟨dv1, last1, sv.set p c, p + 1, div1⟩ := by
  refine ⟨(encodeInner base
      (last - if div < base then 2 else 1)
      (dv.set 0 (((if div < base then ((div * 256) % 65536 + dv.getD 1 0) % 65536 else div) /
        base) % 256))
      (if div < base then 2 else 1) 1
      ((if div < base then ((div * 256) % 65536 + dv.getD 1 0) % 65536 else div) % base)).1,
    (encodeInner base
      (last - if div < base then 2 else 1)
      (dv.set 0 (((if div < base then ((div * 256) % 65536 + dv.getD 1 0) % 65536 else div) /
        base) % 256))
      (if div < base then 2 else 1) 1
      ((if div < base then ((div * 256) % 65536 + dv.getD 1 0) % 65536 else div) % base)).2.1,
    (encodeInner base
      (last - if div < base then 2 else 1)
      (dv.set 0 (((if div < base then ((div * 256) % 65536 + dv.getD 1 0) % 65536 else div) /
        base) % 256))
      (if div < base then 2 else 1) 1
      ((if div < base then ((div * 256) % 65536 + dv.getD 1 0) % 65536 else div) %
        base)).1.getD 0 0,
    digits (encodeInner base
      (last - if div < base then 2 else 1)
      (dv.set 0 (((if div < base then ((div * 256) % 65536 + dv.getD 1 0) % 65536 else div) /
        base) % 256))
      (if div < base then 2 else 1) 1
      ((if div < base then ((div * 256) % 65536 + dv.getD 1 0) % 65536 else div) % base)).2.2,
    fun sv p hp => ?_⟩
  unfold encodePass
  simp only [wr_lt _ _ _ hp]

theorem set_eq_take_append (sv : List Nat) (p c : Nat) (h : p < sv.length) :
    sv.set p c = sv.take p ++ [c] ++ sv.drop (p + 1) := by
  rw [List.set_eq_take_cons_drop c h]
  simp

/-- The outer loop of `encode` writes a run of characters `w` from `sv_it` on and leaves the
rest of the span alone; `w` and the final `dv`, `quo_it_last`, `div` depend on the span only
through its length. -/
theorem encodeLoop_shape (base : Nat) (digits : Nat → Nat) (len : Nat) :
    ∀ (fuel : Nat) (dv : List Nat) (last div p : Nat),
      ∃ (dv1 : List Nat) (last1 div1 : Nat) (w : List Nat), (p < len → p + w.length < len) ∧
        ∀ sv : List Nat, sv.length = len →
          encodeLoop base digits fuel ⟨dv, last, sv, p, div⟩ =
            some ⟨dv1, last1, sv.take p ++ w ++ sv.drop (p + w.length), p + w.length, div1⟩ := by
  intro fuel
  induction fuel with
  | zero =>
    intro dv last div p
    refine ⟨dv, last, div, [], fun h => by simpa using h, fun sv _ => ?_⟩
    simp [encodeLoop]
  | succ fuel ih =>
    intro dv last div p
    by_cases hc : ((decide (dv.getD 0 0 > base) || decide (last > 1)) &&
        decide (p + 1 < len)) = true
    · have hroom : p + 1 < len := by
        simp only [Bool.and_eq_true, decide_eq_true_eq] at hc
        exact hc.2
      obtain ⟨dv1, last1, div1, c, hpass⟩ := encodePass_shape base digits dv last div
      obtain ⟨dv2, last2, div2, w, hw, hrun⟩ := ih dv1 last1 div1 (p + 1)
      refine ⟨dv2, last2, div2, c :: w, fun _ => ?_, fun sv hsv => ?_⟩
      · have := hw hroom
        simp only [List.length_cons]
        omega
      · have hcond : encodeCond base ⟨dv, last, sv, p, div⟩ = true := by
          unfold encodeCond
          simp only [hsv]
          exact hc
        rw [encodeLoop, if_pos hcond, hpass sv p (by omega)]
        simp only []
        rw [hrun (sv.set p c) (by rw [List.length_set]; exact hsv),
          take_set_succ _ _ _ (by omega), List.drop_set_of_lt _ _ (by omega)]
        have e : p + 1 + w.length = p + (c :: w).length := by
          simp only [List.length_cons]
          omega
        rw [e]
        simp
    · refine ⟨dv, last, div, [], fun h => by simpa using h, fun sv hsv => ?_⟩
      have hcond : ¬ encodeCond base ⟨dv, last, sv, p, div⟩ = true := by
        unfold encodeCond
        simp only [hsv]
        exact hc
      rw [encodeLoop, if_neg hcond]
      simp

/-- The padding loop in a span of any size: it writes `min z (len - p)` copies of `v` from
position `p` on and leaves the rest of the span alone. -/
theorem padLoop_any (v : Nat) :
    ∀ (z : Nat) (sv : List Nat) (p : Nat), p ≤ sv.length →
      padLoop v z sv p =
        (sv.take p ++ List.replicate (min z (sv.length - p)) v ++
          sv.drop (p + min z (sv.length - p)), p + min z (sv.length - p)) := by
  intro z
  induction z with
  | zero =>
    intro sv p _
    simp [padLoop]
  | succ z ih =>
    intro sv p hp
    rw [padLoop]
    by_cases hlt : p < sv.length
    · rw [if_pos hlt, ih (sv.set p v) (p + 1) (by rw [List.length_set]; omega),
        List.length_set, take_set_succ _ _ _ hlt, List.drop_set_of_lt _ _ (by omega)]
      have e : min (z + 1) (sv.length - p) = min z (sv.length - (p + 1)) + 1 := by omega
      rw [e, List.replicate_succ]
      have e2 : p + 1 + min z (sv.length - (p + 1)) = p + (min z (sv.length - (p + 1)) + 1) := by
        omega
      rw [e2]
      simp
    · rw [if_neg hlt]
      have e : min (z + 1) (sv.length - p) = 0 := by omega
      rw [e]
      simp

/-- Lines 75-101 in a non-empty span: the digits written and the iterator after them depend on
the span only through its length. -/
theorem encodeDigits_shape (base : Nat) (digits : Nat → Nat) (dv : List Nat) (len : Nat)
    (hlen : 1 ≤ len) :
    ∃ w : List Nat, w.length ≤ len ∧ (dv = [] → w = []) ∧
      ∀ sv : List Nat, sv.length = len →
        encodeDigits dv sv base digits = some (w ++ sv.drop w.length, w.length) := by
  cases dv with
  | nil =>
    refine ⟨[], by simp, fun _ => rfl, fun sv _ => ?_⟩
    simp [encodeDigits]
  | cons x dv =>
    obtain ⟨dv1, last1, div1, w, hw, hrun⟩ :=
      encodeLoop_shape base digits len len (x :: dv) (x :: dv).length ((x :: dv).getD 0 0) 0
    have hw1 := hw (by omega)
    refine ⟨w ++ [digits div1], (by simp; omega), (fun h => by cases h), fun sv hsv => ?_⟩
    unfold encodeDigits
    rw [if_pos (by simp), hsv, hrun sv hsv]
    simp only [List.take_zero, List.nil_append, Nat.zero_add]
    have hl : (w ++ sv.drop w.length).length = len := by
      rw [List.length_append, List.length_drop]
      omega
    rw [wr_lt _ _ _ (by rw [hl]; omega)]
    simp only []
    have e : (w ++ sv.drop w.length).set w.length (digits div1) =
        w ++ [digits div1] ++ sv.drop (w ++ [digits div1]).length := by
      cases hd : sv.drop w.length with
      | nil =>
        have := congrArg List.length hd
        rw [List.length_drop] at this
        simp at this
        omega
      | cons y rest =>
        rw [set_append_length]
        have : sv.drop (w.length + 1) = rest := by
          rw [← List.drop_drop, hd]
          rfl
        simp [this]
    rw [e]
    simp

/-- In a non-empty buffer `encode` returns; the characters `w` it leaves from the returned
offset on depend on the buffer only through its length, and the characters before the offset
are those of the buffer it was given. -/
theorem encode_shape (data : List Nat) (base : Nat) (digits : Nat → Nat) (len : Nat)
    (hb : ¬ (base < 2 ∨ base > 254)) (hlen : 1 ≤ len) :
    ∃ w : List Nat, w.length ≤ len ∧
      ∀ str : List Nat, str.length = len →
        encode data str base digits =
          Outcome.ret (str.take (len - w.length) ++ w) (len - w.length) := by
  obtain ⟨w, hwl, _, hdig⟩ :=
    encodeDigits_shape base digits (data.dropWhile (fun item => item == 0)) len hlen
  obtain ⟨m, hm, hmdef⟩ : ∃ m, m ≤ len - w.length ∧
      m = min (data.length - (data.dropWhile (fun item => item == 0)).length)
        (len - w.length) := ⟨_, Nat.min_le_right _ _, rfl⟩
  refine ⟨(w ++ List.replicate m (digits 0)).reverse, (by simp; omega), fun str hstr => ?_⟩
  rw [encode, if_neg hb]
  simp only []
  rw [hdig str.reverse (by rw [List.length_reverse]; exact hstr)]
  simp only []
  have hl : (w ++ str.reverse.drop w.length).length = len := by
    rw [List.length_append, List.length_drop, List.length_reverse]
    omega
  rw [padLoop_any _ _ _ _ (by rw [hl]; exact hwl), hl, ← hmdef]
  have e1 : (w ++ str.reverse.drop w.length).take w.length = w := List.take_left' rfl
  have e2 : (w ++ str.reverse.drop w.length).drop (w.length + m) =
      str.reverse.drop (w.length + m) := by
    rw [List.drop_append, List.drop_drop, Nat.add_comm]
  rw [e1, e2]
  have e3 : (w ++ List.replicate m (digits 0) ++ str.reverse.drop (w.length + m)).length =
      len := by
    simp only [List.length_append, List.length_replicate, List.length_drop,
      List.length_reverse, hstr]
    omega
  have e4 : (w ++ List.replicate m (digits 0)).reverse.length = w.length + m := by
    rw [List.length_reverse, List.length_append, List.length_replicate]
  rw [e3, e4, List.reverse_append, reverse_drop_reverse, hstr]

/-- C20. Trim offset and frame of encode: for every valid base, every input and every output
buffer of length `len >= 1`, `encode` returns an offset `k <= len`; the slots `[0, k)` keep
the contents they had before the call, and the slots `[k, len)` hold characters `w` that are
the same whatever the buffer held before, so exactly these slots were written. (The input is
read through the private copy `dv` only; the embedding has no write to `data`.) -/
theorem encode_frame (data : List Nat) (base : Nat) (digits : Nat → Nat) (len : Nat)
    (hb : 2 ≤ base ∧ base ≤ 254) (hlen : 1 ≤ len) :
    ∃ (k : Nat) (w : List Nat), k ≤ len ∧ k + w.length = len ∧
      ∀ str : List Nat, str.length = len →
        ∃ buf, encode data str base digits = Outcome.ret buf k ∧ buf.length = len ∧
          buf.take k = str.take k ∧ buf.drop k = w := by
  obtain ⟨w, hwl, hrun⟩ := encode_shape data base digits len (by omega) hlen
  refine ⟨len - w.length, w, by omega, by omega, fun str hstr => ?_⟩
  have hk : (str.take (len - w.length)).length = len - w.length := by
    rw [List.length_take]
    omega
  refine ⟨_, hrun str hstr, ?_, List.take_left' hk, List.drop_left' hk⟩
  rw [List.length_append, hk]
  omega

/-- C20 at `[0, 0, 5]`, base 16, buffers of 5 characters. -/
theorem encode_frame_witness :
    ∃ (k : Nat) (w : List Nat), k ≤ 5 ∧ k + w.length = 5 ∧
      ∀ str : List Nat, str.length = 5 →
        ∃ buf, encode [0, 0, 5] str 16 (cstr "0123456789abcdef") = Outcome.ret buf k ∧
          buf.length = 5 ∧ buf.take k = str.take k ∧ buf.drop k = w :=
  encode_frame [0, 0, 5] 16 (cstr "0123456789abcdef") 5 (by decide) (by decide)

theorem encode_oob_iff (data str : List Nat) (base : Nat) (digits : Nat → Nat) :
    encode data str base digits = Outcome.oob ↔
      (¬ (base < 2 ∨ base > 254) ∧ str = [] ∧ data.dropWhile (fun item => item == 0) ≠ []) := by
  by_cases hb : base < 2 ∨ base > 254
  · rw [encode, if_pos hb]
    simp [hb]
  · cases str with
    | cons c str =>
      obtain ⟨w, _, hrun⟩ := encode_shape data base digits (c :: str).length hb (by simp)
      rw [hrun (c :: str) rfl]
      simp
    | nil =>
      rw [encode, if_neg hb]
      simp only []
      cases hdv : data.dropWhile (fun item => item == 0) with
      | nil => simp [encodeDigits, hb]
      | cons x rest => simp [encodeDigits, encodeLoop, wr, hb]

theorem decode_oob_iff (str data : List Nat) (base : Nat) (digits : Nat → Nat)
    (map : List Nat) :
    decode str data base digits map = Outcome.oob ↔
      (¬ (base < 2 ∨ base > 254) ∧
        isValid (str.dropWhile (fun ch => ch == digits 0)) map = true ∧ data = [] ∧
        str.dropWhile (fun ch => ch == digits 0) ≠ []) := by
  by_cases hb : base < 2 ∨ base > 254
  · rw [decode, if_pos hb]
    simp [hb]
  · rw [decode, if_neg hb]
    simp only []
    cases hv : isValid (str.dropWhile (fun ch => ch == digits 0)) map with
    | false => simp [hb]
    | true =>
      cases hsv : str.dropWhile (fun ch => ch == digits 0) with
      | nil => simp [decodeBytes, hb]
      | cons c rest =>
        cases data with
        | nil => simp [decodeBytes, wr, hb]
        | cons d data => simp [decodeBytes, wr, hb]

/-- C11. No out-of-bounds writes, evaluated with an empty output buffer at base 16 with the
alphabet "0123456789abcdef": `encode` of `[1]` writes through `sv.rbegin()` at line 100, and
`decode` of "1" writes through `dv.rbegin()` at line 137, both one slot before the buffer. In
general `encode` writes outside the buffer exactly when the base is valid, the buffer is empty
and the input has a non-zero byte; `decode` exactly when the base is valid, the buffer is empty
and the string has a valid non-empty part after its leading zero-digits. With a non-empty
buffer no write is outside it. -/
theorem empty_buffer_write :
    encode [1] [] 16 (cstr "0123456789abcdef") = Outcome.oob ∧
      decode [49] [] 16 (cstr "0123456789abcdef") (tableOf (cstr "0123456789abcdef") 16) =
        Outcome.oob ∧
      (∀ (data str : List Nat) (base : Nat) (digits : Nat → Nat),
        encode data str base digits = Outcome.oob ↔
          (¬ (base < 2 ∨ base > 254) ∧ str = [] ∧
            data.dropWhile (fun item => item == 0) ≠ [])) ∧
      (∀ (str data : List Nat) (base : Nat) (digits : Nat → Nat) (map : List Nat),
        decode str data base digits map = Outcome.oob ↔
          (¬ (base < 2 ∨ base > 254) ∧
            isValid (str.dropWhile (fun ch => ch == digits 0)) map = true ∧ data = [] ∧
            str.dropWhile (fun ch => ch == digits 0) ≠ [])) :=
  ⟨by decide, by decide, encode_oob_iff, decode_oob_iff⟩

/-- C12. Out-of-alphabet rejection: for every valid base, `decode` throws `OUT_OF_ALPH`
exactly when, after the leading run of characters equal to `digits[0]` is removed, some
remaining character `c` has `map[byte(c)] == 255`; and when it throws, the output buffer is the
one it was given (the check comes before any write). -/
theorem decode_out_of_alph (str data : List Nat) (base : Nat) (digits : Nat → Nat)
    (map : List Nat) (hb : 2 ≤ base ∧ base ≤ 254) :
    (decode str data base digits map = Outcome.thrown data Code.OUT_OF_ALPH ↔
        ∃ c, c ∈ str.dropWhile (fun ch => ch == digits 0) ∧ map.getD (c % 256) 0 = 255) ∧
      ((∃ buf, decode str data base digits map = Outcome.thrown buf Code.OUT_OF_ALPH) ↔
        ∃ c, c ∈ str.dropWhile (fun ch => ch == digits 0) ∧ map.getD (c % 256) 0 = 255) := by
  have hnb : ¬ (base < 2 ∨ base > 254) := by omega
  cases hv : isValid (str.dropWhile (fun ch => ch == digits 0)) map with
  | false =>
    have hthrow : decode str data base digits map = Outcome.thrown data Code.OUT_OF_ALPH := by
      rw [decode, if_neg hnb]
      simp only [hv, Bool.not_false, if_true]
    have hex : ∃ c, c ∈ str.dropWhile (fun ch => ch == digits 0) ∧
        map.getD (c % 256) 0 = 255 := by
      by_contra hno
      have : isValid (str.dropWhile (fun ch => ch == digits 0)) map = true := by
        rw [isValid_iff]
        intro c hc h255
        exact hno ⟨c, hc, h255⟩
      rw [hv] at this
      cases this
    exact ⟨⟨fun _ => hex, fun _ => hthrow⟩, ⟨fun _ => hex, fun _ => ⟨data, hthrow⟩⟩⟩
  | true =>
    have hno : ¬ ∃ c, c ∈ str.dropWhile (fun ch => ch == digits 0) ∧
        map.getD (c % 256) 0 = 255 := by
      rintro ⟨c, hc, h255⟩
      exact (isValid_iff _ _).1 hv c hc h255
    have hnot : ∀ buf, decode str data base digits map ≠
        Outcome.thrown buf Code.OUT_OF_ALPH := by
      intro buf
      rw [decode, if_neg hnb]
      simp only [hv, Bool.not_true, Bool.false_eq_true, if_false]
      split <;> simp
    exact ⟨⟨fun h => absurd h (hnot data), fun h => absurd h hno⟩,
      ⟨fun ⟨b, h⟩ => absurd h (hnot b), fun h => absurd h hno⟩⟩

/-- C12 at base 16: "0?" is rejected for its character '?', and the buffer is untouched. -/
theorem decode_out_of_alph_witness :
    decode [48, 63] [7] 16 (cstr "0123456789abcdef") (tableOf (cstr "0123456789abcdef") 16) =
      Outcome.thrown [7] Code.OUT_OF_ALPH :=
  (decode_out_of_alph [48, 63] [7] 16 (cstr "0123456789abcdef")
    (tableOf (cstr "0123456789abcdef") 16) (by decide)).1.2 ⟨63, by decide, by decide⟩

/-! ## When the emitted digits are the base-`base` representation -/

theorem digits_base_self (base : Nat) (hb2 : 2 ≤ base) : Nat.digits base base = [0, 1] := by
  rw [Nat.digits_def' (by omega) (by omega), Nat.mod_self, Nat.div_self (by omega),
    Nat.digits_of_lt base 1 (by omega) (by omega)]

/-- An iterated quotient of `v` equals the base exactly when the representation of `v`, most
significant digit first, begins with the digits 1, 0. -/
theorem quotient_eq_base_iff (base : Nat) (hb2 : 2 ≤ base) :
    ∀ v : Nat, (∃ k, v / base ^ k = base) ↔ List.IsSuffix [0, 1] (Nat.digits base v) := by
  intro v
  constructor
  · rintro ⟨k, hk⟩
    induction k generalizing v with
    | zero =>
      rw [pow_zero, Nat.div_one] at hk
      rw [hk, digits_base_self base hb2]
    | succ k ih =>
      have hq : v / base / base ^ k = base := by
        rw [Nat.div_div_eq_div_mul, ← pow_succ']
        exact hk
      have hpos : 0 < v := by
        rcases Nat.eq_zero_or_pos v with h | h
        · rw [h, Nat.zero_div] at hk
          omega
        · exact h
      rw [Nat.digits_def' (by omega) hpos]
      exact (ih (v / base) hq).trans (List.suffix_cons _ _)
  · induction v using Nat.strong_induction_on with
    | _ v ih =>
      intro hs
      rcases Nat.eq_zero_or_pos v with h | hpos
      · rw [h, Nat.digits_zero] at hs
        have := hs.length_le
        simp at this
      · rw [Nat.digits_def' (by omega) hpos, List.suffix_cons_iff] at hs
        rcases hs with heq | hsuf
        · have h0 : 0 = v % base := (List.cons.inj heq).1
          have h1 : [1] = Nat.digits base (v / base) := (List.cons.inj heq).2
          have hq : v / base = 1 := by
            have := Nat.ofDigits_digits base (v / base)
            rw [← h1] at this
            simpa using this.symm
          refine ⟨0, ?_⟩
          have := Nat.div_add_mod v base
          rw [hq, ← h0] at this
          rw [pow_zero, Nat.div_one]
          omega
        · obtain ⟨k, hk⟩ := ih (v / base) (Nat.div_lt_self hpos (by omega)) hsuf
          refine ⟨k + 1, ?_⟩
          rw [pow_succ', ← Nat.div_div_eq_div_mul]
          exact hk

theorem emitted_eq_digits (base : Nat) (hb2 : 2 ≤ base) :
    ∀ v : Nat, 1 ≤ v → ¬ List.IsSuffix [0, 1] (Nat.digits base v) →
      emitted base v = Nat.digits base v := by
  intro v
  induction v using Nat.strong_induction_on with
  | _ v ih =>
    intro hv hno
    rcases Nat.lt_trichotomy v base with hlt | heq | hgt
    · rw [emitted_le base v (by omega), Nat.digits_of_lt base v (by omega) hlt]
    · exfalso
      apply hno
      rw [heq, digits_base_self base hb2]
    · have hq : 1 ≤ v / base := by
        rw [Nat.one_le_div_iff (by omega)]
        omega
      rw [Nat.digits_def' (by omega) (by omega)] at hno
      rw [emitted_gt base v hb2 hgt, Nat.digits_def' (by omega) (by omega),
        ih (v / base) (Nat.div_lt_self (by omega) (by omega)) hq
          (fun h => hno (h.trans (List.suffix_cons _ _)))]

/-- C19. Conditional correctness of encode: for a base in [2,254], a non-empty byte sequence
`r` with `r[0] != 0` whose base-`base` representation does not begin with the digits 1, 0
(`Nat.digits` lists the least significant digit first, so `[0, 1]` is no suffix of it;
equivalently no iterated quotient `v / base^k` equals `base`), and a buffer at least as long as
that representation: `encode` returns, and the characters from the returned offset to the end
of the buffer are exactly that representation through the alphabet, most significant digit
first. -/
theorem encode_conditional (base : Nat) (digits : Nat → Nat) (r str : List Nat)
    (hb : 2 ≤ base ∧ base ≤ 254) (hr : ∀ x, x ∈ r → x < 256) (hne : r ≠ [])
    (hr0 : r.head? ≠ some 0)
    (hno : ¬ List.IsSuffix [0, 1] (Nat.digits base (beValue 256 r)))
    (hlen : (Nat.digits base (beValue 256 r)).length ≤ str.length) :
    encode r str base digits =
        Outcome.ret (str.take (str.length - (Nat.digits base (beValue 256 r)).length) ++
            (Nat.digits base (beValue 256 r)).reverse.map digits)
          (str.length - (Nat.digits base (beValue 256 r)).length) ∧
      ((∃ k, beValue 256 r / base ^ k = base) ↔
        List.IsSuffix [0, 1] (Nat.digits base (beValue 256 r))) := by
  refine ⟨?_, quotient_eq_base_iff base hb.1 _⟩
  have hvpos : 1 ≤ beValue 256 r := by
    cases r with
    | nil => exact absurd rfl hne
    | cons x r1 =>
      have hx : 1 ≤ x := by
        rcases Nat.eq_zero_or_pos x with h | h
        · exact absurd (by rw [h]; rfl) hr0
        · exact h
      rw [beValue_cons]
      have : 1 ≤ x * 256 ^ r1.length :=
        Nat.mul_le_mul hx (Nat.one_le_two_pow.trans (Nat.pow_le_pow_left (by omega) _))
      omega
  have hE : encDigits base r = Nat.digits base (beValue 256 r) := by
    rw [encDigits, if_neg hne]
    exact emitted_eq_digits base hb.1 _ hvpos hno
  have h := (encode_ok base digits 0 r str (Nat.digits base (beValue 256 r)).length hb hr hr0
    (Nat.lt_base_pow_length_digits (by omega)) (by omega)).1
  rw [hE] at h
  simpa using h

/-- C19 at `[255]`, base 16, in a buffer of 3 characters: the representation is "ff". -/
theorem encode_conditional_witness :
    encode [255] [32, 32, 32] 16 (cstr "0123456789abcdef") =
        Outcome.ret (List.take ([32, 32, 32].length -
            (Nat.digits 16 (beValue 256 [255])).length) [32, 32, 32] ++
            (Nat.digits 16 (beValue 256 [255])).reverse.map (cstr "0123456789abcdef"))
          ([32, 32, 32].length - (Nat.digits 16 (beValue 256 [255])).length) ∧
      ((∃ k, beValue 256 [255] / 16 ^ k = 16) ↔
        List.IsSuffix [0, 1] (Nat.digits 16 (beValue 256 [255]))) :=
  have hv : beValue 256 [255] = 255 := by decide
  have hd : Nat.digits 16 255 = [15, 15] := by norm_num
  encode_conditional 16 (cstr "0123456789abcdef") [255] [32, 32, 32] (by decide) (by decide)
    (by decide) (by decide) (by rw [hv, hd]; decide) (by rw [hv, hd]; decide)

/-- C17. Encode's stopping condition, evaluated at `[255]`, base 3, alphabet "012", buffer of 6
characters: after four passes the loop of line 78 stops with the single quotient byte 3 and
two free slots; 3 is not less than the base, and line 100 writes `digits[3]`, which is none of
the three alphabet characters. -/
theorem loop_stops_at_base :
    encodeLoop 3 (cstr "012") 6 ⟨[255], 1, List.replicate 6 32, 0, 255⟩ =
        some ⟨[3], 1, [48, 49, 49, 48, 32, 32], 4, 3⟩ ∧
      encodeCond 3 ⟨[3], 1, [48, 49, 49, 48, 32, 32], 4, 3⟩ = false ∧
      4 + 1 < [48, 49, 49, 48, 32, 32].length ∧
      ¬ (3 < 3) ∧
      encode [255] (List.replicate 6 32) 3 (cstr "012") =
        Outcome.ret [32, 0, 48, 49, 49, 48] 1 ∧
      (∀ i, i < 3 → cstr "012" i ≠ 0) := by
  refine ⟨by decide, by decide, by decide, by decide, by decide, by decide⟩

/-! ## The accumulator `div` never wraps -/

theorem encodeInnerFits_true (base : Nat) (hb2 : 2 ≤ base) (hbase : base ≤ 254) :
    ∀ (n : Nat) (dv : List Nat) (dv_it quo_it div : Nat), quo_it ≤ dv_it →
      dv_it + n ≤ dv.length → (∀ t, dv_it ≤ t → t < dv_it + n → dv.getD t 0 < 256) →
      div < base → encodeInnerFits base n dv dv_it quo_it div = true := by
  intro n
  induction n with
  | zero => intro dv dv_it quo_it div _ _ _ _; rfl
  | succ n ih =>
    intro dv dv_it quo_it div hq hlen hbytes hdiv
    have hx : dv.getD dv_it 0 < 256 := hbytes dv_it (le_refl _) (by omega)
    have hq256 : (div * 256 + dv.getD dv_it 0) / base < 256 := by
      rw [Nat.div_lt_iff_lt_mul (by omega)]
      have : (div + 1) * 256 ≤ base * 256 := Nat.mul_le_mul_right _ (by omega)
      omega
    have hrec := ih (dv.set quo_it ((((div * 256) % 65536 + dv.getD dv_it 0) % 65536 / base) %
        256)) (dv_it + 1) (quo_it + 1) (((div * 256) % 65536 + dv.getD dv_it 0) % 65536 % base)
      (by omega) (by rw [List.length_set]; omega)
      (by
        intro t ht1 ht2
        rw [getD_set_ne _ _ _ _ _ (by omega)]
        exact hbytes t (by omega) (by omega))
      (Nat.mod_lt _ (by omega))
    rw [encodeInnerFits]
    simp only [hrec, Bool.and_true, Bool.and_eq_true, decide_eq_true_eq]
    exact ⟨⟨by omega, by omega⟩, by omega⟩

theorem encodePassFits_true (base : Nat) (hb2 : 2 ≤ base) (hbase : base ≤ 254)
    (s : EncState) (v : Nat) (hinv : EncInv s v) (hv : v > base) :
    encodePassFits base s = true := by
  have hcond := (encInv_cond base hbase s v hinv).2 hv
  obtain ⟨h1, hlast, hbytes, htop, hdiv, hval⟩ := hinv
  have h0 : s.dv.getD 0 0 < 256 := hbytes 0 (by omega)
  unfold encodePassFits
  by_cases hlt : s.div < base
  · have hlast2 : 2 ≤ s.last := by
      rcases hcond with h | h
      · omega
      · omega
    have hx1 : s.dv.getD 1 0 < 256 := hbytes 1 (by omega)
    have e1 : (s.div * 256) % 65536 = s.div * 256 := Nat.mod_eq_of_lt (by omega)
    have e2 : (s.div * 256 + s.dv.getD 1 0) % 65536 = s.div * 256 + s.dv.getD 1 0 :=
      Nat.mod_eq_of_lt (by omega)
    have hq256 : (s.div * 256 + s.dv.getD 1 0) / base < 256 := by
      rw [Nat.div_lt_iff_lt_mul (by omega)]
      have : (s.div + 1) * 256 ≤ base * 256 := Nat.mul_le_mul_right _ (by omega)
      omega
    have hin := encodeInnerFits_true base hb2 hbase (s.last - 2)
      (s.dv.set 0 (((s.div * 256 + s.dv.getD 1 0) / base) % 256)) 2 1
      ((s.div * 256 + s.dv.getD 1 0) % base) (by omega) (by rw [List.length_set]; omega)
      (by
        intro t ht1 ht2
        rw [getD_set_ne _ _ _ _ _ (by omega)]
        exact hbytes t (by omega))
      (Nat.mod_lt _ (by omega))
    simp only [if_pos hlt, e1, e2, hin, Bool.and_true, Bool.and_eq_true, decide_eq_true_eq]
    exact ⟨⟨by omega, by omega⟩, by omega⟩
  · have hq256 : s.div / base < 256 := by
      rw [Nat.div_lt_iff_lt_mul (by omega)]
      have : 256 * 2 ≤ 256 * base := Nat.mul_le_mul_left _ hb2
      omega
    have hin := encodeInnerFits_true base hb2 hbase (s.last - 1)
      (s.dv.set 0 ((s.div / base) % 256)) 1 1 (s.div % base) (by omega)
      (by rw [List.length_set]; omega)
      (by
        intro t ht1 ht2
        rw [getD_set_ne _ _ _ _ _ (by omega)]
        exact hbytes t (by omega))
      (Nat.mod_lt _ (by omega))
    simp only [if_neg hlt, hin, Bool.and_true, Bool.true_and, decide_eq_true_eq]
    omega

theorem encodeLoopFits_true (base : Nat) (digits : Nat → Nat) (hb2 : 2 ≤ base)
    (hbase : base ≤ 254) :
    ∀ (fuel : Nat) (s : EncState) (v : Nat), EncInv s v →
      encodeLoopFits base digits fuel s = true := by
  intro fuel
  induction fuel with
  | zero => intro s v _; rfl
  | succ fuel ih =>
    intro s v hinv
    rw [encodeLoopFits]
    by_cases hc : encodeCond base s = true
    · rw [if_pos hc]
      unfold encodeCond at hc
      simp only [Bool.and_eq_true, Bool.or_eq_true, decide_eq_true_eq] at hc
      have hgt : base < v := (encInv_cond base hbase s v hinv).1 hc.1
      obtain ⟨s1, hpass, hinv1, _, _, _⟩ :=
        encodePass_spec base digits hb2 hbase s v hinv hgt (by omega)
      rw [encodePassFits_true base hb2 hbase s v hinv hgt, hpass]
      exact ih s1 (v / base) hinv1
    · rw [if_neg hc]

theorem dropWhile_zero_head (l : List Nat) :
    (l.dropWhile (fun item => item == 0)).head? ≠ some 0 := by
  induction l with
  | nil => simp
  | cons x l ih =>
    rw [List.dropWhile_cons]
    by_cases hx : x = 0
    · simpa [hx] using ih
    · simp [hx]

theorem encodeFits_true (data str : List Nat) (base : Nat) (digits : Nat → Nat)
    (hb : 2 ≤ base ∧ base ≤ 254) (hdata : ∀ x, x ∈ data → x < 256) :
    encodeFits data str base digits = true := by
  rw [encodeFits, if_neg (by omega)]
  simp only []
  have hhead := dropWhile_zero_head data
  have hbytes : ∀ x, x ∈ data.dropWhile (fun item => item == 0) → x < 256 :=
    fun x hx => hdata x ((List.dropWhile_sublist _).subset hx)
  cases hdv : data.dropWhile (fun item => item == 0) with
  | nil => simp
  | cons x r1 =>
    rw [hdv] at hhead hbytes
    have hx : 1 ≤ x := by
      rcases Nat.eq_zero_or_pos x with h | h
      · exact absurd (by rw [h]; rfl) hhead
      · exact h
    rw [if_pos (by simp)]
    exact encodeLoopFits_true base digits hb.1 hb.2 _ _ (beValue 256 (x :: r1))
      ⟨by simp, le_refl _, fun t _ => getD_lt_of_forall _ hbytes t, hx, rfl,
        segVal_eq_beValue (x :: r1)⟩

theorem decodeInner_bytes (base : Nat) (hbase : base ≤ 254) :
    ∀ (fuel : Nat) (dv : List Nat) (last q div : Nat), (∀ x, x ∈ dv → x < 256) → div ≤ 255 →
      (∀ x, x ∈ (decodeInner base fuel dv last q div).1 → x < 256) ∧
        (decodeInner base fuel dv last q div).2.2 ≤ 255 ∧
        decodeInnerFits base fuel dv last q div = true := by
  intro fuel
  induction fuel with
  | zero => intro dv last q div hdv hdiv; exact ⟨hdv, hdiv, rfl⟩
  | succ fuel ih =>
    intro dv last q div hdv hdiv
    rw [decodeInner, decodeInnerFits]
    by_cases hg : q < last ∧ q < dv.length
    · rw [if_pos hg, if_pos hg]
      have hx : dv.getD q 0 < 256 := getD_lt_of_forall dv hdv q
      have hprod : dv.getD q 0 * base ≤ 255 * 254 := Nat.mul_le_mul (by omega) hbase
      have hnow : (div + dv.getD q 0 * base) % 65536 = div + dv.getD q 0 * base :=
        Nat.mod_eq_of_lt (by omega)
      obtain ⟨h1, h2, h3⟩ := ih (dv.set q ((div + dv.getD q 0 * base) % 65536 % 256)) last
        (q + 1) ((div + dv.getD q 0 * base) % 65536 / 256)
        (by
          intro x hx
          rcases List.mem_or_eq_of_mem_set hx with h | h
          · exact hdv x h
          · rw [h]
            exact Nat.mod_lt _ (by omega))
        (by rw [hnow]; omega)
      refine ⟨h1, h2, ?_⟩
      simp only [h3, Bool.and_true, decide_eq_true_eq]
      omega
    · rw [if_neg hg, if_neg hg]
      exact ⟨hdv, hdiv, rfl⟩

theorem decodeLoopFits_true (base : Nat) (map : List Nat) (hbase : base ≤ 254)
    (hmap : ∀ c, map.getD c 0 ≤ 255) :
    ∀ (cs dv : List Nat) (last : Nat), (∀ x, x ∈ dv → x < 256) →
      decodeLoopFits base map cs dv last = true := by
  intro cs
  induction cs with
  | nil => intro dv last _; rfl
  | cons ch cs ih =>
    intro dv last hdv
    obtain ⟨h1, h2, h3⟩ := decodeInner_bytes base hbase dv.length dv last 0
      (map.getD (ch % 256) 0) hdv (hmap _)
    rw [decodeLoopFits]
    simp only [h3, Bool.true_and]
    split
    · simp only [Bool.and_eq_true, decide_eq_true_eq]
      refine ⟨h2, ih _ _ ?_⟩
      intro x hx
      rcases List.mem_or_eq_of_mem_set hx with h | h
      · exact h1 x h
      · rw [h]
        exact Nat.mod_lt _ (by omega)
    · exact ih _ _ h1

theorem decodeFits_true (str data : List Nat) (base : Nat) (digits : Nat → Nat)
    (map : List Nat) (hb : 2 ≤ base ∧ base ≤ 254) (hdata : ∀ x, x ∈ data → x < 256)
    (hmap : ∀ x, x ∈ map → x < 256) : decodeFits str data base digits map = true := by
  have hm : ∀ c, map.getD c 0 ≤ 255 := by
    intro c
    have := getD_lt_of_forall map hmap c
    omega
  rw [decodeFits, if_neg (by omega)]
  simp only []
  split
  · rfl
  · split
    · rfl
    · rename_i ch rest _
      cases hw : wr data.reverse 0 (map.getD (ch % 256) 0) with
      | none => rfl
      | some dv1 =>
        simp only []
        apply decodeLoopFits_true base map hb.2 hm
        unfold wr at hw
        split at hw
        · cases hw
          intro x hx
          rcases List.mem_or_eq_of_mem_set hx with h | h
          · exact hdata x (List.mem_reverse.1 h)
          · rw [h]
            have := hm (ch % 256)
            omega
        · cases hw

/-- C18. The 16-bit accumulator never wraps: for every base in [2,254], every input made of
bytes, every table of bytes and every buffer (of bytes, of any size), each value computed into
`div` in `encode` (`div << 8` and `div + next byte`) and in `decode`
(`div + byte * base`, `div` being a digit value or a carry) is at most 65535 before it is
stored, each quotient `encode` stores into `dv` is at most 255, and each carry `decode` stores
at line 149 is at most 255. -/
theorem accumulator_fits (data str : List Nat) (base : Nat) (digits : Nat → Nat)
    (text buf map : List Nat) (hb : 2 ≤ base ∧ base ≤ 254)
    (hdata : ∀ x, x ∈ data → x < 256) (hbuf : ∀ x, x ∈ buf → x < 256)
    (hmap : ∀ x, x ∈ map → x < 256) :
    encodeFits data str base digits = true ∧ decodeFits text buf base digits map = true :=
  ⟨encodeFits_true data str base digits hb hdata,
   decodeFits_true text buf base digits map hb hbuf hmap⟩

/-- C18 at base 254 with the largest bytes: `[255, 255, 255]` encoded into 4 characters, and
the string of three characters 255 decoded, through a table that maps every byte to 254, into
a buffer of three bytes 255. -/
theorem accumulator_fits_witness :
    encodeFits [255, 255, 255] [32, 32, 32, 32] 254 (fun i => i) = true ∧
      decodeFits [255, 255, 255] [255, 255, 255] 254 (fun i => i) (List.replicate 256 254) =
        true :=
  accumulator_fits [255, 255, 255] [32, 32, 32, 32] 254 (fun i => i) [255, 255, 255]
    [255, 255, 255] (List.replicate 256 254) (by decide) (by decide) (by decide)
    (by intro x hx; rw [List.eq_of_mem_replicate hx]; decide)

/-! ## The base64 validity check -/

theorem mem_dropWhile_of_false (p : Nat → Bool) (c : Nat) (hc : p c = false) :
    ∀ l : List Nat, c ∈ l → c ∈ l.dropWhile p := by
  intro l
  induction l with
  | nil => intro h; exact h
  | cons x l ih =>
    intro h
    rw [List.dropWhile_cons]
    by_cases hx : p x = true
    · rw [if_pos hx]
      rcases List.mem_cons.1 h with rfl | h1
      · rw [hc] at hx
        cases hx
      · exact ih h1
    · rw [if_neg hx]
      exact h

theorem base64_table : digitsMap base64.digits 64 = .ok base64.map := by rfl

theorem base64_not_pad : ∀ i, i < 64 → base64.digits i ≠ 61 := by decide

/-- C16. The base64 validity check: `isValid` accepts a string of symbols of the 64-character
alphabet followed by `k` padding characters `=` exactly when `k <= 2` ("1234", "123=" and
"12==" are valid, "1===" is not), and rejects every string that has a character other than `=`
outside the alphabet ("?!*"). -/
theorem base64_isValid_spec :
    base64.isValid [49, 50, 51, 52] = true ∧ base64.isValid [49, 50, 51, 61] = true ∧
      base64.isValid [49, 50, 61, 61] = true ∧ base64.isValid [49, 61, 61, 61] = false ∧
      base64.isValid [63, 33, 42] = false ∧
      (∀ (body : List Nat) (k : Nat), (∀ c, c ∈ body → ∃ i, i < 64 ∧ base64.digits i = c) →
        (base64.isValid (body ++ List.replicate k 61) = true ↔ k ≤ 2)) ∧
      (∀ (str : List Nat) (c : Nat), c ∈ str → c < 256 → c ≠ 61 →
        (∀ i, i < 64 → base64.digits i ≠ c) → base64.isValid str = false) := by
  have hbyte : ∀ i, i < 64 → base64.digits i < 256 := by decide
  have hinv := (digitsMap_ok base64.digits 64 base64.map (by decide) hbyte base64_table).1
  refine ⟨by decide, by decide, by decide, by decide, by decide, ?_, ?_⟩
  · intro body k hbody
    have hrev : ((body ++ List.replicate k 61).reverse.dropWhile (fun ch => ch == 61)) =
        body.reverse := by
      rw [List.reverse_append, List.reverse_replicate]
      apply dropWhile_run 61 _ (by simp)
      intro x hx
      have hmem : x ∈ body := by
        have : x ∈ body.reverse := List.mem_of_mem_head? hx
        exact List.mem_reverse.1 this
      obtain ⟨i, hi, he⟩ := hbody x hmem
      have := base64_not_pad i hi
      rw [he] at this
      simpa using this
    have hvalid : baseN.isValid body base64.map = true := by
      rw [isValid_iff]
      intro c hc
      obtain ⟨i, hi, he⟩ := hbody c hc
      have hc256 : c < 256 := by rw [← he]; exact hbyte i hi
      rw [Nat.mod_eq_of_lt hc256]
      exact (mapInv_sentinel base64.digits 64 base64.map (by decide) hinv c hc256).2
        ⟨i, hi, he⟩
    unfold base64.isValid
    simp only [hrev, List.reverse_reverse, hvalid, Bool.and_true, decide_eq_true_eq,
      List.length_append, List.length_replicate]
    omega
  · intro str c hc hc256 hne hout
    have hmem : c ∈ (str.reverse.dropWhile (fun ch => ch == 61)).reverse := by
      rw [List.mem_reverse]
      exact mem_dropWhile_of_false _ c (by simpa using hne) _ (List.mem_reverse.2 hc)
    have hbad : ¬ baseN.isValid (str.reverse.dropWhile (fun ch => ch == 61)).reverse
        base64.map = true := by
      rw [isValid_iff]
      intro h
      have h1 := h c hmem
      rw [Nat.mod_eq_of_lt hc256] at h1
      obtain ⟨i, hi, he⟩ :=
        (mapInv_sentinel base64.digits 64 base64.map (by decide) hinv c hc256).1 h1
      exact hout i hi he
    unfold base64.isValid
    simp only [Bool.and_eq_false_imp]
    intro _
    simpa using hbad

/-! ## The estimates in exact arithmetic -/

/-- The integer part of `n * ln 256 / ln base` is `Nat.log base (256 ^ n)`, and its ceiling is
`Nat.clog base (256 ^ n)`. -/
theorem quotient_floor_ceil (base n : Nat) :
    ⌊(n : ℝ) * Real.log 256 / Real.log base⌋ = (Nat.log base (256 ^ n) : ℤ) ∧
      ⌈(n : ℝ) * Real.log 256 / Real.log base⌉ = (Nat.clog base (256 ^ n) : ℤ) := by
  have hq : (n : ℝ) * Real.log 256 / Real.log base =
      Real.logb base ((256 ^ n : ℕ) : ℝ) := by
    rw [Real.logb, Nat.cast_pow, Real.log_pow]
    norm_num
  have hpos : (0 : ℝ) ≤ ((256 ^ n : ℕ) : ℝ) := Nat.cast_nonneg _
  rw [hq, Real.floor_logb_natCast hpos, Real.ceil_logb_natCast hpos, Int.log_natCast,
    Int.clog_natCast]
  exact ⟨rfl, rfl⟩

theorem beValue_lt (r : List Nat) (hr : ∀ x, x ∈ r → x < 256) :
    beValue 256 r < 256 ^ r.length := by
  rw [← segVal_eq_beValue]
  exact segVal_lt r r.length 0 (fun t _ _ => getD_lt_of_forall r hr t)

theorem strValue_succ_le (base : Nat) (map : List Nat) :
    ∀ (cs : List Nat) (acc : Nat), (∀ c, c ∈ cs → map.getD (c % 256) 0 < base) →
      strValue base map acc cs + 1 ≤ (acc + 1) * base ^ cs.length := by
  intro cs
  induction cs with
  | nil => intro acc _; simp [strValue]
  | cons c cs ih =>
    intro acc h
    have hc := h c (by simp)
    have h1 := ih (acc * base + map.getD (c % 256) 0) (fun x hx => h x (by simp [hx]))
    have h2 : (acc * base + map.getD (c % 256) 0 + 1) * base ^ cs.length ≤
        (acc + 1) * base * base ^ cs.length :=
      Nat.mul_le_mul_right _ (by
        have : (acc + 1) * base = acc * base + base := by ring
        omega)
    have h3 : (acc + 1) * base * base ^ cs.length = (acc + 1) * base ^ (c :: cs).length := by
      rw [List.length_cons, pow_succ]
      ring
    have h4 : strValue base map acc (c :: cs) =
        strValue base map (acc * base + map.getD (c % 256) 0) cs := rfl
    omega

/-- The estimate of `sizeEncoded`, computed exactly, covers the leading zero-digits and the
digits of the value. -/
theorem estimate_exact_encode (base z : Nat) (r : List Nat) (hb2 : 2 ≤ base)
    (hr : ∀ x, x ∈ r → x < 256) :
    z + (Nat.digits base (beValue 256 r)).length ≤ Nat.log base (256 ^ r.length) + 1 + z := by
  rcases Nat.eq_zero_or_pos (beValue 256 r) with h0 | hpos
  · rw [h0, Nat.digits_zero, List.length_nil]
    omega
  · rw [Nat.digits_len base _ (by omega) (by omega)]
    have := Nat.log_mono_right (b := base) (le_of_lt (beValue_lt r hr))
    omega

/-- The estimate of `sizeDecoded`, computed exactly, covers the leading zero bytes and the
bytes of the value. -/
theorem estimate_exact_decode (base z : Nat) (map t : List Nat)
    (ht : ∀ c, c ∈ t → map.getD (c % 256) 0 < base) :
    z + (Nat.digits 256 (strValue base map 0 t)).length ≤
      Nat.log 256 (base ^ t.length) + 1 + z := by
  rcases Nat.eq_zero_or_pos (strValue base map 0 t) with h0 | hpos
  · rw [h0, Nat.digits_zero, List.length_nil]
    omega
  · rw [Nat.digits_len 256 _ (by omega) (by omega)]
    have h1 := strValue_succ_le base map t 0 ht
    rw [Nat.zero_add, Nat.one_mul] at h1
    have := Nat.log_mono_right (b := 256) (show strValue base map 0 t ≤ base ^ t.length by omega)
    omega

/-! ## The size estimates -/

/-- On an input with `z` leading zero bytes followed by `d`, `sizeEncoded` computes with
`d.length` and `z`. -/
theorem sizeEncoded_run (L : Libm) (base z : Nat) (d : List Nat)
    (hb : ¬ (base < 2 ∨ base > 254)) (hd0 : d.head? ≠ some 0) :
    sizeEncoded L (List.replicate z 0 ++ d) base =
      if Dbl.lt (Dbl.div (Dbl.ofNat (2 ^ 64 - 1)) (L.log 256)) (Dbl.ofNat d.length) then
        .error Code.OVERFLOW
      else
        .ok (Dbl.toSize (Dbl.add (Dbl.add
          (Dbl.div (Dbl.mul (Dbl.ofNat d.length) (L.log 256)) (L.log base)) (Dbl.ofNat 1))
          (Dbl.ofNat z))) := by
  have hdrop : (List.replicate z 0 ++ d).dropWhile (fun item => item == 0) = d :=
    dropWhile_run 0 _ (by simp) d (by
      intro x hx
      have : x ≠ 0 := fun h => hd0 (by rw [hx, h])
      simpa using this) z
  rw [sizeEncoded, if_neg hb]
  simp only [hdrop, List.length_append, List.length_replicate, Nat.add_sub_cancel]

/-- On a string that does not begin with a character the lambda of line 55 takes for the
zero-digit, `sizeDecoded` computes with the whole length. -/
theorem sizeDecoded_run (L : Libm) (base : Nat) (digits : Nat → Nat) (t : List Nat)
    (hb : ¬ (base < 2 ∨ base > 254))
    (ht0 : ∀ x, t.head? = some x → ((x % 256 : Nat) : Int) ≠ schar (digits 0)) :
    sizeDecoded L t base digits =
      .ok (Dbl.toSize (Dbl.add (Dbl.add
        (Dbl.div (Dbl.mul (Dbl.ofNat t.length) (L.log base)) (L.log 256)) (Dbl.ofNat 1))
        (Dbl.ofNat 0))) := by
  have hdrop : t.dropWhile (fun ch => ((ch % 256 : Nat) : Int) == schar (digits 0)) = t := by
    cases t with
    | nil => rfl
    | cons x t =>
      rw [List.dropWhile_cons, if_neg]
      simpa using ht0 x rfl
  rw [sizeDecoded, if_neg hb]
  simp only [hdrop, Nat.sub_self]

theorem sizeEncoded_nil (L : Libm) (base : Nat) (hb : ¬ (base < 2 ∨ base > 254)) :
    sizeEncoded L [] base = .ok 1 := by
  rw [sizeEncoded, if_neg hb]
  have h0 : Dbl.ofNat 0 = ⟨0, 0⟩ := rfl
  have h1 : ∀ x, Dbl.lt x ⟨0, 0⟩ = false := by
    intro x
    simp [Dbl.lt]
  have h2 : ∀ y, Dbl.mul ⟨0, 0⟩ y = ⟨0, 0⟩ := by
    intro y
    simp [Dbl.mul, Dbl.round]
  have h3 : ∀ y, Dbl.div ⟨0, 0⟩ y = ⟨0, 0⟩ := by
    intro y
    simp [Dbl.div, Dbl.round]
  simp only [List.dropWhile_nil, List.length_nil, Nat.sub_self, h0, h1, h2, h3,
    Bool.false_eq_true, if_false]
  exact congrArg Except.ok (by decide!)

/-- C15. Empty-input boundary: for every valid base and alphabet (and every `std::log`),
`sizeEncoded` of the empty byte sequence is 1, so at least 1: the computation is
`0 * log256 / log(base) + 1 + 0` in doubles; the buffer-based `decode` of the empty string leaves
the buffer as it was and returns the buffer length as offset, and the allocating `decode` yields
the empty byte sequence; `encode` of the empty byte sequence likewise writes nothing, and the
allocating `encode` yields the empty string. -/
theorem empty_input (L : Libm) (base : Nat) (digits : Nat → Nat)
    (map data str : List Nat) (hb : 2 ≤ base ∧ base ≤ 254) :
    sizeEncoded L [] base = .ok 1 ∧
      decode [] data base digits map = Outcome.ret data data.length ∧
      decodeAlloc L [] base digits map = Alloc.value [] ∧
      encode [] str base digits = Outcome.ret str str.length ∧
      encodeAlloc L [] base digits = Alloc.value [] := by
  have hnb : ¬ (base < 2 ∨ base > 254) := by omega
  have hsize : sizeEncoded L [] base = .ok 1 := sizeEncoded_nil L base hnb
  have hdec : ∀ d : List Nat, decode [] d base digits map = Outcome.ret d d.length := by
    intro d
    rw [decode, if_neg hnb]
    simp [isValid, decodeBytes, padLoop]
  have henc : ∀ s : List Nat, encode [] s base digits = Outcome.ret s s.length := by
    intro s
    rw [encode, if_neg hnb]
    simp [encodeDigits, padLoop]
  refine ⟨hsize, hdec data, ?_, henc str, ?_⟩
  · rw [decodeAlloc, sizeDecoded, if_neg hnb]
    simp only [hdec]
    simp
  · rw [encodeAlloc, hsize]
    simp only [henc]
    simp

/-- C15 at base 16, with the doubles nearest to the logarithms. -/
theorem empty_input_witness :
    sizeEncoded glibcLog [] 16 = .ok 1 ∧
      decode [] [7, 7] 16 (cstr "0123456789abcdef") (tableOf (cstr "0123456789abcdef") 16) =
        Outcome.ret [7, 7] [7, 7].length ∧
      decodeAlloc glibcLog [] 16 (cstr "0123456789abcdef")
        (tableOf (cstr "0123456789abcdef") 16) = Alloc.value [] ∧
      encode [] [32] 16 (cstr "0123456789abcdef") = Outcome.ret [32] [32].length ∧
      encodeAlloc glibcLog [] 16 (cstr "0123456789abcdef") = Alloc.value [] :=
  empty_input glibcLog 16 (cstr "0123456789abcdef")
    (tableOf (cstr "0123456789abcdef") 16) [7, 7] [32] (by decide)

/-! ## The estimates can be too small -/

theorem beValue_replicate_255 (n : Nat) : beValue 256 (List.replicate n 255) + 1 = 256 ^ n := by
  induction n with
  | zero => rfl
  | succ n ih =>
    rw [List.replicate_succ, beValue_cons, List.length_replicate, pow_succ]
    omega

theorem strValue_replicate_top (base : Nat) (map : List Nat) (c : Nat)
    (hc : map.getD (c % 256) 0 + 1 = base) (n : Nat) :
    strValue base map 0 (List.replicate n c) + 1 = base ^ n := by
  induction n with
  | zero => rfl
  | succ n ih =>
    rw [List.replicate_succ, strValue_cons, List.length_replicate, pow_succ]
    have : (map.getD (c % 256) 0 + 1) * base ^ n = base * base ^ n := by rw [hc]
    rw [Nat.add_mul, Nat.one_mul] at this
    rw [Nat.mul_comm (base ^ n) base]
    omega

theorem digits_length_gt (b k v : Nat) (hb : 1 < b) (h : b ^ k < v + 1) :
    k < (Nat.digits b v).length := by
  have h1 : v < b ^ (Nat.digits b v).length := Nat.lt_base_pow_length_digits hb
  have h2 : b ^ k < b ^ (Nat.digits b v).length := by omega
  exact (Nat.pow_lt_pow_iff_right hb).1 h2

theorem pow_119_lt : 119 ^ 30126123 < 256 ^ 25964266 := by
  have big : (119 ^ 8) ^ 3765765 * 119 ^ 3 < (2 ^ 32) ^ 6491066 * 2 ^ 16 := by decide!
  have h1 : (30126123 : ℕ) = 8 * 3765765 + 3 := by norm_num
  have h2 : (25964266 : ℕ) = 4 * 6491066 + 2 := by norm_num
  have h3 : (256 : ℕ) = 2 ^ 8 := by norm_num
  have h4 : (2 : ℕ) ^ 32 = (2 ^ 8) ^ 4 := by norm_num
  have h5 : (2 : ℕ) ^ 16 = (2 ^ 8) ^ 2 := by norm_num
  rw [h1, h2, pow_add, pow_mul, pow_add (256 : ℕ), pow_mul (256 : ℕ), h3, ← h4, ← h5]
  exact big

theorem pow_256_lt : 256 ^ 113364197 < 222 ^ 116354271 := by
  have big : (2 ^ 64) ^ 14170524 * 2 ^ 40 < (222 ^ 16) ^ 7272141 * 222 ^ 15 := by decide!
  have h1 : (113364197 : ℕ) = 8 * 14170524 + 5 := by norm_num
  have h2 : (116354271 : ℕ) = 16 * 7272141 + 15 := by norm_num
  have h3 : (256 : ℕ) = 2 ^ 8 := by norm_num
  have h4 : (2 : ℕ) ^ 64 = (2 ^ 8) ^ 8 := by norm_num
  have h5 : (2 : ℕ) ^ 40 = (2 ^ 8) ^ 5 := by norm_num
  rw [h1, h2, pow_add, pow_mul, pow_add (222 : ℕ), pow_mul (222 : ℕ), h3, ← h4, ← h5]
  exact big

theorem estimate_encode_119 (L : Libm) (h256 : L.log 256 = ⟨0x162e42fefa39ef, -50⟩)
    (h119 : L.log 119 = ⟨0x131dd28c89d653, -50⟩) :
    sizeEncoded L (List.replicate 25964266 255) 119 = .ok 30126123 := by
  have h := sizeEncoded_run L 119 0 (List.replicate 25964266 255) (by decide) (by
    rw [List.head?_replicate]
    decide)
  simp only [List.replicate_zero, List.nil_append, List.length_replicate] at h
  have hlt : Dbl.lt (Dbl.div (Dbl.ofNat (2 ^ 64 - 1)) ⟨0x162e42fefa39ef, -50⟩)
      (Dbl.ofNat 25964266) = false := by decide!
  have hval : Dbl.toSize (Dbl.add (Dbl.add (Dbl.div (Dbl.mul (Dbl.ofNat 25964266)
      ⟨0x162e42fefa39ef, -50⟩) ⟨0x131dd28c89d653, -50⟩) (Dbl.ofNat 1)) (Dbl.ofNat 0)) =
      30126123 := by decide!
  rw [h, h256, h119, hlt, hval]
  rfl

theorem estimate_decode_222 (L : Libm) (h256 : L.log 256 = ⟨0x162e42fefa39ef, -50⟩)
    (h222 : L.log 222 = ⟨0x159c5775a7ebdf, -50⟩) :
    sizeDecoded L (List.replicate 116354271 254) 222 (fun i => i + 33) = .ok 113364197 := by
  have h := sizeDecoded_run L 222 (fun i => i + 33) (List.replicate 116354271 254) (by decide)
    (by
      intro x hx
      rw [List.head?_replicate] at hx
      have hx1 : x = 254 := by
        have : some 254 = some x := by simpa using hx
        exact (Option.some.inj this).symm
      rw [hx1]
      decide)
  simp only [List.length_replicate] at h
  have hval : Dbl.toSize (Dbl.add (Dbl.add (Dbl.div (Dbl.mul (Dbl.ofNat 116354271)
      ⟨0x159c5775a7ebdf, -50⟩) ⟨0x162e42fefa39ef, -50⟩) (Dbl.ofNat 1)) (Dbl.ofNat 0)) =
      113364197 := by decide!
  rw [h, h256, h222, hval]

theorem estimate_decode_signed (L : Libm) (h256 : L.log 256 = ⟨0x162e42fefa39ef, -50⟩)
    (h2 : L.log 2 = ⟨0x162e42fefa39ef, -53⟩) :
    sizeDecoded L (List.replicate 8 128) 2 (fun i => i + 128) = .ok 2 := by
  have h := sizeDecoded_run L 2 (fun i => i + 128) (List.replicate 8 128) (by decide)
    (by
      intro x hx
      have hx1 : x = 128 := by
        have : some 128 = some x := by simpa using hx
        exact (Option.some.inj this).symm
      rw [hx1]
      decide)
  simp only [List.length_replicate] at h
  have hval : Dbl.toSize (Dbl.add (Dbl.add (Dbl.div (Dbl.mul (Dbl.ofNat 8)
      ⟨0x162e42fefa39ef, -53⟩) ⟨0x162e42fefa39ef, -50⟩) (Dbl.ofNat 1)) (Dbl.ofNat 0)) =
      2 := by decide!
  rw [h, h256, h2, hval]

set_option maxRecDepth 100000 in
theorem table_222 : digitsMap (fun i => i + 33) 222 = .ok (tableOf (fun i => i + 33) 222) := by
  rfl

/-- C13 fails: the estimated sizes are not upper bounds. `std::log` is taken to return the
doubles nearest to the logarithms (`0x1.62e42fefa39efp+2` for 256, `0x1.31dd28c89d653p+2` for
119, `0x1.59c5775a7ebdfp+2` for 222, `0x1.62e42fefa39efp-1` for 2), as glibc does.
For 25964266 bytes `0xff` at base 119, `sizeEncoded` is 30126123, one less than the number of
base-119 digits of their value: the quotient is `30126123.0000000009...` and its double, after
two roundings, is below 30126123.  For 116354271 characters of the top digit at base 222,
`sizeDecoded` is 113364197, one less than the number of bytes of their value.  For a zero-digit
of 128 or more the lambda of line 55 strips nothing: at base 2 with the alphabet
`0x80, 0x81`, eight zero-digits give `sizeDecoded = 2`, while `decode` produces eight zero bytes
and the allocating `decode` returns two. -/
theorem estimate_too_small :
    ∀ L : Libm, L.log 256 = ⟨0x162e42fefa39ef, -50⟩ → L.log 119 = ⟨0x131dd28c89d653, -50⟩ →
      L.log 222 = ⟨0x159c5775a7ebdf, -50⟩ → L.log 2 = ⟨0x162e42fefa39ef, -53⟩ →
      (sizeEncoded L (List.replicate 25964266 255) 119 = .ok 30126123 ∧
        30126123 < 0 + (Nat.digits 119 (beValue 256 (List.replicate 25964266 255))).length) ∧
      (digitsMap (fun i => i + 33) 222 = .ok (tableOf (fun i => i + 33) 222) ∧
        sizeDecoded L (List.replicate 116354271 254) 222 (fun i => i + 33) = .ok 113364197 ∧
        113364197 < 0 + (Nat.digits 256 (strValue 222 (tableOf (fun i => i + 33) 222) 0
          (List.replicate 116354271 254))).length) ∧
      (digitsMap (fun i => i + 128) 2 = .ok (tableOf (fun i => i + 128) 2) ∧
        sizeDecoded L (List.replicate 8 128) 2 (fun i => i + 128) = .ok 2 ∧
        decode (List.replicate 8 128) (List.replicate 8 7) 2 (fun i => i + 128)
          (tableOf (fun i => i + 128) 2) = Outcome.ret (List.replicate 8 0) 0 ∧
        decodeAlloc L (List.replicate 8 128) 2 (fun i => i + 128)
          (tableOf (fun i => i + 128) 2) = Alloc.value [0, 0]) := by
  intro L h256 h119 h222 h2
  refine ⟨⟨estimate_encode_119 L h256 h119, ?_⟩, ⟨table_222, estimate_decode_222 L h256 h222, ?_⟩,
    ⟨by rfl, estimate_decode_signed L h256 h2, by decide, ?_⟩⟩
  · rw [Nat.zero_add]
    apply digits_length_gt 119 _ _ (by norm_num)
    rw [beValue_replicate_255]
    exact pow_119_lt
  · rw [Nat.zero_add]
    apply digits_length_gt 256 _ _ (by norm_num)
    rw [strValue_replicate_top 222 _ 254 (by decide!)]
    exact pow_256_lt
  · rw [decodeAlloc, estimate_decode_signed L h256 h2]
    decide

/-- C13 fails, at the encoding of 25964266 bytes `0xff` at base 119 with the doubles nearest
to the logarithms. -/
theorem estimate_too_small_witness :
    sizeEncoded glibcLog (List.replicate 25964266 255) 119 = .ok 30126123 ∧
      30126123 < 0 + (Nat.digits 119 (beValue 256 (List.replicate 25964266 255))).length :=
  (estimate_too_small glibcLog (by rfl) (by rfl) (by rfl) (by rfl)).1

/-! ## Rounding to a double: the error bound -/

theorem bitsAux_zero (fuel : Nat) : Dbl.bitsAux fuel 0 = 0 := by
  cases fuel <;> simp [Dbl.bitsAux]

theorem bitsAux_spec : ∀ (fuel n : Nat), n ≤ fuel → 0 < n →
    1 ≤ Dbl.bitsAux fuel n ∧ 2 ^ (Dbl.bitsAux fuel n - 1) ≤ n ∧
      n < 2 ^ Dbl.bitsAux fuel n := by
  intro fuel
  induction fuel with
  | zero =>
    intro n h1 h2
    omega
  | succ fuel ih =>
    intro n h1 h2
    rw [Dbl.bitsAux, if_neg (by omega)]
    rcases Nat.eq_zero_or_pos (n / 2) with h | h
    · rw [h, bitsAux_zero]
      have : n = 1 := by omega
      subst this
      simp
    · obtain ⟨a, b, c⟩ := ih (n / 2) (by omega) h
      refine ⟨by omega, ?_, ?_⟩
      · rw [Nat.add_sub_cancel]
        have : 2 ^ Dbl.bitsAux fuel (n / 2) = 2 * 2 ^ (Dbl.bitsAux fuel (n / 2) - 1) := by
          rw [← pow_succ']
          congr 1
          omega
        omega
      · rw [pow_succ]
        omega

theorem bits_spec (n : Nat) (h : 0 < n) :
    1 ≤ Dbl.bits n ∧ 2 ^ (Dbl.bits n - 1) ≤ n ∧ n < 2 ^ Dbl.bits n :=
  bitsAux_spec n n (le_refl n) h

/-- The scaling of `round` brings the quotient between `2^52` and `2^54`. -/
theorem round_scale (num den : Nat) (hn : 0 < num) (hd : 0 < den) :
    2 ^ 52 * (den * 2 ^ (Dbl.bits num - (Dbl.bits den + 53))) ≤
        num * 2 ^ (Dbl.bits den + 53 - Dbl.bits num) ∧
      num * 2 ^ (Dbl.bits den + 53 - Dbl.bits num) <
        2 ^ 54 * (den * 2 ^ (Dbl.bits num - (Dbl.bits den + 53))) := by
  obtain ⟨a1, a2, a3⟩ := bits_spec num hn
  obtain ⟨b1, b2, b3⟩ := bits_spec den hd
  generalize Dbl.bits num = a at *
  generalize Dbl.bits den = b at *
  generalize hup : b + 53 - a = up
  generalize hdown : a - (b + 53) = down
  have hT : a + up = b + 53 + down := by omega
  constructor
  · calc 2 ^ 52 * (den * 2 ^ down) ≤ 2 ^ 52 * (2 ^ b * 2 ^ down) :=
          Nat.mul_le_mul_left _ (Nat.mul_le_mul_right _ b3.le)
      _ = 2 ^ (a - 1) * 2 ^ up := by
          rw [← pow_add, ← pow_add, ← pow_add]
          congr 1
          omega
      _ ≤ num * 2 ^ up := Nat.mul_le_mul_right _ a2
  · calc num * 2 ^ up < 2 ^ a * 2 ^ up :=
          Nat.mul_lt_mul_of_pos_right a3 (by positivity)
      _ = 2 ^ 54 * (2 ^ (b - 1) * 2 ^ down) := by
          rw [← pow_add, ← pow_add, ← pow_add]
          congr 1
          omega
      _ ≤ 2 ^ 54 * (den * 2 ^ down) :=
          Nat.mul_le_mul_left _ (Nat.mul_le_mul_right _ b2)

theorem nearest_spec (N D : Nat) (e : Int) (hD : 0 < D) (hq : 2 ^ 52 ≤ N / D) :
    |Dbl.toRat (Dbl.nearest N D e) - (N : ℚ) / D * 2 ^ e| ≤ (N : ℚ) / D * 2 ^ e / 2 ^ 53 := by
  have hDq : (0 : ℚ) < D := by exact_mod_cast hD
  have hrlt : N % D < D := Nat.mod_lt _ hD
  have hdiv : (N : ℚ) / D = ((N / D : ℕ) : ℚ) + ((N % D : ℕ) : ℚ) / D := by
    have h := Nat.div_add_mod N D
    have h1 : (N : ℚ) = (D : ℚ) * ((N / D : ℕ) : ℚ) + ((N % D : ℕ) : ℚ) := by
      exact_mod_cast h.symm
    rw [div_eq_iff hDq.ne.symm, add_mul, div_mul_cancel₀ _ hDq.ne.symm]
    linarith
  have h2e : (0 : ℚ) < 2 ^ e := by positivity
  have hbig : (2 : ℚ) ^ 52 ≤ (N : ℚ) / D := by
    rw [hdiv]
    have h1 : ((2 ^ 52 : ℕ) : ℚ) ≤ ((N / D : ℕ) : ℚ) := by exact_mod_cast hq
    have h0 : (0 : ℚ) ≤ ((N % D : ℕ) : ℚ) / D := by positivity
    push_cast at h1
    linarith
  have key : ∀ m : ℕ, |(m : ℚ) - (N : ℚ) / D| ≤ 1 / 2 →
      |Dbl.toRat ⟨m, e⟩ - (N : ℚ) / D * 2 ^ e| ≤ (N : ℚ) / D * 2 ^ e / 2 ^ 53 := by
    intro m hm
    show |(m : ℚ) * 2 ^ e - (N : ℚ) / D * 2 ^ e| ≤ _
    rw [← sub_mul, abs_mul, abs_of_pos h2e]
    have h3 : (1 : ℚ) / 2 ≤ (N : ℚ) / D / 2 ^ 53 := by
      rw [le_div_iff₀ (by positivity)]
      norm_num at hbig ⊢
      linarith
    calc |(m : ℚ) - N / D| * 2 ^ e ≤ ((N : ℚ) / D / 2 ^ 53) * 2 ^ e :=
          mul_le_mul_of_nonneg_right (hm.trans h3) h2e.le
      _ = (N : ℚ) / D * 2 ^ e / 2 ^ 53 := by ring
  have hρ0 : (0 : ℚ) ≤ ((N % D : ℕ) : ℚ) / D := by positivity
  have hρ1 : ((N % D : ℕ) : ℚ) / D < 1 := by
    rw [div_lt_one hDq]
    exact_mod_cast hrlt
  unfold Dbl.nearest
  split_ifs with h1 h2
  · apply key
    have : ((N % D : ℕ) : ℚ) / D ≤ 1 / 2 := by
      rw [div_le_iff₀ hDq]
      have : ((2 * (N % D) : ℕ) : ℚ) < (D : ℚ) := by exact_mod_cast h1
      push_cast at this
      linarith
    rw [hdiv, abs_le]
    constructor <;> linarith
  · apply key
    have : 1 / 2 ≤ ((N % D : ℕ) : ℚ) / D := by
      rw [le_div_iff₀ hDq]
      have : ((D : ℕ) : ℚ) < ((2 * (N % D) : ℕ) : ℚ) := by exact_mod_cast h2
      push_cast at this
      linarith
    rw [hdiv, abs_le]
    push_cast
    constructor <;> linarith
  · apply key
    have heq : 2 * (N % D) = D := by omega
    have : ((N % D : ℕ) : ℚ) / D = 1 / 2 := by
      rw [div_eq_iff hDq.ne.symm]
      have : ((2 * (N % D) : ℕ) : ℚ) = (D : ℚ) := by exact_mod_cast heq
      push_cast at this
      linarith
    rw [hdiv, this, abs_le]
    push_cast
    rcases Nat.mod_two_eq_zero_or_one (N / D) with h | h <;> rw [h] <;> push_cast <;>
      constructor <;> linarith

/-- The result of `round` is within the relative error `2^-53` of the exact value. -/
theorem round_spec (num den : Nat) (ex : Int) (hd : 0 < den) :
    |Dbl.toRat (Dbl.round num den ex) - (num : ℚ) / den * 2 ^ ex| ≤
      (num : ℚ) / den * 2 ^ ex / 2 ^ 53 := by
  rcases Nat.eq_zero_or_pos num with h0 | hn
  · subst h0
    simp [Dbl.round, Dbl.toRat]
  · obtain ⟨hlo, _⟩ := round_scale num den hn hd
    unfold Dbl.round
    rw [if_neg (by omega)]
    dsimp only
    generalize Dbl.bits den + 53 - Dbl.bits num = up at *
    generalize Dbl.bits num - (Dbl.bits den + 53) = down at *
    have hDpos : 0 < den * 2 ^ down := by positivity
    have hval : ((num * 2 ^ up : ℕ) : ℚ) / ((den * 2 ^ down : ℕ) : ℚ) *
        2 ^ (ex + (down : ℤ) - (up : ℤ)) = (num : ℚ) / den * 2 ^ ex := by
      have hdq : (den : ℚ) ≠ 0 := by exact_mod_cast hd.ne.symm
      push_cast
      rw [zpow_sub₀ (by norm_num), zpow_add₀ (by norm_num), zpow_natCast, zpow_natCast]
      field_simp
      ring
    split_ifs with h
    · have h1 := nearest_spec (num * 2 ^ up) (den * 2 ^ down) (ex + down - up) hDpos
        ((Nat.le_div_iff_mul_le hDpos).2 hlo)
      rw [hval] at h1
      exact h1
    · have h53 : 2 ^ 53 * (den * 2 ^ down) ≤ num * 2 ^ up :=
        (Nat.le_div_iff_mul_le hDpos).1 (by omega)
      have h1 := nearest_spec (num * 2 ^ up) (2 * (den * 2 ^ down)) (ex + down - up + 1)
        (by positivity) ((Nat.le_div_iff_mul_le (by positivity)).2 (by
          have : 2 ^ 52 * (2 * (den * 2 ^ down)) = 2 ^ 53 * (den * 2 ^ down) := by ring
          omega))
      have hval2 : ((num * 2 ^ up : ℕ) : ℚ) / ((2 * (den * 2 ^ down) : ℕ) : ℚ) *
          2 ^ (ex + (down : ℤ) - (up : ℤ) + 1) = (num : ℚ) / den * 2 ^ ex := by
        rw [← hval, zpow_add₀ (by norm_num : (2 : ℚ) ≠ 0)]
        have hdq : ((den * 2 ^ down : ℕ) : ℚ) ≠ 0 := by exact_mod_cast hDpos.ne.symm
        push_cast at hdq ⊢
        field_simp
        ring
      rw [hval2] at h1
      exact h1

theorem toRat_nonneg (x : Dbl) : 0 ≤ Dbl.toRat x := by
  unfold Dbl.toRat
  positivity

/-- A double written in units of a power of two not above its own. -/
theorem toRat_align (x : Dbl) (mn : ℤ) (h : mn ≤ x.e) :
    Dbl.toRat x = ((x.m * 2 ^ (x.e - mn).toNat : ℕ) : ℚ) * 2 ^ mn := by
  unfold Dbl.toRat
  push_cast
  rw [mul_assoc, ← zpow_natCast, ← zpow_add₀ (by norm_num), Int.toNat_of_nonneg (by omega)]
  congr 2
  omega

theorem ofNat_spec (n : Nat) :
    |Dbl.toRat (Dbl.ofNat n) - (n : ℚ)| ≤ (n : ℚ) / 2 ^ 53 := by
  have h := round_spec n 1 0 (by decide)
  simpa [Dbl.ofNat] using h

theorem mul_spec (x y : Dbl) :
    |Dbl.toRat (Dbl.mul x y) - Dbl.toRat x * Dbl.toRat y| ≤
      Dbl.toRat x * Dbl.toRat y / 2 ^ 53 := by
  have h := round_spec (x.m * y.m) 1 (x.e + y.e) (by decide)
  have hv : ((x.m * y.m : ℕ) : ℚ) / ((1 : ℕ) : ℚ) * 2 ^ (x.e + y.e) =
      Dbl.toRat x * Dbl.toRat y := by
    unfold Dbl.toRat
    push_cast
    rw [zpow_add₀ (by norm_num)]
    ring
  rw [hv] at h
  exact h

theorem div_spec (x y : Dbl) (hy : 0 < y.m) :
    |Dbl.toRat (Dbl.div x y) - Dbl.toRat x / Dbl.toRat y| ≤
      Dbl.toRat x / Dbl.toRat y / 2 ^ 53 := by
  have h := round_spec x.m y.m (x.e - y.e) hy
  have hv : (x.m : ℚ) / (y.m : ℚ) * 2 ^ (x.e - y.e) = Dbl.toRat x / Dbl.toRat y := by
    unfold Dbl.toRat
    have hyq : (y.m : ℚ) ≠ 0 := by exact_mod_cast hy.ne.symm
    rw [zpow_sub₀ (by norm_num)]
    field_simp
  rw [hv] at h
  exact h

theorem add_spec (x y : Dbl) :
    |Dbl.toRat (Dbl.add x y) - (Dbl.toRat x + Dbl.toRat y)| ≤
      (Dbl.toRat x + Dbl.toRat y) / 2 ^ 53 := by
  have h := round_spec
    (x.m * 2 ^ (x.e - min x.e y.e).toNat + y.m * 2 ^ (y.e - min x.e y.e).toNat) 1
    (min x.e y.e) (by decide)
  have hv : ((x.m * 2 ^ (x.e - min x.e y.e).toNat + y.m * 2 ^ (y.e - min x.e y.e).toNat : ℕ) : ℚ)
      / ((1 : ℕ) : ℚ) * 2 ^ (min x.e y.e) = Dbl.toRat x + Dbl.toRat y := by
    rw [toRat_align x (min x.e y.e) (min_le_left _ _),
      toRat_align y (min x.e y.e) (min_le_right _ _)]
    push_cast
    ring
  rw [hv] at h
  exact h

theorem lt_spec (x y : Dbl) : Dbl.lt x y = true ↔ Dbl.toRat x < Dbl.toRat y := by
  rw [toRat_align x (min x.e y.e) (min_le_left _ _),
    toRat_align y (min x.e y.e) (min_le_right _ _)]
  have h2 : (0 : ℚ) < 2 ^ (min x.e y.e) := by positivity
  rw [mul_lt_mul_right h2, Nat.cast_lt]
  simp [Dbl.lt]

theorem toSize_spec (x : Dbl) : Dbl.toSize x = ⌊Dbl.toRat x⌋₊ := by
  unfold Dbl.toSize Dbl.toRat
  split_ifs with h
  · have : (x.m : ℚ) * 2 ^ x.e = ((x.m * 2 ^ x.e.toNat : ℕ) : ℚ) := by
      push_cast
      rw [← zpow_natCast, Int.toNat_of_nonneg h]
    rw [this, Nat.floor_natCast]
  · have : (x.m : ℚ) * 2 ^ x.e = (x.m : ℚ) / ((2 ^ (-x.e).toNat : ℕ) : ℚ) := by
      push_cast
      rw [← zpow_natCast, Int.toNat_of_nonneg (by omega), zpow_neg, div_eq_mul_inv, inv_inv]
    rw [this, Nat.floor_div_eq_div]

theorem nearest_m (N D : Nat) (e : Int) :
    N / D ≤ (Dbl.nearest N D e).m ∧ (Dbl.nearest N D e).m ≤ N / D + 1 := by
  unfold Dbl.nearest
  split_ifs
  · exact ⟨le_refl _, Nat.le_succ _⟩
  · exact ⟨Nat.le_succ _, le_refl _⟩
  · have := Nat.mod_lt (N / D) (by decide : 0 < 2)
    exact ⟨Nat.le_add_right _ _, by show N / D + N / D % 2 ≤ N / D + 1; omega⟩

/-- The significand of a rounded non-zero value has 53 bits (or is `2^53` after a carry). -/
theorem round_mantissa (num den : Nat) (ex : Int) (hn : 0 < num) (hd : 0 < den) :
    2 ^ 52 ≤ (Dbl.round num den ex).m ∧ (Dbl.round num den ex).m ≤ 2 ^ 53 := by
  obtain ⟨hlo, hhi⟩ := round_scale num den hn hd
  unfold Dbl.round
  rw [if_neg (by omega)]
  dsimp only
  generalize Dbl.bits den + 53 - Dbl.bits num = up at *
  generalize Dbl.bits num - (Dbl.bits den + 53) = down at *
  have hDpos : 0 < den * 2 ^ down := by positivity
  split_ifs with h
  · obtain ⟨a, b⟩ := nearest_m (num * 2 ^ up) (den * 2 ^ down) (ex + down - up)
    have := (Nat.le_div_iff_mul_le hDpos).2 hlo
    exact ⟨by omega, by omega⟩
  · obtain ⟨a, b⟩ := nearest_m (num * 2 ^ up) (2 * (den * 2 ^ down)) (ex + down - up + 1)
    have h53 : 2 ^ 53 * (den * 2 ^ down) ≤ num * 2 ^ up :=
      (Nat.le_div_iff_mul_le hDpos).1 (by omega)
    have h1 : 2 ^ 52 ≤ num * 2 ^ up / (2 * (den * 2 ^ down)) :=
      (Nat.le_div_iff_mul_le (by positivity)).2 (by
        have : 2 ^ 52 * (2 * (den * 2 ^ down)) = 2 ^ 53 * (den * 2 ^ down) := by ring
        omega)
    have h2 : num * 2 ^ up / (2 * (den * 2 ^ down)) < 2 ^ 53 :=
      (Nat.div_lt_iff_lt_mul (by positivity)).2 (by
        have : 2 ^ 53 * (2 * (den * 2 ^ down)) = 2 ^ 54 * (den * 2 ^ down) := by ring
        omega)
    exact ⟨by omega, by omega⟩

/-! ## Propagation of relative errors -/

theorem rel_round (x l h y y1 : ℝ) (hx : 0 ≤ x) (hl : 0 ≤ l) (h1 : x * l ≤ y) (h2 : y ≤ x * h)
    (hr : |y1 - y| ≤ y / 2 ^ 53) :
    x * (l * (1 - 1 / 2 ^ 53)) ≤ y1 ∧ y1 ≤ x * (h * (1 + 1 / 2 ^ 53)) := by
  obtain ⟨ha, hb⟩ := abs_le.1 hr
  have hy : 0 ≤ y := le_trans (mul_nonneg hx hl) h1
  constructor
  · have : x * l * (1 - 1 / 2 ^ 53) ≤ y * (1 - 1 / 2 ^ 53) :=
      mul_le_mul_of_nonneg_right h1 (by norm_num)
    have e : y * (1 - 1 / 2 ^ 53) = y - y / 2 ^ 53 := by ring
    rw [← mul_assoc]
    linarith
  · have : y * (1 + 1 / 2 ^ 53) ≤ x * h * (1 + 1 / 2 ^ 53) :=
      mul_le_mul_of_nonneg_right h2 (by norm_num)
    have e : y * (1 + 1 / 2 ^ 53) = y + y / 2 ^ 53 := by ring
    rw [← mul_assoc]
    linarith

theorem rel_mul (x l1 h1 y l2 h2 p q : ℝ) (hx : 0 ≤ x) (hy : 0 ≤ y) (hl1 : 0 ≤ l1)
    (hl2 : 0 ≤ l2) (a1 : x * l1 ≤ p) (a2 : p ≤ x * h1) (b1 : y * l2 ≤ q) (b2 : q ≤ y * h2) :
    x * y * (l1 * l2) ≤ p * q ∧ p * q ≤ x * y * (h1 * h2) := by
  have hp : 0 ≤ p := le_trans (mul_nonneg hx hl1) a1
  have hq : 0 ≤ q := le_trans (mul_nonneg hy hl2) b1
  constructor
  · have := mul_le_mul a1 b1 (mul_nonneg hy hl2) hp
    calc x * y * (l1 * l2) = x * l1 * (y * l2) := by ring
      _ ≤ p * q := this
  · have := mul_le_mul a2 b2 hq (le_trans hp a2)
    calc p * q ≤ x * h1 * (y * h2) := this
      _ = x * y * (h1 * h2) := by ring

theorem rel_div (x l1 h1 c l2 h2 p q : ℝ) (hx : 0 ≤ x) (hc : 0 < c) (hl1 : 0 ≤ l1)
    (hl2 : 0 < l2) (a1 : x * l1 ≤ p) (a2 : p ≤ x * h1) (b1 : c * l2 ≤ q) (b2 : q ≤ c * h2) :
    x / c * (l1 / h2) ≤ p / q ∧ p / q ≤ x / c * (h1 / l2) := by
  have hp : 0 ≤ p := le_trans (mul_nonneg hx hl1) a1
  have hq : 0 < q := lt_of_lt_of_le (mul_pos hc hl2) b1
  have hh2 : 0 < h2 := by
    by_contra hneg
    have : c * h2 ≤ 0 := mul_nonpos_of_nonneg_of_nonpos hc.le (not_lt.1 hneg)
    linarith
  constructor
  · have := div_le_div₀ hp a1 hq b2
    calc x / c * (l1 / h2) = x * l1 / (c * h2) := by
          field_simp
      _ ≤ p / q := this
  · have := div_le_div₀ (le_trans hp a2) a2 (mul_pos hc hl2) b1
    calc p / q ≤ x * h1 / (c * l2) := this
      _ = x / c * (h1 / l2) := by
          field_simp

/-- The double computation `n * A / C + 1 + z` of the size estimates, each operation rounded
with relative error `2^-53` and the two logarithms accurate to `2^-50`, is within the relative
error `2^-47` of the exact value. -/
theorem estimate_chain (n z a c A C n1 t1 t2 t3 z1 t4 : ℝ) (hn : 0 ≤ n) (hz : 0 ≤ z)
    (ha : 0 < a) (hc : 0 < c) (hA : |A - a| ≤ a / 2 ^ 50) (hC : |C - c| ≤ c / 2 ^ 50)
    (h0 : |n1 - n| ≤ n / 2 ^ 53) (h1 : |t1 - n1 * A| ≤ n1 * A / 2 ^ 53)
    (h2 : |t2 - t1 / C| ≤ t1 / C / 2 ^ 53) (h3 : |t3 - (t2 + 1)| ≤ (t2 + 1) / 2 ^ 53)
    (hz1 : |z1 - z| ≤ z / 2 ^ 53) (h4 : |t4 - (t3 + z1)| ≤ (t3 + z1) / 2 ^ 53) :
    (n * a / c + 1 + z) * (1 - 1 / 2 ^ 47) ≤ t4 ∧
      t4 ≤ (n * a / c + 1 + z) * (1 + 1 / 2 ^ 47) := by
  have hq : 0 ≤ n * a / c := div_nonneg (mul_nonneg hn ha.le) hc.le
  -- the two logarithms
  obtain ⟨A1, A2⟩ := abs_le.1 hA
  obtain ⟨C1, C2⟩ := abs_le.1 hC
  have hAl : a * (1 - 1 / 2 ^ 50) ≤ A := by linarith
  have hAh : A ≤ a * (1 + 1 / 2 ^ 50) := by linarith
  have hCl : c * (1 - 1 / 2 ^ 50) ≤ C := by linarith
  have hCh : C ≤ c * (1 + 1 / 2 ^ 50) := by linarith
  -- n converted
  obtain ⟨N1, N2⟩ := rel_round n 1 1 n n1 hn (by norm_num) (by linarith) (by linarith) h0
  -- the product
  obtain ⟨P1, P2⟩ := rel_mul n _ _ a _ _ n1 A hn ha.le (by norm_num) (by norm_num) N1 N2
    hAl hAh
  obtain ⟨T1, T2⟩ := rel_round (n * a) _ _ (n1 * A) t1 (mul_nonneg hn ha.le) (by norm_num)
    P1 P2 h1
  -- the quotient
  obtain ⟨Q1, Q2⟩ := rel_div (n * a) _ _ c _ _ t1 C (mul_nonneg hn ha.le) hc (by norm_num)
    (by norm_num) T1 T2 hCl hCh
  obtain ⟨R1, R2⟩ := rel_round (n * a / c) _ _ (t1 / C) t2 hq (by norm_num) Q1 Q2 h2
  have R1w : n * a / c * (1 - 1 / 2 ^ 48) ≤ t2 :=
    le_trans (mul_le_mul_of_nonneg_left (by norm_num) hq) R1
  have R2w : t2 ≤ n * a / c * (1 + 1 / 2 ^ 48) :=
    le_trans R2 (mul_le_mul_of_nonneg_left (by norm_num) hq)
  -- plus one
  have U1 : (n * a / c + 1) * (1 - 1 / 2 ^ 48) ≤ t2 + 1 := by
    have : (1 : ℝ) * (1 - 1 / 2 ^ 48) ≤ 1 := by norm_num
    linarith
  have U2 : t2 + 1 ≤ (n * a / c + 1) * (1 + 1 / 2 ^ 48) := by
    have : (1 : ℝ) ≤ 1 * (1 + 1 / 2 ^ 48) := by norm_num
    linarith
  obtain ⟨V1, V2⟩ := rel_round (n * a / c + 1) _ _ (t2 + 1) t3 (by linarith) (by norm_num)
    U1 U2 h3
  -- z converted
  obtain ⟨Z1, Z2⟩ := rel_round z 1 1 z z1 hz (by norm_num) (by linarith) (by linarith) hz1
  have Z1w : z * ((1 - 1 / 2 ^ 48) * (1 - 1 / 2 ^ 53)) ≤ z1 :=
    le_trans (mul_le_mul_of_nonneg_left (by norm_num) hz) Z1
  have Z2w : z1 ≤ z * ((1 + 1 / 2 ^ 48) * (1 + 1 / 2 ^ 53)) :=
    le_trans Z2 (mul_le_mul_of_nonneg_left (by norm_num) hz)
  -- the sum
  have W1 : (n * a / c + 1 + z) * ((1 - 1 / 2 ^ 48) * (1 - 1 / 2 ^ 53)) ≤ t3 + z1 := by
    linarith
  have W2 : t3 + z1 ≤ (n * a / c + 1 + z) * ((1 + 1 / 2 ^ 48) * (1 + 1 / 2 ^ 53)) := by
    linarith
  obtain ⟨X1, X2⟩ := rel_round (n * a / c + 1 + z) _ _ (t3 + z1) t4 (by linarith)
    (by norm_num) W1 W2 h4
  have hS : 0 ≤ n * a / c + 1 + z := by linarith
  exact ⟨le_trans (mul_le_mul_of_nonneg_left (by norm_num) hS) X1,
    le_trans X2 (mul_le_mul_of_nonneg_left (by norm_num) hS)⟩

/-! ## The logarithms of 2 and 3 to 60 bits -/

theorem log_two_near : |Real.log 2 - 799144290325165979 / 2 ^ 60| ≤ 1 / 2 ^ 60 := by
  have t : |(2⁻¹ : ℝ)| = 2⁻¹ := by
    rw [abs_of_pos]
    norm_num
  have z := Real.abs_log_sub_add_sum_range_le (show |(2⁻¹ : ℝ)| < 1 by rw [t]; norm_num) 62
  rw [t] at z
  have e1 : (1 : ℝ) - 2⁻¹ = 2⁻¹ := by norm_num
  rw [e1, Real.log_inv, ← sub_eq_add_neg, abs_sub_comm] at z
  have e2 : (2⁻¹ : ℝ) ^ (62 + 1) / 2⁻¹ = 1 / 2 ^ 62 := by norm_num
  rw [e2] at z
  have h := abs_sub_le (Real.log 2)
    (∑ i ∈ Finset.range 62, (2⁻¹ : ℝ) ^ (i + 1) / ((i : ℝ) + 1)) (799144290325165979 / 2 ^ 60)
  have h2 : |(∑ i ∈ Finset.range 62, (2⁻¹ : ℝ) ^ (i + 1) / ((i : ℝ) + 1)) -
      799144290325165979 / 2 ^ 60| ≤ 1 / 2 ^ 60 - 1 / 2 ^ 62 := by
    simp_rw [Finset.sum_range_succ]
    norm_num
    rw [abs_le]
    constructor <;> norm_num
  linarith

theorem log_three_near : |Real.log 3 - 1266613732830808727 / 2 ^ 60| ≤ 2 / 2 ^ 60 := by
  have t : |(3⁻¹ : ℝ)| = 3⁻¹ := by
    rw [abs_of_pos]
    norm_num
  have z := Real.abs_log_sub_add_sum_range_le (show |(3⁻¹ : ℝ)| < 1 by rw [t]; norm_num) 40
  rw [t] at z
  have e1 : (1 : ℝ) - 3⁻¹ = 2 / 3 := by norm_num
  rw [e1, Real.log_div (by norm_num) (by norm_num)] at z
  have e2 : (3⁻¹ : ℝ) ^ (40 + 1) / (2 / 3) ≤ 1 / 2 ^ 62 := by norm_num
  have z1 := z.trans e2
  have h2 : |(∑ i ∈ Finset.range 40, (3⁻¹ : ℝ) ^ (i + 1) / ((i : ℝ) + 1)) +
      799144290325165979 / 2 ^ 60 - 1266613732830808727 / 2 ^ 60| ≤ 1 / 2 ^ 60 - 1 / 2 ^ 62 := by
    simp_rw [Finset.sum_range_succ]
    norm_num
    rw [abs_le]
    constructor <;> norm_num
  obtain ⟨a1, a2⟩ := abs_le.1 log_two_near
  obtain ⟨b1, b2⟩ := abs_le.1 z1
  obtain ⟨c1, c2⟩ := abs_le.1 h2
  rw [abs_le]
  constructor <;> linarith

/-! ## What `sizeEncoded` returns -/

theorem abs_cast_real (p q r : ℚ) (h : |p - q| ≤ r / 2 ^ 53) :
    |(p : ℝ) - (q : ℝ)| ≤ (r : ℝ) / 2 ^ 53 := by
  have h1 : ((|p - q| : ℚ) : ℝ) ≤ ((r / 2 ^ 53 : ℚ) : ℝ) := Rat.cast_le.2 h
  push_cast at h1
  exact h1

theorem ofNat_real (n : Nat) :
    |((Dbl.toRat (Dbl.ofNat n) : ℚ) : ℝ) - (n : ℝ)| ≤ (n : ℝ) / 2 ^ 53 := by
  have h := abs_cast_real _ _ _ (ofNat_spec n)
  push_cast at h
  exact h

theorem mul_real (x y : Dbl) :
    |((Dbl.toRat (Dbl.mul x y) : ℚ) : ℝ) - ((Dbl.toRat x : ℚ) : ℝ) * ((Dbl.toRat y : ℚ) : ℝ)| ≤
      ((Dbl.toRat x : ℚ) : ℝ) * ((Dbl.toRat y : ℚ) : ℝ) / 2 ^ 53 := by
  have h := abs_cast_real _ _ _ (mul_spec x y)
  push_cast at h
  exact h

theorem div_real (x y : Dbl) (hy : 0 < y.m) :
    |((Dbl.toRat (Dbl.div x y) : ℚ) : ℝ) - ((Dbl.toRat x : ℚ) : ℝ) / ((Dbl.toRat y : ℚ) : ℝ)| ≤
      ((Dbl.toRat x : ℚ) : ℝ) / ((Dbl.toRat y : ℚ) : ℝ) / 2 ^ 53 := by
  have h := abs_cast_real _ _ _ (div_spec x y hy)
  push_cast at h
  exact h

theorem add_real (x y : Dbl) :
    |((Dbl.toRat (Dbl.add x y) : ℚ) : ℝ) -
        (((Dbl.toRat x : ℚ) : ℝ) + ((Dbl.toRat y : ℚ) : ℝ))| ≤
      (((Dbl.toRat x : ℚ) : ℝ) + ((Dbl.toRat y : ℚ) : ℝ)) / 2 ^ 53 := by
  have h := abs_cast_real _ _ _ (add_spec x y)
  push_cast at h
  exact h

theorem ofNat_one : Dbl.toRat (Dbl.ofNat 1) = 1 := by
  have h : Dbl.ofNat 1 = ⟨2 ^ 52, -52⟩ := by decide
  rw [h]
  norm_num [Dbl.toRat]

theorem ofNat_max : Dbl.toRat (Dbl.ofNat (2 ^ 64 - 1)) = 2 ^ 64 := by
  have h : Dbl.ofNat (2 ^ 64 - 1) = ⟨2 ^ 53, 11⟩ := by decide!
  rw [h]
  norm_num [Dbl.toRat]

theorem log_256_eq : Real.log 256 = 8 * Real.log 2 := by
  rw [show (256 : ℝ) = 2 ^ 8 by norm_num, Real.log_pow]
  norm_num

/-- The comparison of the overflow test, over the reals. -/
theorem overflow_real (a A D N n : ℝ) (ha1 : 0 < a) (ha2 : a ≤ 6) (hA : |A - a| ≤ a / 2 ^ 50)
    (hD : |D - 2 ^ 64 / A| ≤ 2 ^ 64 / A / 2 ^ 53) (hN : |N - n| ≤ n / 2 ^ 53)
    (hn0 : 0 ≤ n) (hn : n ≤ 2 ^ 32) : N ≤ D := by
  obtain ⟨A1, A2⟩ := abs_le.1 hA
  obtain ⟨D1, _⟩ := abs_le.1 hD
  obtain ⟨_, N2⟩ := abs_le.1 hN
  have h1 : a / 2 ^ 50 ≤ a / 2 :=
    div_le_div_of_nonneg_left ha1.le (by norm_num) (by norm_num)
  have hApos : 0 < A := by linarith
  have hA12 : A ≤ 12 := by linarith
  have hquot : (2 : ℝ) ^ 60 ≤ 2 ^ 64 / A := by
    rw [le_div_iff₀ hApos]
    have : (2 : ℝ) ^ 60 * A ≤ 2 ^ 60 * 12 := mul_le_mul_of_nonneg_left hA12 (by norm_num)
    have e : (2 : ℝ) ^ 60 * 12 ≤ 2 ^ 64 := by norm_num
    linarith
  generalize (2 : ℝ) ^ 64 / A = Q at *
  have h2 : Q / 2 ^ 53 ≤ Q / 2 :=
    div_le_div_of_nonneg_left (le_trans (by norm_num) hquot) (by norm_num) (by norm_num)
  have h3 : n / 2 ^ 53 ≤ n := div_le_self hn0 (by norm_num)
  have e1 : (2 : ℝ) ^ 60 = 2 * 2 ^ 59 := by norm_num
  have e2 : (2 : ℝ) * 2 ^ 32 ≤ 2 ^ 59 := by norm_num
  linarith

/-- The overflow test of `sizeEncoded` is false for a size below `2^32`, when `log256` is
accurate to `2^-50`. -/
theorem overflow_false (L : Libm) (n : Nat) (hn : n < 2 ^ 32)
    (h256 : |((Dbl.toRat (L.log 256) : ℚ) : ℝ) - Real.log 256| ≤ Real.log 256 / 2 ^ 50) :
    Dbl.lt (Dbl.div (Dbl.ofNat (2 ^ 64 - 1)) (L.log 256)) (Dbl.ofNat n) = false := by
  have hl2a := Real.log_two_gt_d9
  have hl2b := Real.log_two_lt_d9
  have ha := log_256_eq
  have hd := div_real (Dbl.ofNat (2 ^ 64 - 1)) (L.log 256) (L.pos 256 (by norm_num))
  have e64 : (((2 : ℚ) ^ 64 : ℚ) : ℝ) = (2 : ℝ) ^ 64 := by norm_num
  rw [ofNat_max, e64] at hd
  have hn1 : (n : ℝ) ≤ 2 ^ 32 := by exact_mod_cast hn.le
  have key := overflow_real (Real.log 256) _ _ _ (n : ℝ) (by linarith) (by linarith) h256 hd
    (ofNat_real n) (Nat.cast_nonneg n) hn1
  cases hlt : Dbl.lt (Dbl.div (Dbl.ofNat (2 ^ 64 - 1)) (L.log 256)) (Dbl.ofNat n) with
  | false => rfl
  | true =>
    exfalso
    have h1 := (lt_spec _ _).1 hlt
    have h2 : ((Dbl.toRat (Dbl.div (Dbl.ofNat (2 ^ 64 - 1)) (L.log 256)) : ℚ) : ℝ) <
        ((Dbl.toRat (Dbl.ofNat n) : ℚ) : ℝ) := Rat.cast_lt.2 h1
    linarith

/-- From the relative error of the computed sum to its integer part. -/
theorem floor_real (q z r T : ℝ) (hS : q + 1 + z ≤ 2 ^ 36)
    (X1 : (q + 1 + z) * (1 - 1 / 2 ^ 47) ≤ T) (X2 : T ≤ (q + 1 + z) * (1 + 1 / 2 ^ 47))
    (hlo : r + 1 / 2 ^ 10 ≤ q) (hhi : q ≤ r + 1 - 1 / 2 ^ 10) :
    r + 1 + z ≤ T ∧ T < r + 1 + z + 1 := by
  have herr : (q + 1 + z) * (1 / 2 ^ 47) ≤ 2 ^ 36 * (1 / 2 ^ 47) :=
    mul_le_mul_of_nonneg_right hS (by norm_num)
  have e : (2 : ℝ) ^ 36 * (1 / 2 ^ 47) = 1 / 2 ^ 11 := by norm_num
  have e2 : (1 : ℝ) / 2 ^ 11 < 1 / 2 ^ 10 := by norm_num
  rw [e] at herr
  have X1' : (q + 1 + z) - (q + 1 + z) * (1 / 2 ^ 47) ≤ T := by
    have : (q + 1 + z) * (1 - 1 / 2 ^ 47) = (q + 1 + z) - (q + 1 + z) * (1 / 2 ^ 47) := by
      ring
    linarith
  have X2' : T ≤ (q + 1 + z) + (q + 1 + z) * (1 / 2 ^ 47) := by
    have : (q + 1 + z) * (1 + 1 / 2 ^ 47) = (q + 1 + z) + (q + 1 + z) * (1 / 2 ^ 47) := by
      ring
    linarith
  constructor <;> linarith

/-- The value of `sizeEncoded`: for a base in [2,254], an input of fewer than `2^32` bytes
(`z` zero bytes, then `d`), a `std::log` accurate to `2^-50` at 256 and at the base, and a
quotient `d.length * ln 256 / ln base` between `r + 2^-10` and `r + 1 - 2^-10`, the result is
`r + 1 + z`. -/
theorem sizeEncoded_value (L : Libm) (base z r : Nat) (d : List Nat)
    (hb : 2 ≤ base ∧ base ≤ 254) (hd0 : d.head? ≠ some 0) (hlen : z + d.length < 2 ^ 32)
    (h256 : |((Dbl.toRat (L.log 256) : ℚ) : ℝ) - Real.log 256| ≤ Real.log 256 / 2 ^ 50)
    (hbase : |((Dbl.toRat (L.log base) : ℚ) : ℝ) - Real.log base| ≤ Real.log base / 2 ^ 50)
    (hlo : (r : ℝ) + 1 / 2 ^ 10 ≤ (d.length : ℝ) * Real.log 256 / Real.log base)
    (hhi : (d.length : ℝ) * Real.log 256 / Real.log base ≤ (r : ℝ) + 1 - 1 / 2 ^ 10) :
    sizeEncoded L (List.replicate z 0 ++ d) base = .ok (r + 1 + z) := by
  rw [sizeEncoded_run L base z d (by omega) hd0,
    overflow_false L d.length (by omega) h256]
  simp only [Bool.false_eq_true, if_false]
  congr 1
  generalize d.length = n at *
  have hl2a := Real.log_two_gt_d9
  have ha := log_256_eq
  have hapos : 0 < Real.log 256 := by linarith
  have hc2 : Real.log 2 ≤ Real.log base :=
    Real.log_le_log (by norm_num) (by exact_mod_cast hb.1)
  have hcpos : 0 < Real.log base := by linarith
  have hz0 : (0 : ℝ) ≤ z := Nat.cast_nonneg z
  have hn0 : (0 : ℝ) ≤ n := Nat.cast_nonneg n
  have hq0 : (0 : ℝ) ≤ (n : ℝ) * Real.log 256 / Real.log base :=
    div_nonneg (mul_nonneg hn0 hapos.le) hcpos.le
  have hq8 : (n : ℝ) * Real.log 256 / Real.log base ≤ 8 * n := by
    rw [div_le_iff₀ hcpos, ha]
    have : (n : ℝ) * Real.log 2 ≤ n * Real.log base := mul_le_mul_of_nonneg_left hc2 hn0
    linarith
  have hnz : (n : ℝ) + z ≤ 2 ^ 32 := by
    have h1 : z + n ≤ 2 ^ 32 := hlen.le
    have h2 : ((z + n : ℕ) : ℝ) ≤ ((2 ^ 32 : ℕ) : ℝ) := Nat.cast_le.2 h1
    push_cast at h2
    linarith
  have hS : (n : ℝ) * Real.log 256 / Real.log base + 1 + z ≤ 2 ^ 36 := by
    have e : (8 : ℝ) * 2 ^ 32 + 1 ≤ 2 ^ 36 := by norm_num
    linarith
  have h3 := add_real (Dbl.div (Dbl.mul (Dbl.ofNat n) (L.log 256)) (L.log base)) (Dbl.ofNat 1)
  rw [ofNat_one] at h3
  push_cast at h3
  obtain ⟨X1, X2⟩ := estimate_chain n z (Real.log 256) (Real.log base) _ _ _ _ _ _ _ _
    hn0 hz0 hapos hcpos h256 hbase (ofNat_real n) (mul_real _ _)
    (div_real _ _ (L.pos base hb.1)) h3 (ofNat_real z) (add_real _ _)
  obtain ⟨g1, g2⟩ := floor_real _ z r _ hS X1 X2 hlo hhi
  rw [toSize_spec, Nat.floor_eq_iff (toRat_nonneg _)]
  constructor
  · have : (((r + 1 + z : ℕ) : ℚ) : ℝ) ≤ ((Dbl.toRat (Dbl.add (Dbl.add (Dbl.div (Dbl.mul
        (Dbl.ofNat n) (L.log 256)) (L.log base)) (Dbl.ofNat 1)) (Dbl.ofNat z)) : ℚ) : ℝ) := by
      push_cast
      exact g1
    exact Rat.cast_le.1 this
  · have : ((Dbl.toRat (Dbl.add (Dbl.add (Dbl.div (Dbl.mul (Dbl.ofNat n) (L.log 256))
        (L.log base)) (Dbl.ofNat 1)) (Dbl.ofNat z)) : ℚ) : ℝ) <
        (((r + 1 + z : ℕ) : ℚ) + 1 : ℚ) := by
      push_cast
      exact g2
    exact Rat.cast_lt.1 this

/-! ## The doubles of `glibcLog` are the nearest to the logarithms -/

theorem log_119_near : |Real.log 119 - 5509954248380074740 / 2 ^ 60| ≤ 8 / 2 ^ 60 := by
  have t : |(9 / 128 : ℝ)| = 9 / 128 := by
    rw [abs_of_pos]
    norm_num
  have z := Real.abs_log_sub_add_sum_range_le (show |(9 / 128 : ℝ)| < 1 by rw [t]; norm_num) 16
  rw [t] at z
  have e1 : (1 : ℝ) - 9 / 128 = 119 / 128 := by norm_num
  have e128 : Real.log 128 = 7 * Real.log 2 := by
    rw [show (128 : ℝ) = 2 ^ 7 by norm_num, Real.log_pow]
    norm_num
  rw [e1, Real.log_div (by norm_num) (by norm_num), e128] at z
  have e2 : (9 / 128 : ℝ) ^ (16 + 1) / (119 / 128) ≤ 1 / 2 ^ 62 := by norm_num
  have z1 := z.trans e2
  have h2 : |7 * (799144290325165979 / 2 ^ 60) -
      (∑ i ∈ Finset.range 16, (9 / 128 : ℝ) ^ (i + 1) / ((i : ℝ) + 1)) -
      5509954248380074740 / 2 ^ 60| ≤ 3 / 4 / 2 ^ 60 := by
    simp_rw [Finset.sum_range_succ]
    norm_num
    rw [abs_le]
    constructor <;> norm_num
  obtain ⟨a1, a2⟩ := abs_le.1 log_two_near
  obtain ⟨b1, b2⟩ := abs_le.1 z1
  obtain ⟨c1, c2⟩ := abs_le.1 h2
  rw [abs_le]
  constructor <;> linarith

theorem log_222_near : |Real.log 222 - 6228862936013569187 / 2 ^ 60| ≤ 9 / 2 ^ 60 := by
  have t : |(17 / 128 : ℝ)| = 17 / 128 := by
    rw [abs_of_pos]
    norm_num
  have z := Real.abs_log_sub_add_sum_range_le
    (show |(17 / 128 : ℝ)| < 1 by rw [t]; norm_num) 22
  rw [t] at z
  have e1 : (1 : ℝ) - 17 / 128 = 222 / 256 := by norm_num
  rw [e1, Real.log_div (by norm_num) (by norm_num), log_256_eq] at z
  have e2 : (17 / 128 : ℝ) ^ (22 + 1) / (222 / 256) ≤ 1 / 2 ^ 62 := by norm_num
  have z1 := z.trans e2
  have h2 : |8 * (799144290325165979 / 2 ^ 60) -
      (∑ i ∈ Finset.range 22, (17 / 128 : ℝ) ^ (i + 1) / ((i : ℝ) + 1)) -
      6228862936013569187 / 2 ^ 60| ≤ 3 / 4 / 2 ^ 60 := by
    simp_rw [Finset.sum_range_succ]
    norm_num
    rw [abs_le]
    constructor <;> norm_num
  obtain ⟨a1, a2⟩ := abs_le.1 log_two_near
  obtain ⟨b1, b2⟩ := abs_le.1 z1
  obtain ⟨c1, c2⟩ := abs_le.1 h2
  rw [abs_le]
  constructor <;> linarith

/-- Each double of `glibcLog` is within half a unit in the last place of the logarithm: it is
the correctly rounded value. -/
theorem glibcLog_nearest :
    |((Dbl.toRat (glibcLog.log 2) : ℚ) : ℝ) - Real.log 2| ≤ 1 / 2 ^ 54 ∧
      |((Dbl.toRat (glibcLog.log 3) : ℚ) : ℝ) - Real.log 3| ≤ 1 / 2 ^ 53 ∧
      |((Dbl.toRat (glibcLog.log 16) : ℚ) : ℝ) - Real.log 16| ≤ 1 / 2 ^ 52 ∧
      |((Dbl.toRat (glibcLog.log 119) : ℚ) : ℝ) - Real.log 119| ≤ 1 / 2 ^ 51 ∧
      |((Dbl.toRat (glibcLog.log 222) : ℚ) : ℝ) - Real.log 222| ≤ 1 / 2 ^ 51 ∧
      |((Dbl.toRat (glibcLog.log 256) : ℚ) : ℝ) - Real.log 256| ≤ 1 / 2 ^ 51 := by
  have v2 : Dbl.toRat (glibcLog.log 2) = 0x162e42fefa39ef / 2 ^ 53 := by
    norm_num [glibcLog, Dbl.toRat]
  have v3 : Dbl.toRat (glibcLog.log 3) = 0x1193ea7aad030b / 2 ^ 52 := by
    norm_num [glibcLog, Dbl.toRat]
  have v16 : Dbl.toRat (glibcLog.log 16) = 0x162e42fefa39ef / 2 ^ 51 := by
    norm_num [glibcLog, Dbl.toRat]
  have v119 : Dbl.toRat (glibcLog.log 119) = 0x131dd28c89d653 / 2 ^ 50 := by
    norm_num [glibcLog, Dbl.toRat]
  have v222 : Dbl.toRat (glibcLog.log 222) = 0x159c5775a7ebdf / 2 ^ 50 := by
    norm_num [glibcLog, Dbl.toRat]
  have v256 : Dbl.toRat (glibcLog.log 256) = 0x162e42fefa39ef / 2 ^ 50 := by
    norm_num [glibcLog, Dbl.toRat]
  have e16 : Real.log 16 = 4 * Real.log 2 := by
    rw [show (16 : ℝ) = 2 ^ 4 by norm_num, Real.log_pow]
    norm_num
  obtain ⟨a1, a2⟩ := abs_le.1 log_two_near
  obtain ⟨b1, b2⟩ := abs_le.1 log_three_near
  obtain ⟨c1, c2⟩ := abs_le.1 log_119_near
  obtain ⟨d1, d2⟩ := abs_le.1 log_222_near
  rw [v2, v3, v16, v119, v222, v256, e16, log_256_eq]
  push_cast
  refine ⟨?_, ?_, ?_, ?_, ?_, ?_⟩ <;> rw [abs_le] <;> constructor <;> norm_num <;> linarith

/-! ## The formula of `sizeEncoded` -/

theorem glibc_256 :
    |((Dbl.toRat (glibcLog.log 256) : ℚ) : ℝ) - Real.log 256| ≤ Real.log 256 / 2 ^ 50 := by
  have hv : Dbl.toRat (glibcLog.log 256) = 0x162e42fefa39ef / 2 ^ 50 := by
    norm_num [glibcLog, Dbl.toRat]
  obtain ⟨a1, a2⟩ := abs_le.1 log_two_near
  rw [hv, log_256_eq, abs_le]
  push_cast
  constructor <;> norm_num <;> linarith

theorem glibc_3 :
    |((Dbl.toRat (glibcLog.log 3) : ℚ) : ℝ) - Real.log 3| ≤ Real.log 3 / 2 ^ 50 := by
  have hv : Dbl.toRat (glibcLog.log 3) = 0x1193ea7aad030b / 2 ^ 52 := by
    norm_num [glibcLog, Dbl.toRat]
  obtain ⟨a1, a2⟩ := abs_le.1 log_three_near
  rw [hv, abs_le]
  push_cast
  constructor <;> norm_num <;> linarith

/-- The quotient `ln 256 / ln 3` is `5.047...`. -/
theorem quotient_3 :
    (5 : ℝ) + 1 / 2 ^ 10 ≤ 1 * Real.log 256 / Real.log 3 ∧
      1 * Real.log 256 / Real.log 3 ≤ 5 + 1 - 1 / 2 ^ 10 := by
  obtain ⟨a1, a2⟩ := abs_le.1 log_two_near
  obtain ⟨b1, b2⟩ := abs_le.1 log_three_near
  have h3 : 0 < Real.log 3 := by
    norm_num at b1
    linarith
  rw [log_256_eq, le_div_iff₀ h3, div_le_iff₀ h3]
  constructor <;> norm_num at a1 a2 b1 b2 ⊢ <;> linarith

theorem sizeEncoded_glibc_3 : sizeEncoded glibcLog [1] 3 = .ok 6 := by
  have h := sizeEncoded_run glibcLog 3 0 [1] (by decide) (by decide)
  have hlt : Dbl.lt (Dbl.div (Dbl.ofNat (2 ^ 64 - 1)) (glibcLog.log 256))
      (Dbl.ofNat [1].length) = false := by decide!
  have hv : Dbl.toSize (Dbl.add (Dbl.add (Dbl.div (Dbl.mul (Dbl.ofNat [1].length)
      (glibcLog.log 256)) (glibcLog.log 3)) (Dbl.ofNat 1)) (Dbl.ofNat 0)) = 6 := by decide!
  rw [hlt, hv] at h
  exact h

/-- C14, as stated, fails. For the byte sequence `[1]` at base 3 the claim gives
`ceil(1 * ln 256 / ln 3) + 1 + 0 = 7`; `sizeEncoded` returns 6, for every `std::log` accurate
to `2^-50` at 3 and at 256, and in particular for the doubles nearest to the logarithms: the
quotient is `5.047...`, the sum `6.047...`, and the conversion to `size_t` truncates it. -/
theorem sizeEncoded_not_ceil :
    (∀ L : Libm,
        |((Dbl.toRat (L.log 256) : ℚ) : ℝ) - Real.log 256| ≤ Real.log 256 / 2 ^ 50 →
        |((Dbl.toRat (L.log 3) : ℚ) : ℝ) - Real.log 3| ≤ Real.log 3 / 2 ^ 50 →
        sizeEncoded L [1] 3 = .ok 6) ∧
      sizeEncoded glibcLog [1] 3 = .ok 6 ∧
      ⌈((1 : ℕ) : ℝ) * Real.log 256 / Real.log ((3 : ℕ) : ℝ)⌉ + 1 + 0 = 7 := by
  obtain ⟨q1, q2⟩ := quotient_3
  refine ⟨?_, sizeEncoded_glibc_3, ?_⟩
  · intro L h256 h3
    have h := sizeEncoded_value L 3 0 5 [1] (by decide) (by decide) (by norm_num) h256
      (by simpa using h3) (by simpa using q1) (by simpa using q2)
    simpa using h
  · have hc : ⌈((1 : ℕ) : ℝ) * Real.log 256 / Real.log ((3 : ℕ) : ℝ)⌉ = 6 := by
      rw [Int.ceil_eq_iff]
      push_cast
      constructor
      · have e : (0 : ℝ) < 1 / 2 ^ 10 := by norm_num
        linarith
      · have e : (0 : ℝ) < 1 / 2 ^ 10 := by norm_num
        linarith
    rw [hc]
    rfl

/-- C14, amended. The formula of `sizeEncoded`: for every base in [2,254] and byte sequence of
fewer than `2^32` bytes with `z` leading zero bytes and the further bytes `d`, when `std::log`
is accurate to `2^-50` at 256 and at the base and the quotient `len(d) * ln 256 / ln base` is at
least `2^-10` away from the integers next to it (`r` below, `r + 1` above), `sizeEncoded`
returns `r + 1 + z`, where `r` is the integer part (the floor) of the quotient: the conversion
of the double to `size_t` truncates. -/
theorem sizeEncoded_floor (L : Libm) (base z r : Nat) (d : List Nat)
    (hb : 2 ≤ base ∧ base ≤ 254) (hd0 : d.head? ≠ some 0) (hlen : z + d.length < 2 ^ 32)
    (h256 : |((Dbl.toRat (L.log 256) : ℚ) : ℝ) - Real.log 256| ≤ Real.log 256 / 2 ^ 50)
    (hbase : |((Dbl.toRat (L.log base) : ℚ) : ℝ) - Real.log base| ≤ Real.log base / 2 ^ 50)
    (hlo : (r : ℝ) + 1 / 2 ^ 10 ≤ (d.length : ℝ) * Real.log 256 / Real.log base)
    (hhi : (d.length : ℝ) * Real.log 256 / Real.log base ≤ (r : ℝ) + 1 - 1 / 2 ^ 10) :
    sizeEncoded L (List.replicate z 0 ++ d) base = .ok (r + 1 + z) ∧
      ⌊(d.length : ℝ) * Real.log 256 / Real.log base⌋ = (r : ℤ) := by
  refine ⟨sizeEncoded_value L base z r d hb hd0 hlen h256 hbase hlo hhi, ?_⟩
  rw [Int.floor_eq_iff]
  have e : (0 : ℝ) < 1 / 2 ^ 10 := by norm_num
  push_cast
  constructor <;> linarith

/-- C14, amended, at `[0, 0, 1]`, base 3, with the doubles nearest to the logarithms:
`5 + 1 + 2`. -/
theorem sizeEncoded_floor_witness :
    sizeEncoded glibcLog (List.replicate 2 0 ++ [1]) 3 = .ok (5 + 1 + 2) ∧
      ⌊(([1] : List Nat).length : ℝ) * Real.log 256 / Real.log ((3 : ℕ) : ℝ)⌋ = ((5 : ℕ) : ℤ) :=
  sizeEncoded_floor glibcLog 3 2 5 [1] (by decide) (by decide) (by norm_num) glibc_256
    (by simpa using glibc_3) (by simpa using quotient_3.1) (by simpa using quotient_3.2)

/-! ## The shape of what `decode` writes, for a buffer of any size -/

theorem hex_encode_length : ∀ data : List Nat, (hex.encode data).length = 2 * data.length := by
  intro data
  induction data with
  | nil => rfl
  | cons b rest ih =>
    rw [hex.encode, List.length_cons, List.length_cons, ih, List.length_cons]
    omega

theorem hex_encode_zeros (r : List Nat) : ∀ z : Nat,
    hex.encode (List.replicate z 0 ++ r) = List.replicate (2 * z) 48 ++ hex.encode r := by
  intro z
  induction z with
  | zero => rfl
  | succ z ih =>
    rw [List.replicate_succ, List.cons_append, hex.encode, ih,
      show 2 * (z + 1) = (2 * z + 1) + 1 by omega, List.replicate_succ, List.replicate_succ]
    rfl

/-- C6. Leading-zero preservation scenario, in the hex format of the spec: encoding the bytes
`[0, 0, 5]` yields the 6-character string "000005", two characters per byte with a pair of
zero-digits for each leading zero byte, not a shortened string; in general the hex encoding has
two characters per byte and every leading zero byte yields "00". -/
theorem hex_encode_005 :
    hex.encode [0, 0, 5] = [48, 48, 48, 48, 48, 53] ∧
      (hex.encode [0, 0, 5]).length = 6 ∧
      hex.encode [0, 0, 5] ≠ [53] ∧
      (∀ data : List Nat, (hex.encode data).length = 2 * data.length) ∧
      (∀ (z : Nat) (r : List Nat),
        hex.encode (List.replicate z 0 ++ r) = List.replicate (2 * z) 48 ++ hex.encode r) ∧
      hex.encode [0x4D, 0x61, 0x6E] = [52, 100, 54, 49, 54, 101] :=
  ⟨by decide, by decide, by decide, hex_encode_length, fun z r => hex_encode_zeros r z,
    by decide⟩

end baseN
